import Mathlib

/-!
Verification development for the gantt-data-manager core.

The TypeScript sources are shallowly embedded:
* `Date` values are modelled as UTC timestamps in milliseconds (`Int`).
* JS `Map<string, _>` is modelled as an insertion-ordered association list;
  `Map.set` overwrites in place, `Map.get` returns the first binding.
* JS `Set<string>` is modelled as a duplicate-free list in insertion order.
* JS exceptions are modelled by returning `Option GraphError` next to the
  (possibly partially mutated) state.
-/

namespace GanttSpec

/-- Error kinds thrown by the graph core (src/lib/constants, enum GraphError). -/
inductive GraphError where
  | RootChange
  | RootRemoval
  | EntryDuplicate
  | EmptyName
  | InvalidInput
  | ZeroDuration
  | NegativeDuration
  | MissingEntry
  | MissingParent
  | MissingChild
  | SelfReference
  | RootReference
  | GraphLoop
  | NodeLimitExceeded
deriving DecidableEq, Repr

/-- A graph node (src/lib/types, type entryNode).  `start` is the optional
user-supplied start date; `color` is one of the ten color identifiers. -/
structure entryNode where
  name : String
  duration : Int
  parents : Option (List String)
  children : Option (List String)
  color : Nat
  start : Option Int
deriving DecidableEq, Repr

/-- JS `Map.get`: the first binding for `k`, if any. -/
def mapGet (l : List (String × α)) (k : String) : Option α :=
  match l with
  | [] => none
  | (k2, v) :: t => if k2 = k then some v else mapGet t k

/-- JS `Map.has`. -/
def mapHas (l : List (String × α)) (k : String) : Bool :=
  (mapGet l k).isSome

/-- JS `Map.set`: overwrite in place (keeping insertion order), else append. -/
def mapSet (l : List (String × α)) (k : String) (v : α) : List (String × α) :=
  match l with
  | [] => [(k, v)]
  | (k2, v2) :: t => if k2 = k then (k2, v) :: t else (k2, v2) :: mapSet t k v

/-- JS `Map.delete` (keys are unique, so deleting the first binding suffices). -/
def mapDelete (l : List (String × α)) (k : String) : List (String × α) :=
  match l with
  | [] => []
  | (k2, v) :: t => if k2 = k then t else (k2, v) :: mapDelete t k

/-- JS `Set.add`: append if not yet present (insertion order preserved). -/
def jsSetInsert (s : List String) (x : String) : List String :=
  if x ∈ s then s else s ++ [x]

/-- `new Set(array)`: deduplicate keeping first occurrences. -/
def jsSetOfList (l : List String) : List String :=
  l.foldl jsSetInsert []

/-- JS `Set.delete`. -/
def jsSetDelete (s : List String) (x : String) : List String :=
  s.filter (fun y => y ≠ x)

/-- Milliseconds per day. -/
def DAY_MS : Int := 86400000

/-- UTC day of the month (1..31) of a millisecond timestamp, via the standard
civil-from-days algorithm.  Models JS `Date.prototype.getDate`. -/
def dayOfMonth (t : Int) : Int :=
  let z := t.fdiv DAY_MS + 719468
  let era := z.fdiv 146097
  let doe := z - era * 146097
  let yoe := (doe - doe.fdiv 1460 + doe.fdiv 36524 - doe.fdiv 146096).fdiv 365
  let doy := doe - (365 * yoe + yoe.fdiv 4 - yoe.fdiv 100)
  let mp := (5 * doy + 2).fdiv 153
  doy - (153 * mp + 2).fdiv 5 + 1

/-- Render output element (src/lib/types, type ganttElement).  The source field
`end` is called `endDate` here because `end` is reserved in Lean. -/
structure ganttElement where
  name : String
  start : Int
  endDate : Int
  parents : Option (List String)
  children : Option (List String)
  color : Nat
  overlappingStart : Option Int
deriving DecidableEq, Repr

/-- src/lib/renderMap, createGanttElement. -/
def createGanttElement (name : String) (start endDate : Int)
    (parents children : Option (List String)) (color : Nat)
    (overlappingStart : Option Int) : ganttElement :=
  { name := name, start := start, endDate := endDate, parents := parents,
    children := children, color := color, overlappingStart := overlappingStart }

/-- src/lib/renderMap, sortGanttElements: the UI ordering comparator.  Note that
it compares only the day of the month of the end dates. -/
def sortGanttElements (a b : ganttElement) : Int :=
  if a.children ≠ none ∧ b.children = none then 1
  else if b.children ≠ none ∧ a.children = none then -1
  else if a.endDate = b.endDate then 0
  else if dayOfMonth a.endDate - dayOfMonth b.endDate > 0 then 1
  else -1

/-- Insert `x` into `l` before the first element `y` with `c x y < 0`
(stable insertion used to model `Array.prototype.sort`). -/
def insertSortedJS (c : α → α → Int) (x : α) : List α → List α
  | [] => [x]
  | y :: ys => if c x y < 0 then x :: y :: ys else y :: insertSortedJS c x ys

/-- Stable comparator sort modelling `Array.prototype.sort`. -/
def sortJS (c : α → α → Int) (l : List α) : List α :=
  l.foldl (fun acc x => insertSortedJS c x acc) []

/-- State of the createRenderMap traversal loop.  The adjacency list is part of
the state to make the read-only claim about it expressible. -/
structure RenderState where
  adjList : List (String × entryNode)
  dfsStack : List String
  renderMap : List (String × ganttElement)
  pendingMap : List (String × Int)
deriving DecidableEq, Repr

/-- The start-date computation for a ready child (the `reduce` in
createRenderMap): project start when the popped node is the root, otherwise a
left fold over the child's parents starting from 0, where a parent present in
the render map contributes `max` with its end date and an absent parent
replaces the accumulator with the project start. -/
def computeChildStart (rootName : String) (projectStart : Int)
    (currentName : String) (rmap : List (String × ganttElement))
    (childParents : List String) : Int :=
  if currentName = rootName then projectStart
  else childParents.foldl
    (fun mx p =>
      match mapGet rmap p with
      | none => projectStart
      | some parentNode => max mx parentNode.endDate) 0

/-- Body of `currentNode?.children?.forEach` in createRenderMap: processes one
child, either emitting a ready gantt element or updating the pending map. -/
def processChild (rootName : String) (projectStart : Int)
    (currentNode : entryNode) (acc : RenderState × List ganttElement)
    (childName : String) : RenderState × List ganttElement :=
  let st := acc.1
  let elems := acc.2
  match mapGet st.adjList childName with
  | none => acc
  | some childNode =>
    let childNodeParents : List String := childNode.parents.getD []
    if childNodeParents.length = 1 ∨ mapGet st.pendingMap childNode.name = some 1 then
      let start0 := computeChildStart rootName projectStart currentNode.name
        st.renderMap childNodeParents
      let startOverlap : Int × Bool :=
        match childNode.start with
        | none => (start0, false)
        | some h => if start0 ≤ h then (h, false) else (start0, true)
      let endDate : Int := startOverlap.1 + childNode.duration * DAY_MS
      let elem := createGanttElement childNode.name startOverlap.1 endDate
        childNode.parents childNode.children childNode.color
        (if startOverlap.2 then childNode.start else none)
      (st, elems ++ [elem])
    else if mapHas st.pendingMap childNode.name then
      match mapGet st.pendingMap childNode.name with
      | some currentCount =>
        ({ st with pendingMap := mapSet st.pendingMap childNode.name (currentCount - 1) },
         elems)
      | none => acc
    else
      ({ st with pendingMap := mapSet st.pendingMap childNode.name (childNodeParents.length - 1) },
       elems)

/-- Sort the elements processed in one pop, push the ones that have children
onto the stack and record all of them in the render map (stack pushes go to the
top, so the pop order is the reverse of the sorted order, as with JS arrays). -/
def pushReady (st : RenderState) (elems : List ganttElement) : RenderState :=
  (sortJS sortGanttElements elems).foldl
    (fun s el =>
      let s2 :=
        if (el.children.getD []).length ≠ 0 then
          { s with dfsStack := el.name :: s.dfsStack }
        else s
      { s2 with renderMap := mapSet s2.renderMap el.name el })
    st

/-- One iteration of the createRenderMap while loop: pop a node and process its
children. -/
def renderStep (rootName : String) (projectStart : Int) (st : RenderState) :
    RenderState :=
  match st.dfsStack with
  | [] => st
  | currentNodeName :: rest =>
    let st1 : RenderState := { st with dfsStack := rest }
    match mapGet st1.adjList currentNodeName with
    | none => st1
    | some currentNode =>
      let res := (currentNode.children.getD []).foldl
        (processChild rootName projectStart currentNode) (st1, [])
      pushReady res.1 res.2

/-- The while loop of createRenderMap.  `fuel` bounds the number of iterations;
the loop of the source terminates on every input the library produces
(acyclic graphs), and the chosen fuel dominates the iteration count there. -/
def renderLoop (rootName : String) (projectStart : Int) :
    Nat → RenderState → RenderState
  | 0, st => st
  | fuel + 1, st =>
    match st.dfsStack with
    | [] => st
    | _ :: _ => renderLoop rootName projectStart fuel (renderStep rootName projectStart st)

/-- Fuel used by `createRenderMap`. -/
def renderFuel (adjList : List (String × entryNode)) : Nat :=
  2 ^ (adjList.length + 1)

/-- Initial traversal state (stack seeded with the initial node). -/
def initialRenderState (adjList : List (String × entryNode))
    (initialNodeName : String) : RenderState :=
  { adjList := adjList, dfsStack := [initialNodeName], renderMap := [],
    pendingMap := [] }

/-- src/lib/renderMap, createRenderMap. -/
def createRenderMap (adjList : List (String × entryNode)) (rootName : String)
    (projectStart : Int) (initialNodeName : String) :
    List (String × ganttElement) :=
  (renderLoop rootName projectStart (renderFuel adjList)
    (initialRenderState adjList initialNodeName)).renderMap

/-! ### Basic lemmas about the JS map/set/sort models -/

theorem mapGet_mapSet (l : List (String × α)) (k k2 : String) (v : α) :
    mapGet (mapSet l k v) k2 = if k = k2 then some v else mapGet l k2 := by
  induction l with
  | nil => simp [mapSet, mapGet]
  | cons h t ih =>
    obtain ⟨k3, v3⟩ := h
    by_cases h3 : k3 = k
    · subst h3
      by_cases h2 : k3 = k2 <;> simp [mapSet, mapGet, h2]
    · by_cases h2 : k3 = k2
      · subst h2
        have : k ≠ k3 := fun h => h3 h.symm
        simp [mapSet, mapGet, h3, this]
      · simp [mapSet, mapGet, h3, h2, ih]

theorem mem_insertSortedJS (c : α → α → Int) (x a : α) (l : List α) :
    a ∈ insertSortedJS c x l ↔ a = x ∨ a ∈ l := by
  induction l with
  | nil => simp [insertSortedJS]
  | cons y ys ih =>
    by_cases h : c x y < 0
    · simp [insertSortedJS, h]
    · simp only [insertSortedJS, if_neg h, List.mem_cons, ih]
      tauto

theorem mem_sortJS_aux (c : α → α → Int) (a : α) :
    ∀ (l acc : List α),
      a ∈ l.foldl (fun acc x => insertSortedJS c x acc) acc ↔ a ∈ acc ∨ a ∈ l := by
  intro l
  induction l with
  | nil => simp
  | cons x xs ih =>
    intro acc
    simp only [List.foldl_cons, ih, mem_insertSortedJS, List.mem_cons]
    tauto

theorem mem_sortJS (c : α → α → Int) (a : α) (l : List α) :
    a ∈ sortJS c l ↔ a ∈ l := by
  simp [sortJS, mem_sortJS_aux]

/-! ### Frame lemmas for the traversal -/

theorem processChild_frame (rootName : String) (projectStart : Int)
    (currentNode : entryNode) (acc : RenderState × List ganttElement)
    (childName : String) :
    (processChild rootName projectStart currentNode acc childName).1.adjList
        = acc.1.adjList ∧
    (processChild rootName projectStart currentNode acc childName).1.dfsStack
        = acc.1.dfsStack ∧
    (processChild rootName projectStart currentNode acc childName).1.renderMap
        = acc.1.renderMap := by
  obtain ⟨st, elems⟩ := acc
  unfold processChild
  cases h : mapGet st.adjList childName with
  | none => simp [h]
  | some childNode =>
    simp only [h]
    by_cases h1 : (childNode.parents.getD []).length = 1 ∨
        mapGet st.pendingMap childNode.name = some 1
    · simp [h1]
    · by_cases h2 : mapHas st.pendingMap childNode.name = true
      · simp only [if_neg h1, h2, if_true]
        cases h3 : mapGet st.pendingMap childNode.name <;> simp [h3]
      · simp [h1, h2]

theorem processChild_fold_frame (rootName : String) (projectStart : Int)
    (currentNode : entryNode) :
    ∀ (l : List String) (acc : RenderState × List ganttElement),
      (l.foldl (processChild rootName projectStart currentNode) acc).1.adjList
          = acc.1.adjList ∧
      (l.foldl (processChild rootName projectStart currentNode) acc).1.dfsStack
          = acc.1.dfsStack ∧
      (l.foldl (processChild rootName projectStart currentNode) acc).1.renderMap
          = acc.1.renderMap := by
  intro l
  induction l with
  | nil => simp
  | cons c t ih =>
    intro acc
    have h := processChild_frame rootName projectStart currentNode acc c
    simp only [List.foldl_cons]
    refine ⟨?_, ?_, ?_⟩
    · rw [(ih _).1, h.1]
    · rw [(ih _).2.1, h.2.1]
    · rw [(ih _).2.2, h.2.2]

theorem pushReady_foldl_adjList (elems : List ganttElement) :
    ∀ (st : RenderState),
      (elems.foldl
        (fun s el =>
          let s2 :=
            if (el.children.getD []).length ≠ 0 then
              { s with dfsStack := el.name :: s.dfsStack }
            else s
          { s2 with renderMap := mapSet s2.renderMap el.name el }) st).adjList
        = st.adjList := by
  induction elems with
  | nil => intro st; rfl
  | cons e t ih =>
    intro st
    simp only [List.foldl_cons]
    rw [ih]
    by_cases h : (e.children.getD []).length ≠ 0 <;> simp [h]

theorem pushReady_adjList (st : RenderState) (elems : List ganttElement) :
    (pushReady st elems).adjList = st.adjList := by
  unfold pushReady
  exact pushReady_foldl_adjList _ st

theorem renderStep_adjList (rootName : String) (projectStart : Int)
    (st : RenderState) :
    (renderStep rootName projectStart st).adjList = st.adjList := by
  unfold renderStep
  cases h : st.dfsStack with
  | nil => rfl
  | cons cur rest =>
    cases h2 : mapGet st.adjList cur with
    | none => simp [h2]
    | some currentNode =>
      simp only [h2]
      rw [pushReady_adjList]
      exact (processChild_fold_frame rootName projectStart currentNode _ _).1

theorem renderLoop_adjList (rootName : String) (projectStart : Int) :
    ∀ (fuel : Nat) (st : RenderState),
      (renderLoop rootName projectStart fuel st).adjList = st.adjList := by
  intro fuel
  induction fuel with
  | zero => intro st; rfl
  | succ n ih =>
    intro st
    unfold renderLoop
    cases h : st.dfsStack with
    | nil => rfl
    | cons cur rest =>
      rw [ih, renderStep_adjList]

/-- C10.  createRenderMap never mutates its input: the node collection held in
the traversal state after the whole loop is exactly the one passed in — every
node's attributes and the key set are unchanged. -/
theorem claim_C10 (adjList : List (String × entryNode))
    (rootName startNode : String) (projectStart : Int) :
    (renderLoop rootName projectStart (renderFuel adjList)
      (initialRenderState adjList startNode)).adjList = adjList :=
  renderLoop_adjList rootName projectStart (renderFuel adjList)
    (initialRenderState adjList startNode)

/-! ### C5: the UI ordering comparator -/

/-- The ordering stated by the spec for C5: nodes with no children sort after
nodes with children, and among nodes of equal leaf status the one with the
earlier end date sorts first (comparator negative means the first argument
sorts first). -/
def claimC5Stmt : Prop :=
  ∀ a b : ganttElement,
    (a.children = none → b.children ≠ none → 0 < sortGanttElements a b) ∧
    ((a.children = none ↔ b.children = none) → a.endDate < b.endDate →
      sortGanttElements a b < 0)

/-- A childless element. -/
def gLeaf : ganttElement :=
  { name := "L", start := 0, endDate := DAY_MS, parents := some ["R"],
    children := none, color := 1, overlappingStart := none }

/-- An element with children. -/
def gBranch : ganttElement :=
  { name := "N", start := 0, endDate := 2 * DAY_MS, parents := some ["R"],
    children := some ["L"], color := 1, overlappingStart := none }

/-- A childless element ending 2026-01-31 (day 20484 since the epoch). -/
def gLeafJan31 : ganttElement :=
  { name := "P", start := 0, endDate := 20484 * DAY_MS, parents := some ["R"],
    children := none, color := 1, overlappingStart := none }

/-- A childless element ending 2026-02-01 (day 20485 since the epoch). -/
def gLeafFeb01 : ganttElement :=
  { name := "Q", start := 0, endDate := 20485 * DAY_MS, parents := some ["R"],
    children := none, color := 1, overlappingStart := none }

/-- C5 counterexample.  The comparator sorts a childless element BEFORE one
with children (it returns -1, not a positive value), and an element with the
earlier end date can sort AFTER one with a later end date when the later date
falls on a smaller day of the month (only days of the month are compared). -/
theorem claim_C5_cex :
    (¬ claimC5Stmt) ∧
    sortGanttElements gLeafJan31 gLeafFeb01 = 1 ∧
    gLeafJan31.endDate < gLeafFeb01.endDate := by
  refine ⟨fun h => ?_, by decide, by decide⟩
  have h1 := (h gLeaf gBranch).1 rfl (by decide)
  have h2 : sortGanttElements gLeaf gBranch = -1 := by decide
  omega

/-- C5 as amended: a childless element sorts before an element with children
(the comparator returns -1, resp. 1 in the mirrored case), and among elements
of equal leaf status with distinct end dates, the comparator puts first the one
whose end date has the smaller or equal day of the month (it compares only the
day of the month, not the full date). -/
theorem claim_C5 (a b : ganttElement) :
    (a.children = none → b.children ≠ none → sortGanttElements a b = -1) ∧
    (a.children ≠ none → b.children = none → sortGanttElements a b = 1) ∧
    ((a.children = none ↔ b.children = none) → a.endDate ≠ b.endDate →
      (sortGanttElements a b < 0 ↔ dayOfMonth a.endDate ≤ dayOfMonth b.endDate)) := by
  unfold sortGanttElements
  refine ⟨fun ha hb => ?_, fun ha hb => ?_, fun hiff hne => ?_⟩
  · rw [if_neg (by simp [ha]), if_pos ⟨hb, ha⟩]
  · rw [if_pos ⟨ha, hb⟩]
  · have h1 : ¬ (a.children ≠ none ∧ b.children = none) := by
      rintro ⟨x, y⟩; exact x (hiff.mpr y)
    have h2 : ¬ (b.children ≠ none ∧ a.children = none) := by
      rintro ⟨x, y⟩; exact x (hiff.mp y)
    rw [if_neg h1, if_neg h2, if_neg hne]
    by_cases hd : dayOfMonth a.endDate - dayOfMonth b.endDate > 0
    · rw [if_pos hd]
      constructor
      · intro hlt; omega
      · intro hle; omega
    · rw [if_neg hd]
      constructor
      · intro _; omega
      · intro _; omega

/-- C5 witness: the amended theorem evaluated at concrete elements. -/
theorem claim_C5_witness :
    sortGanttElements gLeaf gBranch = -1 ∧
    sortGanttElements gBranch gLeaf = 1 ∧
    (sortGanttElements gLeafJan31 gLeafFeb01 < 0 ↔
      dayOfMonth gLeafJan31.endDate ≤ dayOfMonth gLeafFeb01.endDate) :=
  ⟨(claim_C5 gLeaf gBranch).1 rfl (by decide),
   (claim_C5 gBranch gLeaf).2.1 (by decide) rfl,
   (claim_C5 gLeafJan31 gLeafFeb01).2.2 (by decide) (by decide)⟩

/-! ### C3: the start date computed for a ready child -/

/-- Modelled from the spec: the start date the spec claims for a ready child of
a non-root node — the maximum end date among the parents already present in the
result mapping, with each parent not yet scheduled contributing the project
start date as a floor. -/
def specReadyChildStart (projectStart : Int)
    (rmap : List (String × ganttElement)) (childParents : List String) : Int :=
  (childParents.map
    (fun p =>
      match mapGet rmap p with
      | some parentNode => parentNode.endDate
      | none => projectStart)).foldl max projectStart

/-- Concrete graph for the C3 counterexample: root R → A, A → B, A → C, B → C,
with C's parents stored in the order [B, A].  (Reachable in the library via
addNode "A"; addNode "B" parents [A]; addNode "C" parents [B, A].) -/
def adjC3 : List (String × entryNode) :=
  [ ("R", { name := "R", duration := 0, parents := none,
            children := some ["A"], color := 1, start := none }),
    ("A", { name := "A", duration := 1, parents := some ["R"],
            children := some ["B", "C"], color := 1, start := none }),
    ("B", { name := "B", duration := 2, parents := some ["A"],
            children := some ["C"], color := 1, start := none }),
    ("C", { name := "C", duration := 3, parents := some ["B", "A"],
            children := none, color := 1, start := none }) ]

/-- The element createRenderMap computes for "B" in `adjC3` (start from "A"). -/
def gB3 : ganttElement :=
  { name := "B", start := 0, endDate := 2 * DAY_MS, parents := some ["A"],
    children := some ["C"], color := 1, overlappingStart := none }

/-- C3 counterexample.  Rendering `adjC3` from "A" (project start 0), the child
"C" becomes ready from the pop of "B" while its other parent "A" (the start
node, never scheduled) is absent from the result mapping.  The spec claims C's
start is the maximum scheduled-parent end with the project start as a floor for
absent parents, i.e. B's end (2 days); the code's fold instead RESETS the
accumulator to the project start when it meets the absent parent "A" after "B",
so C's computed start is 0. -/
theorem claim_C3_cex :
    mapGet (createRenderMap adjC3 "R" 0 "A") "B" = some gB3 ∧
    mapGet (createRenderMap adjC3 "R" 0 "A") "C" =
      some { name := "C", start := 0, endDate := 3 * DAY_MS,
             parents := some ["B", "A"], children := none, color := 1,
             overlappingStart := none } ∧
    specReadyChildStart 0 [("B", gB3)] ["B", "A"] = 2 * DAY_MS ∧
    ((0 : Int) ≠ 2 * DAY_MS) := by
  refine ⟨by decide, by decide, by decide, by decide⟩

/-- C3 as amended.  For a ready child of a popped root node the computed start
is the project start.  For a ready child of a non-root popped node whose
parents are ALL present in the result mapping, the computed start is the
maximum of their end dates, floored at 0 (the fold starts from the integer 0,
i.e. the epoch, not from the project start); in particular for two scheduled
parents with end dates at or after the epoch it is the later of the two end
dates.  (When some parent is absent, the fold resets to the project start
instead of flooring — the counterexample.) -/
theorem claim_C3 (rootName currentName : String) (projectStart : Int)
    (rmap : List (String × ganttElement)) (ps : List String) :
    (currentName = rootName →
      computeChildStart rootName projectStart currentName rmap ps = projectStart) ∧
    (currentName ≠ rootName → (∀ p ∈ ps, (mapGet rmap p).isSome) →
      (0 ≤ computeChildStart rootName projectStart currentName rmap ps ∧
       (∀ p e, p ∈ ps → mapGet rmap p = some e →
         e.endDate ≤ computeChildStart rootName projectStart currentName rmap ps) ∧
       (computeChildStart rootName projectStart currentName rmap ps = 0 ∨
        ∃ p e, p ∈ ps ∧ mapGet rmap p = some e ∧
          computeChildStart rootName projectStart currentName rmap ps = e.endDate))) ∧
    (currentName ≠ rootName → ∀ p1 p2 e1 e2, ps = [p1, p2] →
      mapGet rmap p1 = some e1 → mapGet rmap p2 = some e2 →
      0 ≤ e1.endDate → 0 ≤ e2.endDate →
      computeChildStart rootName projectStart currentName rmap ps
        = max e1.endDate e2.endDate) := by
  have hfold : ∀ (l : List String) (acc : Int),
      (∀ p ∈ l, (mapGet rmap p).isSome) →
      acc ≤ l.foldl
          (fun mx p =>
            match mapGet rmap p with
            | none => projectStart
            | some parentNode => max mx parentNode.endDate) acc ∧
      (∀ p e, p ∈ l → mapGet rmap p = some e →
        e.endDate ≤ l.foldl
          (fun mx p =>
            match mapGet rmap p with
            | none => projectStart
            | some parentNode => max mx parentNode.endDate) acc) ∧
      (l.foldl
          (fun mx p =>
            match mapGet rmap p with
            | none => projectStart
            | some parentNode => max mx parentNode.endDate) acc = acc ∨
       ∃ p e, p ∈ l ∧ mapGet rmap p = some e ∧
        l.foldl
          (fun mx p =>
            match mapGet rmap p with
            | none => projectStart
            | some parentNode => max mx parentNode.endDate) acc = e.endDate) := by
    intro l
    induction l with
    | nil => intro acc h; simp
    | cons p t ih =>
      intro acc h
      have hp : (mapGet rmap p).isSome := h p (List.mem_cons_self p t)
      obtain ⟨e, he⟩ := Option.isSome_iff_exists.mp hp
      have ht : ∀ q ∈ t, (mapGet rmap q).isSome := fun q hq => h q (List.mem_cons_of_mem p hq)
      obtain ⟨ih1, ih2, ih3⟩ := ih (max acc e.endDate) ht
      simp only [List.foldl_cons, he]
      refine ⟨le_trans (le_max_left _ _) ih1, ?_, ?_⟩
      · intro q eq hq heq
        rcases List.mem_cons.mp hq with hq1 | hq2
        · subst hq1
          rw [he] at heq
          cases heq
          exact le_trans (le_max_right _ _) ih1
        · exact ih2 q eq hq2 heq
      · rcases ih3 with h3 | ⟨q, eq, hq, heq, hv⟩
        · rcases le_total acc e.endDate with hle | hle
          · right
            exact ⟨p, e, List.mem_cons_self p t, he, by rw [h3]; exact max_eq_right hle⟩
          · left
            rw [h3]; exact max_eq_left hle
        · right
          exact ⟨q, eq, List.mem_cons_of_mem p hq, heq, hv⟩
  refine ⟨fun hroot => ?_, fun hnr hall => ?_, fun hnr p1 p2 e1 e2 hps h1 h2 hpos1 hpos2 => ?_⟩
  · simp [computeChildStart, hroot]
  · have := hfold ps 0 hall
    simp only [computeChildStart, if_neg hnr]
    refine ⟨?_, this.2.1, ?_⟩
    · exact this.1
    · rcases this.2.2 with h | h
      · left; exact h
      · right; exact h
  · subst hps
    simp only [computeChildStart, if_neg hnr, List.foldl_cons, List.foldl_nil]
    simp only [h1, h2]
    rw [max_eq_right hpos1]

/-- Element used by the C3 witness. -/
def gA3w : ganttElement :=
  { name := "A", start := 0, endDate := 5 * DAY_MS, parents := some ["R"],
    children := some ["C"], color := 1, overlappingStart := none }

/-- C3 witness: the amended theorem evaluated at concrete inputs (a root pop,
and a join child with two scheduled parents). -/
theorem claim_C3_witness :
    computeChildStart "R" 3 "R" [] [] = 3 ∧
    computeChildStart "R" 0 "X" [("A", gA3w), ("B", gB3)] ["A", "B"]
      = max (5 * DAY_MS) (2 * DAY_MS) :=
  ⟨(claim_C3 "R" "R" 3 [] []).1 rfl,
   by
    have h := (claim_C3 "R" "X" 0 [("A", gA3w), ("B", gB3)] ["A", "B"]).2.2
      (by decide) "A" "B" gA3w gB3 rfl (by decide) (by decide) (by decide) (by decide)
    exact h⟩

/-! ### C6: which nodes receive a schedule element -/

/-- The child-name list of a node in an adjacency list. -/
def adjChildren (adjList : List (String × entryNode)) (u : String) : List String :=
  match mapGet adjList u with
  | some e => e.children.getD []
  | none => []

/-- `b` is reachable from `a` through one or more child edges. -/
def Reaches (adjList : List (String × entryNode)) (a b : String) : Prop :=
  Relation.TransGen (fun u v => v ∈ adjChildren adjList u) a b

/-- Every entry's `name` field agrees with its key (GraphStore guarantees this
for the collections it hands to the schedule builder). -/
def NamesConsistent (adjList : List (String × entryNode)) : Prop :=
  ∀ pair ∈ adjList, pair.2.name = pair.1

/-- The C6 statement as claimed: every node reachable from the start node
receives a schedule element. -/
def claimC6Stmt : Prop :=
  ∀ (adjList : List (String × entryNode)) (rootName startNode n : String)
    (projectStart : Int),
    Reaches adjList startNode n →
    mapHas (createRenderMap adjList rootName projectStart startNode) n = true

/-- Diamond graph for the C6 counterexample: R → A, R → B, A → C, B → C. -/
def adjC6 : List (String × entryNode) :=
  [ ("R", { name := "R", duration := 0, parents := none,
            children := some ["A", "B"], color := 1, start := none }),
    ("A", { name := "A", duration := 1, parents := some ["R"],
            children := some ["C"], color := 1, start := none }),
    ("B", { name := "B", duration := 2, parents := some ["R"],
            children := some ["C"], color := 1, start := none }),
    ("C", { name := "C", duration := 3, parents := some ["A", "B"],
            children := none, color := 1, start := none }) ]

/-- C6 counterexample.  Starting the traversal from the non-root node "A" of
the diamond graph, "C" is reachable from "A" but the returned mapping is empty:
"C" has a second parent ("B") that is never processed, so its pending counter
never reaches the ready state. -/
theorem claim_C6_cex :
    (¬ claimC6Stmt) ∧ Reaches adjC6 "A" "C" ∧
    createRenderMap adjC6 "R" 0 "A" = [] := by
  have hr : Reaches adjC6 "A" "C" := Relation.TransGen.single (by decide)
  have he : createRenderMap adjC6 "R" 0 "A" = [] := by decide
  refine ⟨fun h => ?_, hr, he⟩
  have hc := h adjC6 "R" "A" "C" 0 hr
  rw [he] at hc
  simp [mapHas, mapGet] at hc

theorem mapGet_mem (l : List (String × α)) (k : String) (v : α) :
    mapGet l k = some v → (k, v) ∈ l := by
  induction l with
  | nil => intro h; simp [mapGet] at h
  | cons p t ih =>
    obtain ⟨k2, v2⟩ := p
    intro h
    simp only [mapGet] at h
    by_cases h2 : k2 = k
    · subst h2
      rw [if_pos rfl] at h
      injection h with h
      subst h
      exact List.mem_cons_self _ _
    · rw [if_neg h2] at h
      exact List.mem_cons_of_mem _ (ih h)

theorem mapHas_mapSet (l : List (String × α)) (k k2 : String) (v : α) :
    mapHas (mapSet l k v) k2 = true ↔ k = k2 ∨ mapHas l k2 = true := by
  simp only [mapHas, mapGet_mapSet]
  by_cases h : k = k2 <;> simp [h]

/-- Names of the elements emitted while processing the children of one node:
each is the `name` of a node looked up at one of the child keys. -/
theorem processChild_elems (rootName : String) (projectStart : Int)
    (currentNode : entryNode) (acc : RenderState × List ganttElement)
    (childName : String) (e : ganttElement)
    (he : e ∈ (processChild rootName projectStart currentNode acc childName).2) :
    e ∈ acc.2 ∨ ∃ nd, mapGet acc.1.adjList childName = some nd ∧ e.name = nd.name := by
  obtain ⟨st, elems⟩ := acc
  unfold processChild at he
  cases h : mapGet st.adjList childName with
  | none => simp only [h] at he; exact Or.inl he
  | some childNode =>
    simp only [h] at he
    by_cases h1 : (childNode.parents.getD []).length = 1 ∨
        mapGet st.pendingMap childNode.name = some 1
    · rw [if_pos h1] at he
      simp only [List.mem_append, List.mem_singleton] at he
      rcases he with he | he
      · exact Or.inl he
      · subst he
        exact Or.inr ⟨childNode, by simp [h], rfl⟩
    · rw [if_neg h1] at he
      by_cases h2 : mapHas st.pendingMap childNode.name = true
      · rw [if_pos h2] at he
        cases h3 : mapGet st.pendingMap childNode.name with
        | none => simp only [h3] at he; exact Or.inl he
        | some c => simp only [h3] at he; exact Or.inl he
      · rw [if_neg h2] at he
        exact Or.inl he

theorem processChild_fold_elems (rootName : String) (projectStart : Int)
    (currentNode : entryNode) :
    ∀ (l : List String) (acc : RenderState × List ganttElement)
      (e : ganttElement),
      e ∈ (l.foldl (processChild rootName projectStart currentNode) acc).2 →
      e ∈ acc.2 ∨ ∃ c ∈ l, ∃ nd, mapGet acc.1.adjList c = some nd ∧ e.name = nd.name := by
  intro l
  induction l with
  | nil => intro acc e he; exact Or.inl he
  | cons c t ih =>
    intro acc e he
    simp only [List.foldl_cons] at he
    have hadj : (processChild rootName projectStart currentNode acc c).1.adjList
        = acc.1.adjList :=
      (processChild_frame rootName projectStart currentNode acc c).1
    rcases ih _ e he with h1 | ⟨c2, hc2, nd, hnd, hname⟩
    · rcases processChild_elems rootName projectStart currentNode acc c e h1 with
        h2 | ⟨nd, hnd, hname⟩
      · exact Or.inl h2
      · exact Or.inr ⟨c, List.mem_cons_self _ _, nd, hnd, hname⟩
    · rw [hadj] at hnd
      exact Or.inr ⟨c2, List.mem_cons_of_mem _ hc2, nd, hnd, hname⟩

/-- Traversal invariant for C6: every stack entry and every key of the render
map is the start node or reachable from it. -/
def RenderReachInv (adjList : List (String × entryNode)) (startNode : String)
    (st : RenderState) : Prop :=
  st.adjList = adjList ∧
  (∀ s ∈ st.dfsStack, s = startNode ∨ Reaches adjList startNode s) ∧
  (∀ k, mapHas st.renderMap k = true → Reaches adjList startNode k)

theorem pushStep_inv (adjList : List (String × entryNode)) (startNode : String)
    (e : ganttElement) (st : RenderState)
    (hinv : RenderReachInv adjList startNode st)
    (he : Reaches adjList startNode e.name) :
    RenderReachInv adjList startNode
      (let s2 :=
        if (e.children.getD []).length ≠ 0 then
          { st with dfsStack := e.name :: st.dfsStack }
        else st
       { s2 with renderMap := mapSet s2.renderMap e.name e }) := by
  obtain ⟨hadj, hstack, hmap⟩ := hinv
  by_cases hc : (e.children.getD []).length ≠ 0
  · simp only [if_pos hc]
    refine ⟨hadj, ?_, ?_⟩
    · intro s hs
      rcases List.mem_cons.mp hs with rfl | hs
      · exact Or.inr he
      · exact hstack s hs
    · intro k hk
      rcases (mapHas_mapSet _ _ _ _).mp hk with rfl | hk
      · exact he
      · exact hmap k hk
  · simp only [if_neg hc]
    refine ⟨hadj, hstack, ?_⟩
    intro k hk
    rcases (mapHas_mapSet _ _ _ _).mp hk with rfl | hk
    · exact he
    · exact hmap k hk

theorem pushReady_foldl_inv (adjList : List (String × entryNode))
    (startNode : String) :
    ∀ (l : List ganttElement) (st : RenderState),
      RenderReachInv adjList startNode st →
      (∀ e ∈ l, Reaches adjList startNode e.name) →
      RenderReachInv adjList startNode
        (l.foldl
          (fun s el =>
            let s2 :=
              if (el.children.getD []).length ≠ 0 then
                { s with dfsStack := el.name :: s.dfsStack }
              else s
            { s2 with renderMap := mapSet s2.renderMap el.name el }) st) := by
  intro l
  induction l with
  | nil => intro st h _; exact h
  | cons e t ih =>
    intro st hinv hel
    simp only [List.foldl_cons]
    apply ih
    · exact pushStep_inv adjList startNode e st hinv (hel e (List.mem_cons_self _ _))
    · intro e2 he2
      exact hel e2 (List.mem_cons_of_mem _ he2)

theorem pushReady_inv (adjList : List (String × entryNode)) (startNode : String)
    (st : RenderState) (elems : List ganttElement)
    (hinv : RenderReachInv adjList startNode st)
    (helems : ∀ e ∈ elems, Reaches adjList startNode e.name) :
    RenderReachInv adjList startNode (pushReady st elems) := by
  unfold pushReady
  apply pushReady_foldl_inv adjList startNode _ st hinv
  intro e he
  exact helems e ((mem_sortJS _ _ _).mp he)

theorem renderStep_inv (adjList : List (String × entryNode))
    (rootName startNode : String) (projectStart : Int) (st : RenderState)
    (hnc : NamesConsistent adjList)
    (hinv : RenderReachInv adjList startNode st) :
    RenderReachInv adjList startNode (renderStep rootName projectStart st) := by
  obtain ⟨hadj, hstack, hmap⟩ := hinv
  unfold renderStep
  cases hs : st.dfsStack with
  | nil =>
    exact ⟨hadj, hstack, hmap⟩
  | cons cur rest =>
    have hcur := hstack cur (by rw [hs]; exact List.mem_cons_self _ _)
    have hrest : ∀ s ∈ rest, s = startNode ∨ Reaches adjList startNode s :=
      fun s h => hstack s (by rw [hs]; exact List.mem_cons_of_mem _ h)
    cases hg : mapGet st.adjList cur with
    | none =>
      simp only [hg]
      exact ⟨hadj, hrest, hmap⟩
    | some currentNode =>
      simp only [hg]
      apply pushReady_inv
      · have hfold := processChild_fold_frame rootName projectStart currentNode
          (currentNode.children.getD []) ({ st with dfsStack := rest }, [])
        exact ⟨by rw [hfold.1]; exact hadj, by rw [hfold.2.1]; exact hrest,
          by rw [hfold.2.2]; exact hmap⟩
      · intro e he
        rcases processChild_fold_elems rootName projectStart currentNode
            (currentNode.children.getD []) ({ st with dfsStack := rest }, []) e he with
          h | ⟨c, hc, nd, hnd, hname⟩
        · cases h
        · have hedge : c ∈ adjChildren adjList cur := by
            unfold adjChildren
            rw [hadj] at hg
            rw [hg]
            exact hc
          have hnamec : e.name = c := by
            rw [hname]
            exact hnc (c, nd) (mapGet_mem _ _ _ (by rw [hadj] at hnd; exact hnd))
          rw [hnamec]
          rcases hcur with hcur | hcur
          · subst hcur
            exact Relation.TransGen.single hedge
          · exact Relation.TransGen.tail hcur hedge

theorem renderLoop_inv (adjList : List (String × entryNode))
    (rootName startNode : String) (projectStart : Int)
    (hnc : NamesConsistent adjList) :
    ∀ (fuel : Nat) (st : RenderState),
      RenderReachInv adjList startNode st →
      RenderReachInv adjList startNode (renderLoop rootName projectStart fuel st) := by
  intro fuel
  induction fuel with
  | zero => intro st h; exact h
  | succ n ih =>
    intro st h
    unfold renderLoop
    cases hs : st.dfsStack with
    | nil => exact h
    | cons cur rest =>
      exact ih _ (renderStep_inv adjList rootName startNode projectStart st hnc h)

/-- C6 as amended.  Every key of the mapping returned by createRenderMap is
reachable from the start node through child edges (when entry names agree with
their keys, as GraphStore guarantees); the converse of the claim fails when the
start node is not the root — a reachable join node whose other parent is never
processed is omitted (see the counterexample). -/
theorem claim_C6 (adjList : List (String × entryNode))
    (rootName startNode k : String) (projectStart : Int)
    (hnc : NamesConsistent adjList)
    (hk : mapHas (createRenderMap adjList rootName projectStart startNode) k = true) :
    Reaches adjList startNode k := by
  have hinit : RenderReachInv adjList startNode
      (initialRenderState adjList startNode) := by
    refine ⟨rfl, ?_, ?_⟩
    · intro s hs
      rcases List.mem_singleton.mp hs with rfl
      exact Or.inl rfl
    · intro k2 hk2
      simp [mapHas, mapGet] at hk2
  have h := (renderLoop_inv adjList rootName startNode projectStart hnc
    (renderFuel adjList) (initialRenderState adjList startNode) hinit).2.2
  exact h k hk

/-- C6 witness: in the diamond graph rendered from the root, "C" receives an
element, and the theorem concludes it is reachable from the root. -/
theorem claim_C6_witness : NamesConsistent adjC6 ∧ Reaches adjC6 "R" "C" :=
  ⟨by unfold NamesConsistent; decide,
   claim_C6 adjC6 "R" "R" "C" 0 (by unfold NamesConsistent; decide) (by decide)⟩

/-! ### The graph engine (src/lib/adjacencyList.ts)

Methods mutate `this.list` in place and throw on validation failure; here every
operation maps a `GraphState` to `Option GraphError × GraphState`, where the
returned state is the (possibly partially mutated) object state at the moment
of the throw.  Object mutations are modelled by re-reading an entry from the
map whenever the source reads a field of a live object after a mutation. -/

/-- The state of one AdjacencyList instance. -/
structure GraphState where
  list : List (String × entryNode)
  defaultColor : Nat
  startDate : Int
  rootName : String
deriving DecidableEq, Repr

/-- MAX_NODES (src/lib/adjacencyList.ts line 40). -/
def MAX_NODES : Nat := 10000

/-- ensureRootBinding: drop the root edge of a node with more than one parent;
re-establish it for a node with an empty parent set. -/
def ensureRootBinding (st : GraphState) (nodeName : String) : GraphState :=
  if nodeName = st.rootName then st
  else
    match mapGet st.list nodeName, mapGet st.list st.rootName with
    | some node, some rootNode =>
      let step1 : List (String × entryNode) :=
        if 1 < (node.parents.getD []).length then
          let l1 := mapSet st.list nodeName
            { node with parents := node.parents.map (fun ps => jsSetDelete ps st.rootName) }
          mapSet l1 st.rootName
            { rootNode with children := rootNode.children.map (fun cs => jsSetDelete cs nodeName) }
        else st.list
      let node2 := (mapGet step1 nodeName).getD node
      let step2 : List (String × entryNode) :=
        if node2.parents = some [] then
          let l2 := mapSet step1 nodeName
            { node2 with parents := some (jsSetInsert [] st.rootName) }
          let rootNode2 := (mapGet l2 st.rootName).getD rootNode
          mapSet l2 st.rootName
            { rootNode2 with children := some (jsSetInsert (rootNode2.children.getD []) nodeName) }
        else step1
      { st with list := step2 }
    | _, _ => st

/-- bindChildNode: record `childNodeName` as a child of `nodeName` and
`nodeName` as a parent of `childNodeName`, then fix the root binding. -/
def bindChildNode (st : GraphState) (childNodeName nodeName : String) : GraphState :=
  match mapGet st.list nodeName, mapGet st.list childNodeName with
  | some node, some childNode =>
    let l1 := mapSet st.list nodeName
      { node with children := some (jsSetInsert (node.children.getD []) childNodeName) }
    let childNode1 := (mapGet l1 childNodeName).getD childNode
    let l2 := mapSet l1 childNodeName
      { childNode1 with parents := some (jsSetInsert (childNode1.parents.getD []) nodeName) }
    ensureRootBinding { st with list := l2 } childNodeName
  | _, _ => st

/-- unbindChildNode: remove the edge both ways (normalising an emptied child
set back to null), then fix the root binding unless unbinding from the root. -/
def unbindChildNode (st : GraphState) (childNodeName nodeName : String) : GraphState :=
  match mapGet st.list nodeName, mapGet st.list childNodeName with
  | some node, some childNode =>
    let children1 : Option (List String) :=
      node.children.map (fun cs => jsSetDelete cs childNodeName)
    let children2 : Option (List String) :=
      if children1 = some [] then none else children1
    let l1 := mapSet st.list nodeName { node with children := children2 }
    let childNode1 := (mapGet l1 childNodeName).getD childNode
    let l2 := mapSet l1 childNodeName
      { childNode1 with parents := childNode1.parents.map (fun ps => jsSetDelete ps nodeName) }
    let st2 : GraphState := { st with list := l2 }
    if nodeName ≠ st.rootName then ensureRootBinding st2 childNodeName else st2
  | _, _ => st

/-- The parents part of runCommonValidation (fail-fast, in array order). -/
def checkParents (st : GraphState) (name : String) : List String → Option GraphError
  | [] => none
  | p :: t =>
    if ¬ mapHas st.list p then some .MissingParent
    else if name = p then some .SelfReference
    else checkParents st name t

/-- The children part of runCommonValidation (fail-fast, in array order). -/
def checkChildren (st : GraphState) (name : String) : List String → Option GraphError
  | [] => none
  | c :: t =>
    if ¬ mapHas st.list c then some .MissingChild
    else if name = c then some .SelfReference
    else if c = st.rootName then some .RootReference
    else checkChildren st name t

/-- Fuel for the findLoop DFS.  Every run of the source loop terminates, and on
the acyclic graphs the library maintains the iteration count is dominated by
this bound; exhausted fuel conservatively reports a loop. -/
def findLoopFuel (st : GraphState) : Nat :=
  2 ^ (st.list.length * st.list.length + st.list.length + 1)

/-- The findLoop DFS loop.  The stack top is the head of the list (JS pops from
the end of the array and pushes to the end). -/
def findLoopGo (st : GraphState) (parentSet : List String) :
    Nat → List String → List String → Bool
  | 0, _, _ => true
  | _ + 1, [], _ => false
  | fuel + 1, current :: rest, visited =>
    if current ∈ parentSet then true
    else
      let visited2 := current :: visited
      let currentChildren : List String :=
        match mapGet st.list current with
        | some e => e.children.getD []
        | none => []
      let stack2 := currentChildren.foldl
        (fun s c => if c ∈ visited2 then s else c :: s) rest
      findLoopGo st parentSet fuel stack2 visited2

/-- findLoop: a DFS from every proposed child through existing child edges,
failing as soon as a proposed parent is reached.  Skipped when either side is
null. -/
def findLoop (st : GraphState) (parents children : Option (List String)) : Bool :=
  match parents, children with
  | some ps, some cs =>
    findLoopGo st (jsSetOfList ps) (findLoopFuel st) cs.reverse []
  | _, _ => false

/-- runCommonValidation: the shared validation sequence for add and update. -/
def runCommonValidation (st : GraphState) (name : String) (duration : Int)
    (parents children : Option (List String)) : Option GraphError :=
  if name.length = 0 then some .EmptyName
  else if duration = 0 ∧ name ≠ st.rootName then some .ZeroDuration
  else if duration < 0 then some .NegativeDuration
  else
    match (match parents with
           | some ps => checkParents st name ps
           | none => none) with
    | some e => some e
    | none =>
      match (match children with
             | some cs => checkChildren st name cs
             | none => none) with
      | some e => some e
      | none =>
        if findLoop st parents children then some .GraphLoop else none

/-- addNode. -/
def addNode (st : GraphState) (name : String) (duration : Int)
    (parents children : Option (List String)) (color : Nat) (start : Option Int)
    (validate : Bool) : Option GraphError × GraphState :=
  if MAX_NODES ≤ st.list.length then (some .NodeLimitExceeded, st)
  else if mapHas st.list name then (some .EntryDuplicate, st)
  else
    match (if validate then runCommonValidation st name duration parents children
           else none) with
    | some e => (some e, st)
    | none =>
      let parents2 := if parents = none ∧ name ≠ st.rootName then some [st.rootName]
        else parents
      let newEntry : entryNode :=
        { name := name, duration := duration,
          parents := parents2.map jsSetOfList,
          children := children.map jsSetOfList,
          color := color, start := start }
      let st1 : GraphState := { st with list := mapSet st.list name newEntry }
      let st2 := match parents2 with
        | some ps => ps.foldl (fun s p => bindChildNode s name p) st1
        | none => st1
      let st3 := match children with
        | some cs => cs.foldl (fun s c => bindChildNode s c name) st2
        | none => st2
      (none, st3)

/-- removeNode. -/
def removeNode (st : GraphState) (name : String) (isUpdate : Bool) :
    Option GraphError × GraphState :=
  if name = st.rootName then (some .RootRemoval, st)
  else if ¬ mapHas st.list name then (some .MissingEntry, st)
  else
    match mapGet st.list name with
    | none => (some .MissingEntry, st)
    | some node =>
      let parents := node.parents.getD []
      let children := node.children.getD []
      let rootExisted := mapHas st.list st.rootName
      let st1 := parents.foldl (fun s parent => unbindChildNode s name parent) st
      let st2 := children.foldl
        (fun s child =>
          let s1 := unbindChildNode s child name
          if isUpdate then s1
          else parents.foldl (fun s2 parent => bindChildNode s2 child parent) s1)
        st1
      let st3 : GraphState := { st2 with list := mapDelete st2.list name }
      let st4 : GraphState :=
        if rootExisted then
          match mapGet st3.list st.rootName with
          | some rootNode =>
            match rootNode.children with
            | some cs =>
              let rootEntry : entryNode :=
                { rootNode with children := some (jsSetDelete cs name) }
              { st3 with list := mapSet st3.list st.rootName rootEntry }
            | none => st3
          | none => st3
        else st3
      (none, st4)

/-- updateNode.  The outer `Option` of each argument distinguishes an omitted
argument (so the source default applies) from an explicitly passed value. -/
def updateNode (st : GraphState) (name : String) (newNameArg : Option String)
    (durationArg : Option Int) (parentsArg childrenArg : Option (Option (List String)))
    (colorArg : Option Nat) (startArg : Option (Option Int)) :
    Option GraphError × GraphState :=
  let node := mapGet st.list name
  let newName := newNameArg.getD name
  let duration := durationArg.getD ((node.map (fun n => n.duration)).getD 0)
  let parents : Option (List String) :=
    parentsArg.getD (some ((node.bind (fun n => n.parents)).getD []))
  let children : Option (List String) :=
    childrenArg.getD (some ((node.bind (fun n => n.children)).getD []))
  let color := colorArg.getD st.defaultColor
  let start : Option Int := startArg.getD (node.bind (fun n => n.start))
  if name = st.rootName then (some .RootChange, st)
  else if mapHas st.list newName ∧ newName ≠ name then (some .EntryDuplicate, st)
  else if ¬ mapHas st.list name then (some .MissingEntry, st)
  else
    match runCommonValidation st name duration parents children with
    | some e => (some e, st)
    | none =>
      let parents2 := if parents = some [] then none else parents
      let children2 := if children = some [] then none else children
      match removeNode st name true with
      | (some e, st1) => (some e, st1)
      | (none, st1) => addNode st1 newName duration parents2 children2 color start false

/-- The constructor: an empty list, default color 1, then `addNode()` creating
the root entry with all defaults. -/
def mkGraph (rootName : String) (startDate : Int) : Option GraphError × GraphState :=
  let st0 : GraphState :=
    { list := [], defaultColor := 1, startDate := startDate, rootName := rootName }
  addNode st0 rootName 0 none none st0.defaultColor none true

/-- Graph states reachable from a freshly constructed graph through the public
mutators (addNode with validation on, updateNode, removeNode); a call that
throws leaves the object in the state it had at the throw, which the step
includes. -/
inductive Reachable (rootName : String) (startDate : Int) : GraphState → Prop where
  | init : rootName ≠ "" → Reachable rootName startDate (mkGraph rootName startDate).2
  | add : ∀ {st} (_ : Reachable rootName startDate st)
      (name : String) (duration : Int) (parents children : Option (List String))
      (color : Nat) (start : Option Int),
      Reachable rootName startDate
        (addNode st name duration parents children color start true).2
  | update : ∀ {st} (_ : Reachable rootName startDate st)
      (name : String) (newNameArg : Option String) (durationArg : Option Int)
      (parentsArg childrenArg : Option (Option (List String)))
      (colorArg : Option Nat) (startArg : Option (Option Int)),
      Reachable rootName startDate
        (updateNode st name newNameArg durationArg parentsArg childrenArg
          colorArg startArg).2
  | remove : ∀ {st} (_ : Reachable rootName startDate st)
      (name : String) (isUpdate : Bool),
      Reachable rootName startDate (removeNode st name isUpdate).2

/-! ### Map and set lemmas -/

theorem mapSet_eq_of_get (l : List (String × α)) (k : String) (v : α)
    (h : mapGet l k = some v) : mapSet l k v = l := by
  induction l with
  | nil => simp [mapGet] at h
  | cons p t ih =>
    obtain ⟨k2, v2⟩ := p
    simp only [mapGet] at h
    by_cases h2 : k2 = k
    · rw [if_pos h2] at h
      injection h with h
      subst h
      simp [mapSet, h2]
    · rw [if_neg h2] at h
      simp [mapSet, h2, ih h]

theorem mapGet_mapDelete_ne (l : List (String × α)) (k k2 : String)
    (h : k2 ≠ k) : mapGet (mapDelete l k) k2 = mapGet l k2 := by
  induction l with
  | nil => simp [mapDelete]
  | cons p t ih =>
    obtain ⟨k3, v3⟩ := p
    by_cases h3 : k3 = k
    · subst h3
      have : k3 ≠ k2 := fun hh => h (hh.symm)
      simp [mapDelete, mapGet, this]
    · simp only [mapDelete, if_neg h3]
      by_cases h4 : k3 = k2
      · simp [mapGet, h4]
      · simp [mapGet, h4, ih]

/-- The keys of an association list are duplicate-free (maintained by all the
graph operations, since JS Map keys are unique). -/
def KeysNodup (l : List (String × α)) : Prop :=
  (l.map Prod.fst).Nodup

theorem mapGet_mapDelete_self (l : List (String × α)) (k : String)
    (h : KeysNodup l) : mapGet (mapDelete l k) k = none := by
  induction l with
  | nil => simp [mapDelete, mapGet]
  | cons p t ih =>
    obtain ⟨k2, v2⟩ := p
    simp only [KeysNodup, List.map_cons, List.nodup_cons] at h
    by_cases h2 : k2 = k
    · subst h2
      simp only [mapDelete, if_pos rfl]
      cases hg : mapGet t k2 with
      | none => exact hg
      | some v =>
        exact absurd (List.mem_map_of_mem Prod.fst (mapGet_mem t k2 v hg)) h.1
    · simp [mapDelete, mapGet, h2, ih h.2]

theorem keysNodup_mapSet (l : List (String × α)) (k : String) (v : α)
    (h : KeysNodup l) : KeysNodup (mapSet l k v) := by
  induction l with
  | nil => simp [mapSet, KeysNodup]
  | cons p t ih =>
    obtain ⟨k2, v2⟩ := p
    simp only [KeysNodup, List.map_cons, List.nodup_cons] at h
    by_cases h2 : k2 = k
    · simpa [mapSet, h2, KeysNodup] using h
    · have ht := ih h.2
      simp only [mapSet, if_neg h2, KeysNodup, List.map_cons, List.nodup_cons]
      refine ⟨?_, ht⟩
      intro hmem
      have : ∀ x ∈ mapSet t k v, x.1 = k ∨ x.1 ∈ t.map Prod.fst := by
        intro x hx
        clear hmem ih ht h
        induction t with
        | nil =>
          simp only [mapSet, List.mem_singleton] at hx
          subst hx
          exact Or.inl rfl
        | cons q s ihq =>
          obtain ⟨k3, v3⟩ := q
          by_cases h3 : k3 = k
          · rw [mapSet, if_pos h3] at hx
            rcases List.mem_cons.mp hx with rfl | hx
            · exact Or.inl h3
            · exact Or.inr (List.mem_map_of_mem Prod.fst (List.mem_cons_of_mem _ hx))
          · rw [mapSet, if_neg h3] at hx
            rcases List.mem_cons.mp hx with rfl | hx
            · exact Or.inr (by simp)
            · rcases ihq hx with h4 | h4
              · exact Or.inl h4
              · exact Or.inr (by simp only [List.map_cons, List.mem_cons]; exact Or.inr h4)
      rcases List.mem_map.mp hmem with ⟨x, hx, hx2⟩
      rcases this x hx with h4 | h4
      · exact h2 (hx2.symm.trans h4)
      · exact h.1 (by rw [← hx2]; exact h4)

theorem keysNodup_mapDelete (l : List (String × α)) (k : String)
    (h : KeysNodup l) : KeysNodup (mapDelete l k) := by
  induction l with
  | nil => simp [mapDelete, KeysNodup]
  | cons p t ih =>
    obtain ⟨k2, v2⟩ := p
    simp only [KeysNodup, List.map_cons, List.nodup_cons] at h
    by_cases h2 : k2 = k
    · simpa [mapDelete, h2, KeysNodup] using h.2
    · simp only [mapDelete, if_neg h2, KeysNodup, List.map_cons, List.nodup_cons]
      refine ⟨?_, ih h.2⟩
      intro hmem
      rcases List.mem_map.mp hmem with ⟨x, hx, hx2⟩
      have : x ∈ t := by
        clear hmem ih h hx2
        induction t with
        | nil => simp [mapDelete] at hx
        | cons q s ihq =>
          obtain ⟨k3, v3⟩ := q
          by_cases h3 : k3 = k
          · rw [mapDelete, if_pos h3] at hx
            exact List.mem_cons_of_mem _ hx
          · rw [mapDelete, if_neg h3] at hx
            rcases List.mem_cons.mp hx with rfl | hx
            · exact List.mem_cons_self _ _
            · exact List.mem_cons_of_mem _ (ihq hx)
      exact h.1 (hx2 ▸ List.mem_map_of_mem Prod.fst this)

theorem mapSet_length (l : List (String × α)) (k : String) (v : α) :
    (mapSet l k v).length = if (mapGet l k).isSome then l.length else l.length + 1 := by
  induction l with
  | nil => simp [mapSet, mapGet]
  | cons p t ih =>
    obtain ⟨k2, v2⟩ := p
    by_cases h2 : k2 = k
    · simp [mapSet, mapGet, h2]
    · simp only [mapSet, if_neg h2, mapGet, List.length_cons, ih]
      by_cases h3 : (mapGet t k).isSome <;> simp [h3]

theorem mapDelete_length (l : List (String × α)) (k : String)
    (h : mapHas l k = true) : (mapDelete l k).length + 1 = l.length := by
  induction l with
  | nil => simp [mapHas, mapGet] at h
  | cons p t ih =>
    obtain ⟨k2, v2⟩ := p
    by_cases h2 : k2 = k
    · simp [mapDelete, h2]
    · simp only [mapHas, mapGet, if_neg h2] at h
      simp [mapDelete, h2, ih h]

theorem mem_jsSetInsert (s : List String) (x y : String) :
    y ∈ jsSetInsert s x ↔ y ∈ s ∨ y = x := by
  unfold jsSetInsert
  by_cases h : x ∈ s
  · simp only [if_pos h]
    constructor
    · exact Or.inl
    · rintro (hy | rfl)
      · exact hy
      · exact h
  · simp [if_neg h]

theorem mem_jsSetDelete (s : List String) (x y : String) :
    y ∈ jsSetDelete s x ↔ y ∈ s ∧ y ≠ x := by
  simp [jsSetDelete]

theorem jsSetInsert_nodup (s : List String) (x : String) (h : s.Nodup) :
    (jsSetInsert s x).Nodup := by
  unfold jsSetInsert
  by_cases hx : x ∈ s
  · simpa [hx]
  · simp [hx, List.nodup_append, h]

theorem jsSetDelete_nodup (s : List String) (x : String) (h : s.Nodup) :
    (jsSetDelete s x).Nodup :=
  List.Nodup.filter _ h

theorem jsSetDelete_eq_self (s : List String) (x : String) (h : x ∉ s) :
    jsSetDelete s x = s := by
  unfold jsSetDelete
  apply List.filter_eq_self.mpr
  intro a ha
  simp only [ne_eq, decide_eq_true_eq]
  intro hax
  exact h (hax ▸ ha)

theorem jsSetInsert_eq_self (s : List String) (x : String) (h : x ∈ s) :
    jsSetInsert s x = s := by
  unfold jsSetInsert
  exact if_pos h

theorem jsSetOfList_eq_self (l : List String) (h : l.Nodup) :
    jsSetOfList l = l := by
  unfold jsSetOfList
  suffices hgen : ∀ (m acc : List String), m.Nodup → (∀ a ∈ acc, a ∉ m) →
      m.foldl jsSetInsert acc = acc ++ m by
    simpa using hgen l [] h (by simp)
  intro m
  induction m with
  | nil => intro acc _ _; simp
  | cons x t ih =>
    intro acc hm hdisj
    simp only [List.foldl_cons]
    have hx : x ∉ acc := fun hmem => hdisj x hmem (List.mem_cons_self _ _)
    have hnodup := List.nodup_cons.mp hm
    rw [show jsSetInsert acc x = acc ++ [x] from by simp [jsSetInsert, hx]]
    rw [ih (acc ++ [x]) hnodup.2 ?_]
    · simp
    · intro a ha
      rcases List.mem_append.mp ha with ha | ha
      · exact fun hat => hdisj a ha (List.mem_cons_of_mem _ hat)
      · rcases List.mem_singleton.mp ha with rfl
        exact hnodup.1

theorem mapGet_mapSet_self (l : List (String × α)) (k : String) (v : α) :
    mapGet (mapSet l k v) k = some v := by
  rw [mapGet_mapSet, if_pos rfl]

theorem mapGet_mapSet_ne (l : List (String × α)) (k k2 : String) (v : α)
    (h : k ≠ k2) : mapGet (mapSet l k v) k2 = mapGet l k2 := by
  rw [mapGet_mapSet, if_neg h]

theorem isSome_mapGet_mapSet (l : List (String × α)) (k k2 : String) (v : α)
    (h : (mapGet l k2).isSome) : (mapGet (mapSet l k v) k2).isSome := by
  rw [mapGet_mapSet]
  split <;> simp_all

theorem mapSet_length_of_isSome (l : List (String × α)) (k : String) (v : α)
    (h : (mapGet l k).isSome) : (mapSet l k v).length = l.length := by
  rw [mapSet_length, if_pos h]

/-! ### C8: addNode is all-or-nothing -/

/-- C8.  Whenever addNode (with validation enabled) throws — capacity,
duplicate, or any validation failure — the graph state at the throw is exactly
the state before the call: all three checks run before the first mutation, and
the mutation phase itself cannot throw. -/
theorem claim_C8 (st : GraphState) (name : String) (duration : Int)
    (parents children : Option (List String)) (color : Nat) (start : Option Int)
    (e : GraphError) (st2 : GraphState)
    (h : addNode st name duration parents children color start true = (some e, st2)) :
    st2 = st := by
  unfold addNode at h
  split at h
  · simp only [Prod.mk.injEq] at h
    exact h.2.symm
  · split at h
    · simp only [Prod.mk.injEq] at h
      exact h.2.symm
    · split at h
      · simp only [Prod.mk.injEq] at h
        exact h.2.symm
      · simp at h

/-- C8 witness: a duplicate-name insert on a freshly constructed graph throws
and leaves the state unchanged. -/
theorem claim_C8_witness :
    (addNode (mkGraph "R" 0).2 "R" 1 none none 1 none true).2 = (mkGraph "R" 0).2 :=
  claim_C8 (mkGraph "R" 0).2 "R" 1 none none 1 none GraphError.EntryDuplicate
    ((addNode (mkGraph "R" 0).2 "R" 1 none none 1 none true).2) (by decide)

/-! ### C7: the node-count bound -/

/-- Setting two present keys preserves the length and both keys stay present. -/
theorem double_set_facts (l : List (String × α)) (a b : String) (v1 v2 : α)
    (ha : (mapGet l a).isSome) (hb : (mapGet l b).isSome) :
    (mapSet (mapSet l a v1) b v2).length = l.length ∧
    (mapGet (mapSet (mapSet l a v1) b v2) a).isSome ∧
    (mapGet (mapSet (mapSet l a v1) b v2) b).isSome :=
  ⟨by
    rw [mapSet_length_of_isSome _ _ _ (isSome_mapGet_mapSet _ _ _ _ hb),
      mapSet_length_of_isSome _ _ _ ha],
   isSome_mapGet_mapSet _ _ _ _ (isSome_mapGet_mapSet _ _ _ _ ha),
   isSome_mapGet_mapSet _ _ _ _ (isSome_mapGet_mapSet _ _ _ _ hb)⟩

theorem ensureRootBinding_length (st : GraphState) (x : String) :
    (ensureRootBinding st x).list.length = st.list.length := by
  unfold ensureRootBinding
  split
  · rfl
  split
  case _ node rootNode hnode hroot =>
    have hx : (mapGet st.list x).isSome := by rw [hnode]; rfl
    have hr : (mapGet st.list st.rootName).isSome := by rw [hroot]; rfl
    simp only
    split
    · -- step1 = double set on st.list
      obtain ⟨hlen1, hx1, hr1⟩ := double_set_facts st.list x st.rootName
        { node with parents := node.parents.map (fun ps => jsSetDelete ps st.rootName) }
        { rootNode with children := rootNode.children.map (fun cs => jsSetDelete cs x) }
        hx hr
      split
      · obtain ⟨hlen2, _, _⟩ := double_set_facts _ x st.rootName _ _ hx1 hr1
        rw [hlen2, hlen1]
      · exact hlen1
    · split
      · obtain ⟨hlen2, _, _⟩ := double_set_facts st.list x st.rootName _ _ hx hr
        exact hlen2
      · rfl
  case _ =>
    rfl

theorem bindChildNode_length (st : GraphState) (c n : String) :
    (bindChildNode st c n).list.length = st.list.length := by
  unfold bindChildNode
  split
  case _ node childNode hn hc =>
    have hn2 : (mapGet st.list n).isSome := by rw [hn]; rfl
    have hc2 : (mapGet st.list c).isSome := by rw [hc]; rfl
    obtain ⟨hlen, _, _⟩ := double_set_facts st.list n c _ _ hn2 hc2
    rw [ensureRootBinding_length]
    exact hlen
  case _ => rfl

theorem unbindChildNode_length (st : GraphState) (c n : String) :
    (unbindChildNode st c n).list.length = st.list.length := by
  unfold unbindChildNode
  split
  case _ node childNode hn hc =>
    have hn2 : (mapGet st.list n).isSome := by rw [hn]; rfl
    have hc2 : (mapGet st.list c).isSome := by rw [hc]; rfl
    obtain ⟨hlen, _, _⟩ := double_set_facts st.list n c _ _ hn2 hc2
    simp only
    split
    · rw [ensureRootBinding_length]
      exact hlen
    · exact hlen
  case _ => rfl

theorem foldl_list_length_preserved {β : Type} (f : GraphState → β → GraphState)
    (hf : ∀ s b, (f s b).list.length = s.list.length) :
    ∀ (l : List β) (st : GraphState), (l.foldl f st).list.length = st.list.length := by
  intro l
  induction l with
  | nil => intro st; rfl
  | cons b t ih =>
    intro st
    rw [List.foldl_cons, ih, hf]

theorem mapDelete_length_le (l : List (String × α)) (k : String) :
    (mapDelete l k).length ≤ l.length := by
  induction l with
  | nil => simp [mapDelete]
  | cons p t ih =>
    obtain ⟨k2, v2⟩ := p
    by_cases h2 : k2 = k
    · simp [mapDelete, h2]
    · simp only [mapDelete, if_neg h2, List.length_cons]
      omega

theorem addNode_length (st : GraphState) (name : String) (duration : Int)
    (parents children : Option (List String)) (color : Nat) (start : Option Int)
    (validate : Bool) (h : st.list.length ≤ MAX_NODES) :
    (addNode st name duration parents children color start validate).2.list.length
      ≤ MAX_NODES := by
  unfold addNode
  split
  · exact h
  split
  · exact h
  case _ hcap hdup =>
    split
    · exact h
    · simp only
      have hfresh : ¬ (mapGet st.list name).isSome := by
        simpa [mapHas] using hdup
      have hlen1 : ∀ e : entryNode, (mapSet st.list name e).length = st.list.length + 1 :=
        fun e => by rw [mapSet_length, if_neg hfresh]
      have hcap2 : st.list.length + 1 ≤ MAX_NODES := by
        simp only [not_le] at hcap
        omega
      cases children with
      | none =>
        cases hp2 : (if parents = none ∧ name ≠ st.rootName then some [st.rootName]
            else parents) with
        | none =>
          rw [hlen1]
          exact hcap2
        | some ps =>
          rw [foldl_list_length_preserved (fun s2 p => bindChildNode s2 name p)
            (fun s2 p => bindChildNode_length s2 name p), hlen1]
          exact hcap2
      | some cs =>
        rw [foldl_list_length_preserved (fun s2 c => bindChildNode s2 c name)
          (fun s2 c => bindChildNode_length s2 c name)]
        cases hp2 : (if parents = none ∧ name ≠ st.rootName then some [st.rootName]
            else parents) with
        | none =>
          rw [hlen1]
          exact hcap2
        | some ps =>
          rw [foldl_list_length_preserved (fun s2 p => bindChildNode s2 name p)
            (fun s2 p => bindChildNode_length s2 name p), hlen1]
          exact hcap2

theorem removeNode_length_le (st : GraphState) (name : String) (isUpdate : Bool) :
    (removeNode st name isUpdate).2.list.length ≤ st.list.length := by
  unfold removeNode
  split
  · exact le_refl _
  split
  · exact le_refl _
  split
  · exact le_refl _
  case _ node hnode =>
    simp only
    have hlen1 : ∀ (l : List String) (s : GraphState),
        (l.foldl (fun s2 parent => unbindChildNode s2 name parent) s).list.length
          = s.list.length :=
      fun l s => foldl_list_length_preserved _ (fun s2 p => unbindChildNode_length s2 name p) l s
    have hlen2 : ∀ (l : List String) (s : GraphState),
        (l.foldl
          (fun s child =>
            let s1 := unbindChildNode s child name
            if isUpdate then s1
            else (node.parents.getD []).foldl
              (fun s2 parent => bindChildNode s2 child parent) s1) s).list.length
          = s.list.length := by
      intro l
      apply foldl_list_length_preserved
      intro s child
      simp only
      split
      · exact unbindChildNode_length s child name
      · rw [foldl_list_length_preserved _ (fun s2 p => bindChildNode_length s2 child p)]
        exact unbindChildNode_length s child name
    have hdel : (mapDelete ((node.children.getD []).foldl
        (fun s child =>
          let s1 := unbindChildNode s child name
          if isUpdate then s1
          else (node.parents.getD []).foldl
            (fun s2 parent => bindChildNode s2 child parent) s1)
        ((node.parents.getD []).foldl
          (fun s2 parent => unbindChildNode s2 name parent) st)).list name).length
        ≤ st.list.length := by
      calc (mapDelete _ name).length ≤ _ := mapDelete_length_le _ _
        _ = _ := hlen2 _ _
        _ = _ := hlen1 _ _
    split
    · split
      case _ rootNode hrootNode =>
        split
        case _ cs hcs =>
          simp only
          rw [mapSet_length_of_isSome _ _ _ (by rw [hrootNode]; rfl)]
          exact hdel
        case _ => exact hdel
      case _ => exact hdel
    · exact hdel

theorem updateNode_length (st : GraphState) (name : String)
    (newNameArg : Option String) (durationArg : Option Int)
    (parentsArg childrenArg : Option (Option (List String)))
    (colorArg : Option Nat) (startArg : Option (Option Int))
    (h : st.list.length ≤ MAX_NODES) :
    (updateNode st name newNameArg durationArg parentsArg childrenArg colorArg
      startArg).2.list.length ≤ MAX_NODES := by
  simp only [updateNode]
  split
  · exact h
  split
  · exact h
  split
  · exact h
  split
  · exact h
  · split
    case _ e st1 heq =>
      have := removeNode_length_le st name true
      rw [heq] at this
      exact le_trans this h
    case _ st1 heq =>
      have hst1 : st1.list.length ≤ MAX_NODES := by
        have := removeNode_length_le st name true
        rw [heq] at this
        exact le_trans this h
      exact addNode_length _ _ _ _ _ _ _ _ hst1

/-- C7.  (a) Every reachable graph state holds at most 10,000 nodes, the root
included.  (b) An addNode call made on any state already holding at least
10,000 nodes fails with NodeLimitExceeded and leaves the state unchanged. -/
theorem claim_C7 :
    (∀ (rootName : String) (startDate : Int) (st : GraphState),
      Reachable rootName startDate st → st.list.length ≤ MAX_NODES) ∧
    (∀ (st : GraphState) (name : String) (duration : Int)
      (parents children : Option (List String)) (color : Nat) (start : Option Int)
      (validate : Bool), MAX_NODES ≤ st.list.length →
      addNode st name duration parents children color start validate
        = (some GraphError.NodeLimitExceeded, st)) := by
  constructor
  · intro rootName startDate st h
    induction h with
    | init h =>
      exact addNode_length _ _ _ _ _ _ _ _ (by simp)
    | add h name duration parents children color start ih =>
      exact addNode_length _ _ _ _ _ _ _ _ ih
    | update h name newNameArg durationArg parentsArg childrenArg colorArg startArg ih =>
      exact updateNode_length _ _ _ _ _ _ _ _ ih
    | remove h name isUpdate ih =>
      exact le_trans (removeNode_length_le _ _ _) ih
  · intro st name duration parents children color start validate h
    unfold addNode
    rw [if_pos h]

/-- A state holding exactly 10,000 distinct nodes, for the C7 witness. -/
def fullState : GraphState :=
  { list := (List.range MAX_NODES).map
      (fun i => (toString i,
        { name := toString i, duration := 1, parents := none, children := none,
          color := 1, start := none })),
    defaultColor := 1, startDate := 0, rootName := "R" }

/-- C7 witness: a freshly constructed graph is reachable and within the bound,
and an insert on a full state fails with NodeLimitExceeded leaving it as is. -/
theorem claim_C7_witness :
    (mkGraph "R" 0).2.list.length ≤ MAX_NODES ∧
    addNode fullState "Z" 1 none none 1 none true
      = (some GraphError.NodeLimitExceeded, fullState) :=
  ⟨claim_C7.1 "R" 0 (mkGraph "R" 0).2 (Reachable.init (by decide)),
   claim_C7.2 fullState "Z" 1 none none 1 none true
     (by rw [fullState]; simp [MAX_NODES])⟩

/-! ### Frame and stability lemmas for the edge helpers -/

theorem ensureRootBinding_rootName (st : GraphState) (x : String) :
    (ensureRootBinding st x).rootName = st.rootName := by
  unfold ensureRootBinding
  split
  · rfl
  split <;> rfl

theorem bindChildNode_rootName (st : GraphState) (c n : String) :
    (bindChildNode st c n).rootName = st.rootName := by
  unfold bindChildNode
  split
  · rw [ensureRootBinding_rootName]
  · rfl

theorem unbindChildNode_rootName (st : GraphState) (c n : String) :
    (unbindChildNode st c n).rootName = st.rootName := by
  unfold unbindChildNode
  split
  · simp only
    split
    · rw [ensureRootBinding_rootName]
    · rfl
  · rfl

theorem ensureRootBinding_get_other (st : GraphState) (x k : String)
    (hk1 : k ≠ x) (hk2 : k ≠ st.rootName) :
    mapGet (ensureRootBinding st x).list k = mapGet st.list k := by
  unfold ensureRootBinding
  split
  · rfl
  split
  case _ node rootNode hnode hroot =>
    simp only
    split
    · split
      · rw [mapGet_mapSet_ne _ _ _ _ (fun hh => hk2 hh.symm),
          mapGet_mapSet_ne _ _ _ _ (fun hh => hk1 hh.symm),
          mapGet_mapSet_ne _ _ _ _ (fun hh => hk2 hh.symm),
          mapGet_mapSet_ne _ _ _ _ (fun hh => hk1 hh.symm)]
      · rw [mapGet_mapSet_ne _ _ _ _ (fun hh => hk2 hh.symm),
          mapGet_mapSet_ne _ _ _ _ (fun hh => hk1 hh.symm)]
    · split
      · rw [mapGet_mapSet_ne _ _ _ _ (fun hh => hk2 hh.symm),
          mapGet_mapSet_ne _ _ _ _ (fun hh => hk1 hh.symm)]
      · rfl
  case _ => rfl

theorem mapGet_double_set_ne (l : List (String × α)) (a b k : String) (va vb : α)
    (h1 : k ≠ a) (h2 : k ≠ b) :
    mapGet (mapSet (mapSet l a va) b vb) k = mapGet l k := by
  rw [mapGet_mapSet_ne _ _ _ _ (fun hh => h2 hh.symm),
    mapGet_mapSet_ne _ _ _ _ (fun hh => h1 hh.symm)]

theorem bindChildNode_get_other (st : GraphState) (c n k : String)
    (hk1 : k ≠ c) (hk2 : k ≠ n) (hk3 : k ≠ st.rootName) :
    mapGet (bindChildNode st c n).list k = mapGet st.list k := by
  unfold bindChildNode
  split
  case _ node childNode hn hc =>
    refine Eq.trans (ensureRootBinding_get_other _ c k hk1 ?_) ?_
    · exact hk3
    · exact mapGet_double_set_ne st.list n c k _ _ hk2 hk1
  case _ => rfl

theorem unbindChildNode_get_other (st : GraphState) (c n k : String)
    (hk1 : k ≠ c) (hk2 : k ≠ n) (hk3 : k ≠ st.rootName) :
    mapGet (unbindChildNode st c n).list k = mapGet st.list k := by
  unfold unbindChildNode
  split
  case _ node childNode hn hc =>
    simp only
    split
    · refine Eq.trans (ensureRootBinding_get_other _ c k hk1 ?_) ?_
      · exact hk3
      · exact mapGet_double_set_ne st.list n c k _ _ hk2 hk1
    · exact mapGet_double_set_ne st.list n c k _ _ hk2 hk1
  case _ => rfl

/-- An entryNode rebuilt with its own parents is itself. -/
theorem entryNode_eta_parents (e : entryNode) (ps : Option (List String))
    (h : e.parents = ps) :
    ({ e with parents := ps } : entryNode) = e := by
  cases e
  simp_all

/-- An entryNode rebuilt with its own children is itself. -/
theorem entryNode_eta_children (e : entryNode) (cs : Option (List String))
    (h : e.children = cs) :
    ({ e with children := cs } : entryNode) = e := by
  cases e
  simp_all

/-- ensureRootBinding leaves a node untouched when it already has a sound,
non-empty parent set (root only allowed as the sole parent). -/
theorem ensureRootBinding_get_self_stable (st : GraphState) (x : String)
    (e : entryNode) (ps : List String)
    (hx : mapGet st.list x = some e) (hps : e.parents = some ps) (hne : ps ≠ [])
    (hroot1 : 1 < ps.length → st.rootName ∉ ps) :
    mapGet (ensureRootBinding st x).list x = some e := by
  have hps_ne : e.parents ≠ some [] := by
    rw [hps]
    intro hcontra
    exact hne (Option.some.inj hcontra)
  unfold ensureRootBinding
  split
  next => exact hx
  next hxr =>
    split
    next node rootNode hnode hroot =>
      have heq : node = e := by
        rw [hx] at hnode
        exact (Option.some.inj hnode).symm
      subst heq
      simp only
      split
      next hlen =>
        rw [hps, Option.getD_some] at hlen
        have hself : ({ node with
            parents := node.parents.map (fun l => jsSetDelete l st.rootName) } : entryNode)
            = node := by
          apply entryNode_eta_parents
          rw [hps]
          simp [jsSetDelete_eq_self _ _ (hroot1 hlen)]
        rw [hself, mapSet_eq_of_get st.list x node hx]
        have hget2 : mapGet (mapSet st.list st.rootName
            { rootNode with children := rootNode.children.map (fun cs => jsSetDelete cs x) })
            x = some node := by
          rw [mapGet_mapSet_ne _ _ _ _ (fun hh => hxr hh.symm), hx]
        rw [hget2, Option.getD_some, hps]
        rw [if_neg (show ¬ ((some ps : Option (List String)) = some []) from
          fun hc => hne (Option.some.inj hc))]
        exact hget2
      next hlen =>
        rw [hx, Option.getD_some, hps]
        rw [if_neg (show ¬ ((some ps : Option (List String)) = some []) from
          fun hc => hne (Option.some.inj hc))]
        exact hx
    next => exact hx

/-- Binding node `x` to a parent `p` it already lists leaves `x`'s entry
unchanged (the set insert is a no-op and the root fix does nothing). -/
theorem bindChildNode_get_child_stable (st : GraphState) (x p : String)
    (e : entryNode) (ps : List String)
    (hx : mapGet st.list x = some e) (hps : e.parents = some ps) (hmem : p ∈ ps)
    (hne : ps ≠ []) (hroot1 : 1 < ps.length → st.rootName ∉ ps)
    (hpx : p ≠ x) :
    mapGet (bindChildNode st x p).list x = some e := by
  unfold bindChildNode
  split
  case _ node childNode hn hc =>
    have heq : childNode = e := by
      rw [hx] at hc
      exact (Option.some.inj hc).symm
    subst heq
    have hl1x : mapGet (mapSet st.list p
        { node with children := some (jsSetInsert (node.children.getD []) x) }) x
        = some childNode := by
      rw [mapGet_mapSet_ne _ _ _ _ hpx, hx]
    have hentry : ({ childNode with
        parents := some (jsSetInsert (childNode.parents.getD []) p) } : entryNode)
        = childNode := by
      apply entryNode_eta_parents
      rw [hps, Option.getD_some, jsSetInsert_eq_self _ _ hmem]
    refine ensureRootBinding_get_self_stable _ x childNode ps ?_ hps hne ?_
    · simp only [hl1x, Option.getD_some, mapGet_mapSet_self]
      rw [hentry]
    · exact hroot1
  case _ => exact hx

/-- Binding a child `c` that node `x` already lists leaves `x`'s entry
unchanged. -/
theorem bindChildNode_get_parent_stable (st : GraphState) (c x : String)
    (e : entryNode) (cs : List String)
    (hx : mapGet st.list x = some e) (hcs : e.children = some cs) (hmem : c ∈ cs)
    (hcx : c ≠ x) (hxr : x ≠ st.rootName) :
    mapGet (bindChildNode st c x).list x = some e := by
  unfold bindChildNode
  split
  case _ node childNode hn hc =>
    have heq : node = e := by
      rw [hx] at hn
      exact (Option.some.inj hn).symm
    subst heq
    have hentry : ({ node with
        children := some (jsSetInsert (node.children.getD []) c) } : entryNode)
        = node := by
      apply entryNode_eta_children
      rw [hcs, Option.getD_some, jsSetInsert_eq_self _ _ hmem]
    refine Eq.trans (ensureRootBinding_get_other _ c x ?_ ?_) ?_
    · exact fun hh => hcx hh.symm
    · exact hxr
    · simp only [hentry]
      rw [mapSet_eq_of_get st.list x node hx, mapGet_mapSet_ne _ _ _ _ hcx]
      exact hx
  case _ => exact hx

/-! ### What passing validation guarantees -/

theorem checkParents_none (st : GraphState) (name : String) :
    ∀ ps : List String, checkParents st name ps = none →
      ∀ p ∈ ps, mapHas st.list p = true ∧ name ≠ p := by
  intro ps
  induction ps with
  | nil => intro _ p hp; cases hp
  | cons q t ih =>
    intro h p hp
    unfold checkParents at h
    by_cases h1 : ¬ mapHas st.list q = true
    · rw [if_pos h1] at h; cases h
    · rw [if_neg h1] at h
      by_cases h2 : name = q
      · rw [if_pos h2] at h; cases h
      · rw [if_neg h2] at h
        rcases List.mem_cons.mp hp with rfl | hp2
        · exact ⟨of_not_not h1, h2⟩
        · exact ih h p hp2

theorem checkChildren_none (st : GraphState) (name : String) :
    ∀ cs : List String, checkChildren st name cs = none →
      ∀ c ∈ cs, mapHas st.list c = true ∧ name ≠ c ∧ c ≠ st.rootName := by
  intro cs
  induction cs with
  | nil => intro _ c hc; cases hc
  | cons q t ih =>
    intro h c hc
    unfold checkChildren at h
    by_cases h1 : ¬ mapHas st.list q = true
    · rw [if_pos h1] at h; cases h
    · rw [if_neg h1] at h
      by_cases h2 : name = q
      · rw [if_pos h2] at h; cases h
      · rw [if_neg h2] at h
        by_cases h3 : q = st.rootName
        · rw [if_pos h3] at h; cases h
        · rw [if_neg h3] at h
          rcases List.mem_cons.mp hc with rfl | hc2
          · exact ⟨of_not_not h1, h2, h3⟩
          · exact ih h c hc2

theorem runCommonValidation_none (st : GraphState) (name : String) (duration : Int)
    (parents children : Option (List String))
    (h : runCommonValidation st name duration parents children = none) :
    (∀ ps, parents = some ps → ∀ p ∈ ps, mapHas st.list p = true ∧ name ≠ p) ∧
    (∀ cs, children = some cs → ∀ c ∈ cs,
      mapHas st.list c = true ∧ name ≠ c ∧ c ≠ st.rootName) ∧
    findLoop st parents children = false ∧
    name.length ≠ 0 ∧ ¬ duration < 0 ∧ (duration = 0 → name = st.rootName) := by
  unfold runCommonValidation at h
  by_cases h1 : name.length = 0
  · rw [if_pos h1] at h; cases h
  rw [if_neg h1] at h
  by_cases h2 : duration = 0 ∧ name ≠ st.rootName
  · rw [if_pos h2] at h; cases h
  rw [if_neg h2] at h
  by_cases h3 : duration < 0
  · rw [if_pos h3] at h; cases h
  rw [if_neg h3] at h
  cases hp : (match parents with
              | some ps => checkParents st name ps
              | none => none) with
  | some e => rw [hp] at h; simp at h
  | none =>
    rw [hp] at h
    cases hc : (match children with
                | some cs => checkChildren st name cs
                | none => none) with
    | some e => rw [hc] at h; simp at h
    | none =>
      rw [hc] at h
      by_cases h4 : findLoop st parents children = true
      · rw [if_pos h4] at h; cases h
      · refine ⟨?_, ?_, by simpa using h4, h1, h3, ?_⟩
        · intro ps hps p hpp
          rw [hps] at hp
          exact checkParents_none st name ps hp p hpp
        · intro cs hcs c hcc
          rw [hcs] at hc
          exact checkChildren_none st name cs hc c hcc
        · intro hd
          by_contra hr
          exact h2 ⟨hd, hr⟩

/-! ### Field preservation and fold stability -/

theorem foldl_rootName_preserved {β : Type} (f : GraphState → β → GraphState)
    (hf : ∀ s b, (f s b).rootName = s.rootName) :
    ∀ (l : List β) (st : GraphState), (l.foldl f st).rootName = st.rootName := by
  intro l
  induction l with
  | nil => intro st; rfl
  | cons b t ih =>
    intro st
    rw [List.foldl_cons, ih, hf]

theorem removeNode_rootName (st : GraphState) (name : String) (isUpdate : Bool) :
    (removeNode st name isUpdate).2.rootName = st.rootName := by
  unfold removeNode
  split
  · rfl
  split
  · rfl
  split
  · rfl
  case _ node hnode =>
    simp only
    have hr2 : ∀ (l : List String) (s : GraphState),
        (l.foldl
          (fun s child =>
            let s1 := unbindChildNode s child name
            if isUpdate then s1
            else (node.parents.getD []).foldl
              (fun s2 parent => bindChildNode s2 child parent) s1) s).rootName
          = s.rootName := by
      intro l
      apply foldl_rootName_preserved
      intro s child
      simp only
      split
      · exact unbindChildNode_rootName s child name
      · rw [foldl_rootName_preserved _ (fun s2 p => bindChildNode_rootName s2 child p)]
        exact unbindChildNode_rootName s child name
    have hr1 : ∀ (l : List String) (s : GraphState),
        (l.foldl (fun s2 parent => unbindChildNode s2 name parent) s).rootName
          = s.rootName :=
      fun l s => foldl_rootName_preserved _ (fun s2 p => unbindChildNode_rootName s2 name p) l s
    split
    · split
      · split
        · simp only
          rw [hr2, hr1]
        · rw [hr2, hr1]
      · rw [hr2, hr1]
    · rw [hr2, hr1]

theorem foldl_bindParents_stable (rn x : String) (e : entryNode) (ps : List String)
    (hps : e.parents = some ps) (hne : ps ≠ [])
    (hroot1 : 1 < ps.length → rn ∉ ps) :
    ∀ (l : List String) (s : GraphState),
      s.rootName = rn → mapGet s.list x = some e →
      (∀ p ∈ l, p ∈ ps ∧ p ≠ x) →
      mapGet (l.foldl (fun s2 p => bindChildNode s2 x p) s).list x = some e ∧
      (l.foldl (fun s2 p => bindChildNode s2 x p) s).rootName = rn := by
  intro l
  induction l with
  | nil => intro s h1 h2 _; exact ⟨h2, h1⟩
  | cons q t ih =>
    intro s h1 h2 hl
    have hq := hl q (List.mem_cons_self _ _)
    have hstep := bindChildNode_get_child_stable s x q e ps h2 hps hq.1 hne
      (by rw [h1]; exact hroot1) hq.2
    rw [List.foldl_cons]
    exact ih (bindChildNode s x q) (by rw [bindChildNode_rootName, h1]) hstep
      (fun p hp => hl p (List.mem_cons_of_mem _ hp))

theorem foldl_bindChildren_stable (rn x : String) (e : entryNode) (cs : List String)
    (hcs : e.children = some cs) (hxr : x ≠ rn) :
    ∀ (l : List String) (s : GraphState),
      s.rootName = rn → mapGet s.list x = some e →
      (∀ c ∈ l, c ∈ cs ∧ c ≠ x) →
      mapGet (l.foldl (fun s2 c => bindChildNode s2 c x) s).list x = some e ∧
      (l.foldl (fun s2 c => bindChildNode s2 c x) s).rootName = rn := by
  intro l
  induction l with
  | nil => intro s h1 h2 _; exact ⟨h2, h1⟩
  | cons q t ih =>
    intro s h1 h2 hl
    have hq := hl q (List.mem_cons_self _ _)
    have hstep := bindChildNode_get_parent_stable s q x e cs h2 hcs hq.1 hq.2
      (by rw [h1]; exact hxr)
    rw [List.foldl_cons]
    exact ih (bindChildNode s q x) (by rw [bindChildNode_rootName, h1]) hstep
      (fun c hc => hl c (List.mem_cons_of_mem _ hc))

theorem removeNode_fst_none (st : GraphState) (name : String) (isUpdate : Bool)
    (hr : name ≠ st.rootName) (hhas : mapHas st.list name = true) :
    (removeNode st name isUpdate).1 = none := by
  unfold removeNode
  rw [if_neg hr, if_neg (not_not_intro hhas)]
  cases hg : mapGet st.list name with
  | none =>
    rw [mapHas, hg] at hhas
    cases hhas
  | some node => simp [hg]

/-! ### C4: what updateNode with only a name preserves -/

/-- The C4 statement as claimed: updating a node supplying only its name
preserves every attribute, the color included. -/
def claimC4Stmt : Prop :=
  ∀ (st : GraphState) (name : String) (nd : entryNode) (st2 : GraphState),
    mapGet st.list name = some nd → name ≠ st.rootName →
    updateNode st name none none none none none none = (none, st2) →
    mapGet st2.list name = some nd

/-- Concrete graph for C4: a fresh graph, then "A" (duration 5, color 2), then
"B" with parent "A" (duration 3, color 1). -/
def gC4 : GraphState :=
  (addNode (addNode (mkGraph "R" 0).2 "A" 5 none none 2 none true).2
    "B" 3 (some ["A"]) none 1 none true).2

/-- C4 counterexample.  Updating "A" with every optional argument omitted
resets its color from 2 to the graph default 1 (the default for `color` is
`this.defaultColor`, not the node's current color), so the node is NOT left
with all the attributes it had. -/
theorem claim_C4_cex :
    (¬ claimC4Stmt) ∧
    mapGet gC4.list "A" =
      some { name := "A", duration := 5, parents := some ["R"],
             children := some ["B"], color := 2, start := none } ∧
    (updateNode gC4 "A" none none none none none none).1 = none ∧
    mapGet (updateNode gC4 "A" none none none none none none).2.list "A" =
      some { name := "A", duration := 5, parents := some ["R"],
             children := some ["B"], color := 1, start := none } := by
  refine ⟨fun h => ?_, by decide, by decide, by decide⟩
  have h2 := h gC4 "A"
    { name := "A", duration := 5, parents := some ["R"],
      children := some ["B"], color := 2, start := none }
    (updateNode gC4 "A" none none none none none none).2
    (by decide) (by decide)
    (by
      refine Prod.ext ?_ rfl
      decide)
  revert h2
  decide

/-- The re-add phase of updateNode: addNode with validation off stores the
node back with exactly the given fields, and the bind folds leave its entry
untouched. -/
theorem updateNode_addphase_get (st1 : GraphState) (rn name : String)
    (OP : Option (List String)) (P : List String) (OC : Option (List String))
    (duration : Int) (color : Nat) (start : Option Int) (st2 : GraphState)
    (hsr : st1.rootName = rn) (hnr : name ≠ rn)
    (hOPif : (if OP = none ∧ name ≠ st1.rootName then some [st1.rootName] else OP) = some P)
    (hPnd : P.Nodup) (hPne : P ≠ [])
    (hroot1 : 1 < P.length → rn ∉ P)
    (hPx : ∀ p ∈ P, p ≠ name)
    (hOC : ∀ cl, OC = some cl → cl.Nodup ∧ ∀ c ∈ cl, c ≠ name)
    (h : addNode st1 name duration OP OC color start false = (none, st2)) :
    mapGet st2.list name =
      some { name := name, duration := duration, parents := some P,
             children := OC, color := color, start := start } := by
  simp only [addNode] at h
  by_cases hcap : MAX_NODES ≤ st1.list.length
  · rw [if_pos hcap] at h
    simp at h
  rw [if_neg hcap] at h
  by_cases hdup : mapHas st1.list name = true
  · rw [if_pos hdup] at h
    simp at h
  rw [if_neg hdup] at h
  simp only [Bool.false_eq_true, if_false] at h
  rw [hOPif] at h
  rw [show Option.map jsSetOfList (some P) = some P from by
    rw [Option.map_some', jsSetOfList_eq_self P hPnd]] at h
  cases hoc : OC with
  | none =>
    rw [hoc] at h
    simp only [Prod.mk.injEq, true_and] at h
    rw [← h]
    have hbase := mapGet_mapSet_self st1.list name
      { name := name, duration := duration, parents := some P,
        children := Option.map jsSetOfList none, color := color, start := start }
    have hfold := foldl_bindParents_stable rn name
      { name := name, duration := duration, parents := some P,
        children := Option.map jsSetOfList none, color := color, start := start }
      P rfl hPne hroot1 P
      { st1 with
          list := mapSet st1.list name
            { name := name, duration := duration, parents := some P,
              children := Option.map jsSetOfList none, color := color, start := start } }
      (by simp [hsr]) hbase (fun p hp => ⟨hp, hPx p hp⟩)
    exact hfold.1
  | some cl =>
    rw [hoc] at h
    obtain ⟨hclnd2, hclx⟩ := hOC cl hoc
    rw [show Option.map jsSetOfList (some cl) = some cl from by
      rw [Option.map_some', jsSetOfList_eq_self cl hclnd2]] at h
    simp only [Prod.mk.injEq, true_and] at h
    rw [← h]
    have hbase := mapGet_mapSet_self st1.list name
      { name := name, duration := duration, parents := some P,
        children := some cl, color := color, start := start }
    have hfoldp := foldl_bindParents_stable rn name
      { name := name, duration := duration, parents := some P,
        children := some cl, color := color, start := start }
      P rfl hPne hroot1 P
      { st1 with
          list := mapSet st1.list name
            { name := name, duration := duration, parents := some P,
              children := some cl, color := color, start := start } }
      (by simp [hsr]) hbase (fun p hp => ⟨hp, hPx p hp⟩)
    have hfoldc := foldl_bindChildren_stable rn name
      { name := name, duration := duration, parents := some P,
        children := some cl, color := color, start := start }
      cl rfl hnr cl _ hfoldp.2 hfoldp.1
      (fun c hc => ⟨hc, hclx c hc⟩)
    exact hfoldc.1

/-- C4 as amended.  For an existing non-root node whose stored entry has the
shape the library's own mutators produce (name field equal to its key, a
recorded duplicate-free parent list containing the root only as its sole
parent, duplicate-free children), updating with only the name supplied and
returning without error keeps duration and start, resets color to the graph's
current default, re-binds an empty parent set to the root (`[rootName]`),
normalises an empty child set to null, and leaves non-empty parent and child
sets unchanged. -/
theorem claim_C4 (st : GraphState) (name : String) (nd : entryNode)
    (st2 : GraphState) (pl : List String)
    (hget : mapGet st.list name = some nd)
    (hname : nd.name = name)
    (hroot : name ≠ st.rootName)
    (hpl : nd.parents = some pl) (hplnd : pl.Nodup)
    (hplroot : 1 < pl.length → st.rootName ∉ pl)
    (hclnd : (nd.children.getD []).Nodup)
    (h : updateNode st name none none none none none none = (none, st2)) :
    mapGet st2.list name = some { nd with parents := if pl = [] then some [st.rootName] else nd.parents, children := if nd.children.getD [] = [] then none else nd.children, color := st.defaultColor } := by
  have hhas : mapHas st.list name = true := by rw [mapHas, hget]; rfl
  have hrm := removeNode_fst_none st name true hroot hhas
  have hpair : removeNode st name true = (none, (removeNode st name true).2) :=
    Prod.ext hrm rfl
  have hst1root : (removeNode st name true).2.rootName = st.rootName :=
    removeNode_rootName st name true
  simp only [updateNode, hget, hpl, Option.getD_none, Option.getD_some,
    Option.some_bind, Option.map_some', ne_eq, not_true_eq_false, and_false,
    if_false, mapHas, Option.isSome_some, not_true, if_neg hroot] at h
  rw [hpair] at h
  cases hv : runCommonValidation st name nd.duration (some pl)
      (some (nd.children.getD [])) with
  | some e =>
    rw [hv] at h
    simp at h
  | none =>
    rw [hv] at h
    simp only [] at h
    obtain ⟨hvp, hvc, -, -, -, -⟩ := runCommonValidation_none _ _ _ _ _ hv
    have hvp2 := hvp pl rfl
    have hvc2 := hvc (nd.children.getD []) rfl
    by_cases hcle : nd.children.getD [] = []
    · rw [if_pos (show (some (nd.children.getD []) : Option (List String)) = some []
        from by rw [hcle])] at h
      by_cases hple : pl = []
      · rw [if_pos (show (some pl : Option (List String)) = some []
          from by rw [hple])] at h
        have hres := updateNode_addphase_get (removeNode st name true).2 st.rootName name
          none [st.rootName] none nd.duration st.defaultColor nd.start st2 hst1root hroot
          (by rw [if_pos (show (none : Option (List String)) = none ∧
              name ≠ (removeNode st name true).2.rootName from
              ⟨rfl, fun hq => hroot (hq.trans hst1root)⟩), hst1root])
          (by simp) (by simp) (by intro h1; simp at h1)
          (fun p hp hq => hroot (hq.symm.trans (by simpa using hp)))
          (fun cl hcl => by cases hcl) h
        rw [if_pos hple, if_pos hcle]
        refine hres.trans ?_
        have hentry : ({ name := name, duration := nd.duration, parents := some [st.rootName], children := none, color := st.defaultColor, start := nd.start } : entryNode) = { nd with parents := some [st.rootName], children := none, color := st.defaultColor } := by
          cases nd
          simp only [entryNode.mk.injEq]
          exact ⟨hname.symm, trivial, trivial, trivial, trivial, trivial⟩
        rw [hentry]
      · rw [if_neg (show ¬ (some pl : Option (List String)) = some []
          from fun hq => hple (Option.some.inj hq))] at h
        have hres := updateNode_addphase_get (removeNode st name true).2 st.rootName name
          (some pl) pl none nd.duration st.defaultColor nd.start st2 hst1root hroot
          (by rw [if_neg (show ¬ ((some pl : Option (List String)) = none ∧
              name ≠ (removeNode st name true).2.rootName) from fun hq => by cases hq.1)])
          hplnd hple hplroot
          (fun p hp hq => (hvp2 p hp).2 hq.symm)
          (fun cl hcl => by cases hcl) h
        rw [if_neg hple, if_pos hcle]
        refine hres.trans ?_
        have hentry : ({ name := name, duration := nd.duration, parents := some pl, children := none, color := st.defaultColor, start := nd.start } : entryNode) = { nd with parents := nd.parents, children := none, color := st.defaultColor } := by
          cases nd
          simp only [entryNode.mk.injEq]
          exact ⟨hname.symm, trivial, hpl.symm, trivial, trivial, trivial⟩
        rw [hentry]
    · have hclo : ∃ cl, nd.children = some cl ∧ cl ≠ [] := by
        cases hc : nd.children with
        | none => exact absurd (by rw [hc]; rfl) hcle
        | some cl => exact ⟨cl, rfl, fun hq => hcle (by rw [hc, hq]; rfl)⟩
      obtain ⟨cl, hclsome, hclne⟩ := hclo
      have hclD : nd.children.getD [] = cl := by rw [hclsome]; rfl
      rw [hclD] at h hvc2 hclnd
      rw [if_neg (show ¬ (some cl : Option (List String)) = some []
        from fun hq => hclne (Option.some.inj hq))] at h
      have hOCfacts : ∀ cl2, (some cl : Option (List String)) = some cl2 →
          cl2.Nodup ∧ ∀ c ∈ cl2, c ≠ name := by
        intro cl2 hcl2
        cases Option.some.inj hcl2
        exact ⟨hclnd, fun c hc hq => (hvc2 c hc).2.1 hq.symm⟩
      by_cases hple : pl = []
      · rw [if_pos (show (some pl : Option (List String)) = some []
          from by rw [hple])] at h
        have hres := updateNode_addphase_get (removeNode st name true).2 st.rootName name
          none [st.rootName] (some cl) nd.duration st.defaultColor nd.start st2 hst1root hroot
          (by rw [if_pos (show (none : Option (List String)) = none ∧
              name ≠ (removeNode st name true).2.rootName from
              ⟨rfl, fun hq => hroot (hq.trans hst1root)⟩), hst1root])
          (by simp) (by simp) (by intro h1; simp at h1)
          (fun p hp hq => hroot (hq.symm.trans (by simpa using hp)))
          hOCfacts h
        rw [if_pos hple, if_neg hcle]
        refine hres.trans ?_
        have hentry : ({ name := name, duration := nd.duration, parents := some [st.rootName], children := some cl, color := st.defaultColor, start := nd.start } : entryNode) = { nd with parents := some [st.rootName], children := nd.children, color := st.defaultColor } := by
          cases nd
          simp only [entryNode.mk.injEq]
          exact ⟨hname.symm, trivial, trivial, hclsome.symm, trivial, trivial⟩
        rw [hentry]
      · rw [if_neg (show ¬ (some pl : Option (List String)) = some []
          from fun hq => hple (Option.some.inj hq))] at h
        have hres := updateNode_addphase_get (removeNode st name true).2 st.rootName name
          (some pl) pl (some cl) nd.duration st.defaultColor nd.start st2 hst1root hroot
          (by rw [if_neg (show ¬ ((some pl : Option (List String)) = none ∧
              name ≠ (removeNode st name true).2.rootName) from fun hq => by cases hq.1)])
          hplnd hple hplroot
          (fun p hp hq => (hvp2 p hp).2 hq.symm)
          hOCfacts h
        rw [if_neg hple, if_neg hcle]
        refine hres.trans ?_
        have hentry : ({ name := name, duration := nd.duration, parents := some pl, children := some cl, color := st.defaultColor, start := nd.start } : entryNode) = { nd with parents := nd.parents, children := nd.children, color := st.defaultColor } := by
          cases nd
          simp only [entryNode.mk.injEq]
          exact ⟨hname.symm, trivial, hpl.symm, hclsome.symm, trivial, trivial⟩
        rw [hentry]

/-- Concrete graph for the C4 normalisation corner: "X" added with an
explicitly empty children array, stored as an empty set. -/
def gC4X : GraphState :=
  (addNode (mkGraph "R" 0).2 "X" 5 none (some []) 1 none true).2

/-- C4 witness: the amended theorem applied to the concrete graph `gC4`
(non-empty parents and children preserved, color reset) and to `gC4X`
(an empty stored child set normalised to null). -/
theorem claim_C4_witness :
    (mapGet (updateNode gC4 "A" none none none none none none).2.list "A" =
      some { name := "A", duration := 5, parents := some ["R"],
             children := some ["B"], color := 1, start := none }) ∧
    (mapGet (updateNode gC4X "X" none none none none none none).2.list "X" =
      some { name := "X", duration := 5, parents := some ["R"],
             children := none, color := 1, start := none }) := by
  constructor
  · have h := claim_C4 gC4 "A"
      { name := "A", duration := 5, parents := some ["R"],
        children := some ["B"], color := 2, start := none }
      (updateNode gC4 "A" none none none none none none).2 ["R"]
      (by decide) rfl (by decide) rfl (by decide)
      (by intro hq; simp at hq) (by decide)
      (Prod.ext (by decide) rfl)
    exact h.trans (by decide)
  · have h := claim_C4 gC4X "X"
      { name := "X", duration := 5, parents := some ["R"],
        children := some [], color := 1, start := none }
      (updateNode gC4X "X" none none none none none none).2 ["R"]
      (by decide) rfl (by decide) rfl (by decide)
      (by intro hq; simp at hq) (by decide)
      (Prod.ext (by decide) rfl)
    exact h.trans (by decide)

/-! ### Case characterizations of ensureRootBinding -/

theorem ensure_eq_self_root (st : GraphState) (x : String) (hx : x = st.rootName) :
    ensureRootBinding st x = st := by
  unfold ensureRootBinding
  rw [if_pos hx]

theorem ensure_eq_self_missing (st : GraphState) (x : String)
    (h : mapGet st.list x = none ∨ mapGet st.list st.rootName = none) :
    ensureRootBinding st x = st := by
  unfold ensureRootBinding
  split
  · rfl
  split
  case _ node rootNode hnode hroot =>
    rcases h with h | h
    · rw [h] at hnode; cases hnode
    · rw [h] at hroot; cases hroot
  case _ => rfl

theorem ensure_eq_self_noparents (st : GraphState) (x : String) (e : entryNode)
    (hx : mapGet st.list x = some e) (hp : e.parents = none) :
    ensureRootBinding st x = st := by
  unfold ensureRootBinding
  split
  · rfl
  split
  case _ node rootNode hnode hroot =>
    have heq : node = e := by
      rw [hx] at hnode
      exact (Option.some.inj hnode).symm
    subst heq
    simp only [hp, Option.getD_none, List.length_nil]
    rw [if_neg (by decide : ¬ (1 : Nat) < 0)]
    rw [hx, Option.getD_some, hp]
    rw [if_neg (show ¬ (none : Option (List String)) = some [] from by simp)]
  case _ => rfl

theorem ensure_eq_self_small (st : GraphState) (x : String) (e : entryNode)
    (l : List String) (hx : mapGet st.list x = some e) (hp : e.parents = some l)
    (hlen : ¬ 1 < l.length) (hne : l ≠ []) :
    ensureRootBinding st x = st := by
  unfold ensureRootBinding
  split
  · rfl
  split
  case _ node rootNode hnode hroot =>
    have heq : node = e := by
      rw [hx] at hnode
      exact (Option.some.inj hnode).symm
    subst heq
    simp only [hp, Option.getD_some]
    rw [if_neg hlen]
    rw [hx, Option.getD_some, hp]
    rw [if_neg (show ¬ (some l : Option (List String)) = some [] from
      fun hq => hne (Option.some.inj hq))]
  case _ => rfl

theorem nodup_filter_length (m : List String) (z : String) (hm : m.Nodup) :
    (m.filter (fun y => y ≠ z)).length + 1 ≥ m.length := by
  induction m with
  | nil => simp
  | cons a t ih =>
    have ht := List.nodup_cons.mp hm
    by_cases ha : a = z
    · subst ha
      rw [List.filter_cons_of_neg (by simp)]
      have : t.filter (fun y => y ≠ a) = t :=
        List.filter_eq_self.mpr (fun b hb => by
          simp only [ne_eq, decide_eq_true_eq]
          intro hba
          exact ht.1 (hba ▸ hb))
      rw [this]
      simp
    · rw [List.filter_cons_of_pos (by simpa using ha)]
      have := ih ht.2
      simp only [List.length_cons]
      omega

theorem jsSetDelete_ne_nil (l : List String) (z : String) (hnd : l.Nodup)
    (hlen : 1 < l.length) : jsSetDelete l z ≠ [] := by
  intro hq
  have h2 := nodup_filter_length l z hnd
  rw [show l.filter (fun y => y ≠ z) = jsSetDelete l z from rfl, hq] at h2
  simp at h2
  omega

theorem ensure_eq_drop (st : GraphState) (x : String) (e r : entryNode)
    (l : List String) (hx : mapGet st.list x = some e) (hxr : x ≠ st.rootName)
    (hr : mapGet st.list st.rootName = some r)
    (hp : e.parents = some l) (hlen : 1 < l.length) (hnd : l.Nodup) :
    (ensureRootBinding st x).list =
      mapSet (mapSet st.list x { e with parents := some (jsSetDelete l st.rootName) })
        st.rootName { r with children := r.children.map (fun cs => jsSetDelete cs x) } := by
  have hdelne : jsSetDelete l st.rootName ≠ [] := jsSetDelete_ne_nil l _ hnd hlen
  unfold ensureRootBinding
  rw [if_neg hxr]
  split
  case _ node rootNode hnode hroot =>
    have heq : node = e := by
      rw [hx] at hnode
      exact (Option.some.inj hnode).symm
    subst heq
    have heqr : rootNode = r := by
      rw [hr] at hroot
      exact (Option.some.inj hroot).symm
    subst heqr
    simp only [hp, Option.getD_some, Option.map_some']
    rw [if_pos hlen]
    rw [mapGet_mapSet_ne _ _ _ _ (fun hh => hxr hh.symm), mapGet_mapSet_self,
      Option.getD_some]
    rw [if_neg (show ¬ ({ node with parents := some (jsSetDelete l st.rootName) } : entryNode).parents = some [] from by
      simp only
      intro hq
      exact hdelne (Option.some.inj hq))]
  case _ h2 =>
    rw [hx, hr] at h2
    exact absurd rfl (h2 e r rfl)

theorem ensure_eq_addroot (st : GraphState) (x : String) (e r : entryNode)
    (hx : mapGet st.list x = some e) (hxr : x ≠ st.rootName)
    (hr : mapGet st.list st.rootName = some r)
    (hp : e.parents = some []) :
    (ensureRootBinding st x).list =
      mapSet (mapSet st.list x { e with parents := some (jsSetInsert [] st.rootName) })
        st.rootName { r with children := some (jsSetInsert (r.children.getD []) x) } := by
  unfold ensureRootBinding
  rw [if_neg hxr]
  split
  case _ node rootNode hnode hroot =>
    have heq : node = e := by
      rw [hx] at hnode
      exact (Option.some.inj hnode).symm
    subst heq
    have heqr : rootNode = r := by
      rw [hr] at hroot
      exact (Option.some.inj hroot).symm
    subst heqr
    simp only [hp, Option.getD_some, List.length_nil]
    rw [if_neg (by decide : ¬ (1 : Nat) < 0)]
    rw [hx, Option.getD_some, hp]
    rw [if_pos rfl]
    rw [mapGet_mapSet_ne _ _ _ _ hxr, hr, Option.getD_some]
  case _ h2 =>
    rw [hx, hr] at h2
    exact absurd rfl (h2 e r rfl)

theorem mapSet_mapSet_self (l : List (String × α)) (k : String) (a b : α) :
    mapSet (mapSet l k a) k b = mapSet l k b := by
  induction l with
  | nil => simp [mapSet]
  | cons p t ih =>
    obtain ⟨k2, v2⟩ := p
    by_cases h2 : k2 = k
    · simp [mapSet, h2]
    · simp [mapSet, h2, ih]

/-! ### Case characterizations of bindChildNode and unbindChildNode -/

theorem bind_eq_missing (st : GraphState) (c n : String)
    (h : mapGet st.list n = none ∨ mapGet st.list c = none) :
    bindChildNode st c n = st := by
  unfold bindChildNode
  split
  case _ node childNode hn hc =>
    rcases h with h | h
    · rw [h] at hn; cases hn
    · rw [h] at hc; cases hc
  case _ => rfl

theorem bind_eq (st : GraphState) (c n : String) (en ec : entryNode)
    (hn : mapGet st.list n = some en) (hc : mapGet st.list c = some ec)
    (hcn : c ≠ n) :
    bindChildNode st c n =
      ensureRootBinding
        { st with list := mapSet (mapSet st.list n { en with children := some (jsSetInsert (en.children.getD []) c) }) c { ec with parents := some (jsSetInsert (ec.parents.getD []) n) } } c := by
  unfold bindChildNode
  split
  case _ node childNode hn2 hc2 =>
    have he1 : node = en := by rw [hn] at hn2; exact (Option.some.inj hn2).symm
    have he2 : childNode = ec := by rw [hc] at hc2; exact (Option.some.inj hc2).symm
    subst he1
    subst he2
    have hg : mapGet (mapSet st.list n { node with children := some (jsSetInsert (node.children.getD []) c) }) c = some childNode := by
      rw [mapGet_mapSet_ne _ _ _ _ (fun hh => hcn hh.symm)]; exact hc
    simp only [hg, Option.getD_some]
  case _ h2 =>
    rw [hn, hc] at h2
    exact absurd rfl (h2 en ec rfl)

theorem bind_eq_alias (st : GraphState) (c : String) (ec : entryNode)
    (hc : mapGet st.list c = some ec) :
    bindChildNode st c c =
      ensureRootBinding
        { st with list := mapSet st.list c { ec with children := some (jsSetInsert (ec.children.getD []) c), parents := some (jsSetInsert (ec.parents.getD []) c) } } c := by
  unfold bindChildNode
  split
  case _ node childNode hn2 hc2 =>
    have he1 : node = ec := by rw [hc] at hn2; exact (Option.some.inj hn2).symm
    have he2 : childNode = ec := by rw [hc] at hc2; exact (Option.some.inj hc2).symm
    subst he1
    subst he2
    simp only [mapGet_mapSet_self, Option.getD_some, mapSet_mapSet_self]
  case _ h2 =>
    rw [hc] at h2
    exact absurd rfl (h2 ec ec rfl)

theorem unbind_eq_missing (st : GraphState) (c n : String)
    (h : mapGet st.list n = none ∨ mapGet st.list c = none) :
    unbindChildNode st c n = st := by
  unfold unbindChildNode
  split
  case _ node childNode hn hc =>
    rcases h with h | h
    · rw [h] at hn; cases hn
    · rw [h] at hc; cases hc
  case _ => rfl

theorem unbind_eq (st : GraphState) (c n : String) (en ec : entryNode)
    (hn : mapGet st.list n = some en) (hc : mapGet st.list c = some ec)
    (hcn : c ≠ n) (hnr : n ≠ st.rootName) :
    unbindChildNode st c n =
      ensureRootBinding
        { st with list := mapSet (mapSet st.list n { en with children := if en.children.map (fun cs => jsSetDelete cs c) = some [] then none else en.children.map (fun cs => jsSetDelete cs c) }) c { ec with parents := ec.parents.map (fun ps => jsSetDelete ps n) } } c := by
  unfold unbindChildNode
  split
  case _ node childNode hn2 hc2 =>
    have he1 : node = en := by rw [hn] at hn2; exact (Option.some.inj hn2).symm
    have he2 : childNode = ec := by rw [hc] at hc2; exact (Option.some.inj hc2).symm
    subst he1
    subst he2
    have hg : mapGet (mapSet st.list n { node with children := if node.children.map (fun cs => jsSetDelete cs c) = some [] then none else node.children.map (fun cs => jsSetDelete cs c) }) c = some childNode := by
      rw [mapGet_mapSet_ne _ _ _ _ (fun hh => hcn hh.symm)]; exact hc
    simp only [hg, Option.getD_some]
    rw [if_pos hnr]
  case _ h2 =>
    rw [hn, hc] at h2
    exact absurd rfl (h2 en ec rfl)

theorem unbind_eq_root (st : GraphState) (c n : String) (en ec : entryNode)
    (hn : mapGet st.list n = some en) (hc : mapGet st.list c = some ec)
    (hcn : c ≠ n) (hnr : n = st.rootName) :
    unbindChildNode st c n =
      { st with list := mapSet (mapSet st.list n { en with children := if en.children.map (fun cs => jsSetDelete cs c) = some [] then none else en.children.map (fun cs => jsSetDelete cs c) }) c { ec with parents := ec.parents.map (fun ps => jsSetDelete ps n) } } := by
  unfold unbindChildNode
  split
  case _ node childNode hn2 hc2 =>
    have he1 : node = en := by rw [hn] at hn2; exact (Option.some.inj hn2).symm
    have he2 : childNode = ec := by rw [hc] at hc2; exact (Option.some.inj hc2).symm
    subst he1
    subst he2
    have hg : mapGet (mapSet st.list n { node with children := if node.children.map (fun cs => jsSetDelete cs c) = some [] then none else node.children.map (fun cs => jsSetDelete cs c) }) c = some childNode := by
      rw [mapGet_mapSet_ne _ _ _ _ (fun hh => hcn hh.symm)]; exact hc
    simp only [hg, Option.getD_some]
    rw [if_neg (by simpa using hnr)]
  case _ h2 =>
    rw [hn, hc] at h2
    exact absurd rfl (h2 en ec rfl)

theorem unbind_eq_alias (st : GraphState) (c : String) (ec : entryNode)
    (hc : mapGet st.list c = some ec) (hnr : c ≠ st.rootName) :
    unbindChildNode st c c =
      ensureRootBinding
        { st with list := mapSet st.list c { ec with children := if ec.children.map (fun cs => jsSetDelete cs c) = some [] then none else ec.children.map (fun cs => jsSetDelete cs c), parents := ec.parents.map (fun ps => jsSetDelete ps c) } } c := by
  unfold unbindChildNode
  split
  case _ node childNode hn2 hc2 =>
    have he1 : node = ec := by rw [hc] at hn2; exact (Option.some.inj hn2).symm
    have he2 : childNode = ec := by rw [hc] at hc2; exact (Option.some.inj hc2).symm
    subst he1
    subst he2
    simp only [mapGet_mapSet_self, Option.getD_some, mapSet_mapSet_self]
    rw [if_pos hnr]
  case _ h2 =>
    rw [hc] at h2
    exact absurd rfl (h2 ec ec rfl)

theorem mem_foldl_jsSetInsert (l acc : List String) (x : String) :
    x ∈ l.foldl jsSetInsert acc ↔ x ∈ acc ∨ x ∈ l := by
  induction l generalizing acc with
  | nil => simp
  | cons a t ih =>
    simp only [List.foldl_cons, ih, mem_jsSetInsert, List.mem_cons]
    constructor
    · rintro ((hx | rfl) | hx)
      · exact Or.inl hx
      · exact Or.inr (Or.inl rfl)
      · exact Or.inr (Or.inr hx)
    · rintro (hx | (rfl | hx))
      · exact Or.inl (Or.inl hx)
      · exact Or.inl (Or.inr rfl)
      · exact Or.inr hx

theorem foldl_jsSetInsert_nodup (l acc : List String) (h : acc.Nodup) :
    (l.foldl jsSetInsert acc).Nodup := by
  induction l generalizing acc with
  | nil => exact h
  | cons a t ih => exact ih _ (jsSetInsert_nodup _ _ h)

theorem jsSetOfList_nodup (l : List String) : (jsSetOfList l).Nodup :=
  foldl_jsSetInsert_nodup l [] List.nodup_nil

theorem mem_jsSetOfList (l : List String) (x : String) :
    x ∈ jsSetOfList l ↔ x ∈ l := by
  unfold jsSetOfList
  rw [mem_foldl_jsSetInsert]
  simp

theorem jsSetOfList_ne_nil (l : List String) (h : l ≠ []) : jsSetOfList l ≠ [] := by
  cases l with
  | nil => exact absurd rfl h
  | cons a t =>
    intro hcon
    have : a ∈ jsSetOfList (a :: t) := (mem_jsSetOfList _ a).mpr (List.mem_cons_self _ _)
    rw [hcon] at this
    cases this

theorem jsSetInsert_getD_ne_nil (s : List String) (x : String) :
    jsSetInsert s x ≠ [] := by
  intro hcon
  have : x ∈ jsSetInsert s x := (mem_jsSetInsert s x x).mpr (Or.inr rfl)
  rw [hcon] at this
  cases this

/-! ### The C1 invariant: root binding discipline

`InvOn root l P` says the association list `l` of a graph with root name
`root` has duplicate-free keys, holds the root with a null parent set, and
every entry has duplicate-free parent/child sets, never lists the root as a
child, and (for non-root entries) has a materialised (`some`) parent set
which is non-empty whenever the entry is not currently exempted by `P`.
The exemption set `P` lets the invariant pass through the transient states
inside `removeNode`/`updateNode` where one node's parent set is empty until
`ensureRootBinding` (or deletion) repairs it. -/
def InvOn (root : String) (l : List (String × entryNode)) (P : String → Prop) : Prop :=
  KeysNodup l ∧
  (∃ r, mapGet l root = some r ∧ r.parents = none) ∧
  (∀ k e, mapGet l k = some e →
    (e.parents.getD []).Nodup ∧ (e.children.getD []).Nodup ∧
    root ∉ e.children.getD [] ∧
    (k ≠ root → ∃ m, e.parents = some m ∧ (P k → m ≠ [])))

/-- The unrestricted invariant: every non-root node has a non-empty parent set. -/
def Inv (st : GraphState) : Prop :=
  InvOn st.rootName st.list (fun _ => True)

theorem invOn_mono (root : String) (l : List (String × entryNode))
    (P Q : String → Prop) (h : InvOn root l P) (hpq : ∀ k, Q k → P k) :
    InvOn root l Q := by
  obtain ⟨h1, h2, h3⟩ := h
  refine ⟨h1, h2, ?_⟩
  intro k e hk
  obtain ⟨e1, e2, e3, e4⟩ := h3 k e hk
  refine ⟨e1, e2, e3, ?_⟩
  intro hkr
  obtain ⟨m, hm, hne⟩ := e4 hkr
  exact ⟨m, hm, fun hq => hne (hpq k hq)⟩

/-- Updating one binding preserves the invariant, provided the new entry is
itself well-formed and the demanded non-emptiness of untouched entries was
already demanded before. -/
theorem invOn_set (root : String) (l : List (String × entryNode))
    (P Q : String → Prop) (a : String) (ea : entryNode)
    (h : InvOn root l P)
    (hroot : a = root → ea.parents = none)
    (hnd1 : (ea.parents.getD []).Nodup) (hnd2 : (ea.children.getD []).Nodup)
    (hrc : root ∉ ea.children.getD [])
    (hpar : a ≠ root → ∃ m, ea.parents = some m ∧ (Q a → m ≠ []))
    (hout : ∀ k, Q k → k ≠ a → P k) :
    InvOn root (mapSet l a ea) Q := by
  obtain ⟨h1, h2, h3⟩ := h
  refine ⟨keysNodup_mapSet l a ea h1, ?_, ?_⟩
  · by_cases har : a = root
    · exact ⟨ea, by rw [har, mapGet_mapSet_self], hroot har⟩
    · obtain ⟨r, hr, hrp⟩ := h2
      exact ⟨r, by rw [mapGet_mapSet_ne _ _ _ _ har, hr], hrp⟩
  · intro k e hk
    by_cases hka : k = a
    · subst hka
      rw [mapGet_mapSet_self] at hk
      cases hk
      exact ⟨hnd1, hnd2, hrc, hpar⟩
    · rw [mapGet_mapSet_ne _ _ _ _ (fun hh => hka hh.symm)] at hk
      obtain ⟨e1, e2, e3, e4⟩ := h3 k e hk
      refine ⟨e1, e2, e3, ?_⟩
      intro hkr
      obtain ⟨m, hm, hne⟩ := e4 hkr
      exact ⟨m, hm, fun hq => hne (hout k hq hka)⟩

/-- Deleting the binding of the one exempted node restores the unrestricted
invariant. -/
theorem invOn_delete (root : String) (l : List (String × entryNode)) (a : String)
    (h : InvOn root l (fun k => k ≠ a)) (hra : root ≠ a) :
    InvOn root (mapDelete l a) (fun _ => True) := by
  obtain ⟨h1, h2, h3⟩ := h
  refine ⟨keysNodup_mapDelete l a h1, ?_, ?_⟩
  · obtain ⟨r, hr, hrp⟩ := h2
    exact ⟨r, by rw [mapGet_mapDelete_ne _ _ _ hra, hr], hrp⟩
  · intro k e hk
    by_cases hka : k = a
    · subst hka
      rw [mapGet_mapDelete_self l k h1] at hk
      cases hk
    · rw [mapGet_mapDelete_ne _ _ _ hka] at hk
      obtain ⟨e1, e2, e3, e4⟩ := h3 k e hk
      refine ⟨e1, e2, e3, ?_⟩
      intro hkr
      obtain ⟨m, hm, hne⟩ := e4 hkr
      exact ⟨m, hm, fun _ => hne hka⟩

/-- Growing the exemption set by a node whose entry (if any) already has a
non-empty parent set does not lose the invariant. -/
theorem invOn_grow (root : String) (l : List (String × entryNode))
    (P : String → Prop) (y : String) (h : InvOn root l P)
    (hy : ∀ e, mapGet l y = some e → y ≠ root → ∃ m, e.parents = some m ∧ m ≠ []) :
    InvOn root l (fun k => P k ∨ k = y) := by
  obtain ⟨h1, h2, h3⟩ := h
  refine ⟨h1, h2, ?_⟩
  intro k e hk
  obtain ⟨e1, e2, e3, e4⟩ := h3 k e hk
  refine ⟨e1, e2, e3, ?_⟩
  intro hkr
  by_cases hky : k = y
  · subst hky
    obtain ⟨m, hm, hne⟩ := hy e hk hkr
    exact ⟨m, hm, fun _ => hne⟩
  · obtain ⟨m, hm, hne⟩ := e4 hkr
    refine ⟨m, hm, ?_⟩
    rintro (hq | hq)
    · exact hne hq
    · exact absurd hq hky

/-- ensureRootBinding preserves the invariant and additionally repairs the
node it is called on (which may afterwards be removed from the exemptions). -/
theorem ensure_invOn (st : GraphState) (y : String) (P : String → Prop)
    (h : InvOn st.rootName st.list P) :
    InvOn st.rootName (ensureRootBinding st y).list (fun k => P k ∨ k = y) := by
  by_cases hyr : y = st.rootName
  · rw [ensure_eq_self_root st y hyr]
    exact invOn_grow _ _ _ _ h (fun e _ hcon => absurd hyr hcon)
  cases hyg : mapGet st.list y with
  | none =>
    rw [ensure_eq_self_missing st y (Or.inl hyg)]
    exact invOn_grow _ _ _ _ h (fun e he _ => absurd (hyg ▸ he) (by simp))
  | some e =>
    obtain ⟨h1, h2, h3⟩ := h
    obtain ⟨r, hr, hrp⟩ := h2
    obtain ⟨e1, e2, e3, e4⟩ := h3 y e hyg
    obtain ⟨m, hm, -⟩ := e4 hyr
    have hmnd : m.Nodup := by simpa [hm] using e1
    by_cases hm0 : m = []
    · subst hm0
      rw [ensure_eq_addroot st y e r hyg hyr hr hm]
      have hmid : InvOn st.rootName
          (mapSet st.list y { e with parents := some (jsSetInsert [] st.rootName) })
          (fun k => P k ∨ k = y) := by
        refine invOn_set _ _ P _ y _ ⟨h1, ⟨r, hr, hrp⟩, h3⟩
          (fun hcon => absurd hcon hyr) ?_ e2 e3 ?_ ?_
        · simp [jsSetInsert]
        · exact fun _ => ⟨_, rfl, fun _ => jsSetInsert_getD_ne_nil _ _⟩
        · rintro k (hk | hk) hky
          · exact hk
          · exact absurd hk hky
      refine invOn_set _ _ _ _ st.rootName _ hmid (fun _ => hrp) ?_ ?_ ?_
        (fun hcon => absurd rfl hcon) (fun k hk _ => hk)
      · simp [hrp]
      · obtain ⟨-, r2, r3, -⟩ := h3 st.rootName r hr
        simpa using jsSetInsert_nodup _ _ r2
      · obtain ⟨-, r2, r3, -⟩ := h3 st.rootName r hr
        simp only [Option.getD_some, mem_jsSetInsert]
        rintro (hcon | hcon)
        · exact r3 hcon
        · exact hyr hcon.symm
    · by_cases hm1 : 1 < m.length
      · rw [ensure_eq_drop st y e r m hyg hyr hr hm hm1 hmnd]
        have hmid : InvOn st.rootName
            (mapSet st.list y { e with parents := some (jsSetDelete m st.rootName) })
            (fun k => P k ∨ k = y) := by
          refine invOn_set _ _ P _ y _ ⟨h1, ⟨r, hr, hrp⟩, h3⟩
            (fun hcon => absurd hcon hyr) ?_ e2 e3 ?_ ?_
          · simpa using jsSetDelete_nodup m _ hmnd
          · exact fun _ => ⟨_, rfl, fun _ => jsSetDelete_ne_nil m _ hmnd hm1⟩
          · rintro k (hk | hk) hky
            · exact hk
            · exact absurd hk hky
        refine invOn_set _ _ _ _ st.rootName _ hmid (fun _ => hrp) ?_ ?_ ?_
          (fun hcon => absurd rfl hcon) (fun k hk _ => hk)
        · simp [hrp]
        · obtain ⟨-, r2, r3, -⟩ := h3 st.rootName r hr
          cases hrc : r.children with
          | none => simp [hrc]
          | some cs =>
            rw [hrc] at r2
            simpa [hrc] using jsSetDelete_nodup cs y (by simpa using r2)
        · obtain ⟨-, r2, r3, -⟩ := h3 st.rootName r hr
          cases hrc : r.children with
          | none => simp [hrc]
          | some cs =>
            rw [hrc] at r3
            simp only [hrc, Option.map_some', Option.getD_some, mem_jsSetDelete]
            rintro ⟨hcon, -⟩
            exact r3 (by simpa using hcon)
      · rw [ensure_eq_self_small st y e m hyg hm hm1 hm0]
        exact invOn_grow _ _ _ _ ⟨h1, ⟨r, hr, hrp⟩, h3⟩
          (fun e2 he2 _ => ⟨m, by rw [hyg] at he2; exact (Option.some.inj he2) ▸ hm, hm0⟩)

theorem normDel_nodup (o : Option (List String)) (x : String) (h : (o.getD []).Nodup) :
    ((if o.map (fun cs => jsSetDelete cs x) = some [] then none
      else o.map (fun cs => jsSetDelete cs x)).getD []).Nodup := by
  cases o with
  | none => simp
  | some cs =>
    split
    · simp
    · simpa using jsSetDelete_nodup cs x (by simpa using h)

theorem normDel_not_mem (o : Option (List String)) (x z : String) (h : z ∉ o.getD []) :
    z ∉ (if o.map (fun cs => jsSetDelete cs x) = some [] then none
         else o.map (fun cs => jsSetDelete cs x)).getD [] := by
  cases o with
  | none => simp
  | some cs =>
    split
    · simp
    · simp only [Option.map_some', Option.getD_some, mem_jsSetDelete]
      rintro ⟨hcon, -⟩
      exact h (by simpa using hcon)

theorem mapDel_nodup (o : Option (List String)) (x : String) (h : (o.getD []).Nodup) :
    ((o.map (fun ps => jsSetDelete ps x)).getD []).Nodup := by
  cases o with
  | none => simp
  | some ps => simpa using jsSetDelete_nodup ps x (by simpa using h)

/-- bindChildNode preserves the invariant whenever the bound child is not the
root (a precondition every call site establishes via validation). -/
theorem bind_invOn (st : GraphState) (c n : String) (P : String → Prop)
    (h : InvOn st.rootName st.list P) (hc : c ≠ st.rootName) :
    InvOn st.rootName (bindChildNode st c n).list P := by
  cases hn : mapGet st.list n with
  | none => rw [bind_eq_missing st c n (Or.inl hn)]; exact h
  | some en =>
    cases hcg : mapGet st.list c with
    | none => rw [bind_eq_missing st c n (Or.inr hcg)]; exact h
    | some ec =>
      obtain ⟨h1, h2, h3⟩ := h
      obtain ⟨en1, en2, en3, en4⟩ := h3 n en hn
      obtain ⟨ec1, ec2, ec3, ec4⟩ := h3 c ec hcg
      by_cases hcn : c = n
      · subst hcn
        have hee : en = ec := by rw [hn] at hcg; exact Option.some.inj hcg
        subst hee
        rw [bind_eq_alias st c en hn]
        have hmid : InvOn st.rootName
            (mapSet st.list c
              { en with children := some (jsSetInsert (en.children.getD []) c),
                        parents := some (jsSetInsert (en.parents.getD []) c) }) P := by
          refine invOn_set _ _ P P c _ ⟨h1, h2, h3⟩ (fun hcon => absurd hcon hc)
            ?_ ?_ ?_ ?_ (fun k hk _ => hk)
          · simpa using jsSetInsert_nodup _ c en1
          · simpa using jsSetInsert_nodup _ c en2
          · simp only [Option.getD_some, mem_jsSetInsert]
            rintro (hcon | hcon)
            · exact en3 hcon
            · exact hc hcon.symm
          · exact fun _ => ⟨_, rfl, fun _ => jsSetInsert_getD_ne_nil _ _⟩
        exact invOn_mono _ _ _ _ (ensure_invOn _ c P hmid) (fun k hk => Or.inl hk)
      · rw [bind_eq st c n en ec hn hcg hcn]
        have hmid1 : InvOn st.rootName
            (mapSet st.list n { en with children := some (jsSetInsert (en.children.getD []) c) }) P := by
          refine invOn_set _ _ P P n _ ⟨h1, h2, h3⟩ ?_ en1
            ?_ ?_ en4 (fun k hk _ => hk)
          · intro hnr
            obtain ⟨r, hr, hrp⟩ := h2
            rw [hnr] at hn
            rw [hn] at hr
            rw [← Option.some.inj hr] at hrp
            exact hrp
          · simpa using jsSetInsert_nodup _ c en2
          · simp only [Option.getD_some, mem_jsSetInsert]
            rintro (hcon | hcon)
            · exact en3 hcon
            · exact hc hcon.symm
        have hmid2 : InvOn st.rootName
            (mapSet (mapSet st.list n { en with children := some (jsSetInsert (en.children.getD []) c) })
              c { ec with parents := some (jsSetInsert (ec.parents.getD []) n) }) P := by
          refine invOn_set _ _ P P c _ hmid1 (fun hcon => absurd hcon hc)
            ?_ ec2 ec3 ?_ (fun k hk _ => hk)
          · simpa using jsSetInsert_nodup _ n ec1
          · exact fun _ => ⟨_, rfl, fun _ => jsSetInsert_getD_ne_nil _ _⟩
        exact invOn_mono _ _ _ _ (ensure_invOn _ c P hmid2) (fun k hk => Or.inl hk)

/-- unbindChildNode preserves the invariant: when unbinding from a non-root
node, ensureRootBinding repairs any emptied parent set; when unbinding from
the root, the exemption set must already cover the child. -/
theorem unbind_presP (st : GraphState) (c n : String) (P : String → Prop)
    (h : InvOn st.rootName st.list P) (hc : c ≠ st.rootName)
    (hfix : n = st.rootName → ∀ k, P k → k ≠ c) :
    InvOn st.rootName (unbindChildNode st c n).list P := by
  cases hn : mapGet st.list n with
  | none => rw [unbind_eq_missing st c n (Or.inl hn)]; exact h
  | some en =>
    cases hcg : mapGet st.list c with
    | none => rw [unbind_eq_missing st c n (Or.inr hcg)]; exact h
    | some ec =>
      obtain ⟨h1, h2, h3⟩ := h
      obtain ⟨en1, en2, en3, en4⟩ := h3 n en hn
      obtain ⟨ec1, ec2, ec3, ec4⟩ := h3 c ec hcg
      by_cases hnr : n = st.rootName
      · have hcn : c ≠ n := fun hq => hc (hq.trans hnr)
        rw [unbind_eq_root st c n en ec hn hcg hcn hnr]
        have hmid1 : InvOn st.rootName
            (mapSet st.list n
              { en with children := if en.children.map (fun cs => jsSetDelete cs c) = some [] then none
                                    else en.children.map (fun cs => jsSetDelete cs c) }) P := by
          refine invOn_set _ _ P P n _ ⟨h1, h2, h3⟩ ?_ en1
            (normDel_nodup _ c en2) (normDel_not_mem _ c _ en3) en4 (fun k hk _ => hk)
          · intro hnr2
            obtain ⟨r, hr, hrp⟩ := h2
            rw [hnr2] at hn
            rw [hn] at hr
            rw [← Option.some.inj hr] at hrp
            exact hrp
        refine invOn_set _ _ P P c _ hmid1 (fun hcon => absurd hcon hc)
          (mapDel_nodup _ n ec1) ec2 ec3 ?_ (fun k hk _ => hk)
        · intro _
          obtain ⟨m0, hm0, -⟩ := ec4 hc
          refine ⟨jsSetDelete m0 n, by rw [hm0]; rfl, ?_⟩
          intro hq
          exact absurd rfl (hfix hnr c hq)
      · by_cases hcn : c = n
        · subst hcn
          have hee : en = ec := by rw [hn] at hcg; exact Option.some.inj hcg
          subst hee
          rw [unbind_eq_alias st c en hn hc]
          have hmid : InvOn st.rootName
              (mapSet st.list c
                { en with children := if en.children.map (fun cs => jsSetDelete cs c) = some [] then none
                                      else en.children.map (fun cs => jsSetDelete cs c),
                          parents := en.parents.map (fun ps => jsSetDelete ps c) })
              (fun k => P k ∧ k ≠ c) := by
            refine invOn_set _ _ P _ c _ ⟨h1, h2, h3⟩ (fun hcon => absurd hcon hc)
              (mapDel_nodup _ c en1) (normDel_nodup _ c en2) (normDel_not_mem _ c _ en3)
              ?_ (fun k hk _ => hk.1)
            · intro _
              obtain ⟨m0, hm0, -⟩ := en4 hc
              exact ⟨jsSetDelete m0 c, by rw [hm0]; rfl, fun hq => absurd rfl hq.2⟩
          refine invOn_mono _ _ _ _ (ensure_invOn _ c _ hmid) ?_
          intro k hk
          by_cases hkc : k = c
          · exact Or.inr hkc
          · exact Or.inl ⟨hk, hkc⟩
        · rw [unbind_eq st c n en ec hn hcg hcn hnr]
          have hmid1 : InvOn st.rootName
              (mapSet st.list n
                { en with children := if en.children.map (fun cs => jsSetDelete cs c) = some [] then none
                                      else en.children.map (fun cs => jsSetDelete cs c) })
              (fun k => P k ∧ k ≠ c) := by
            refine invOn_set _ _ P _ n _ ⟨h1, h2, h3⟩ ?_ en1
              (normDel_nodup _ c en2) (normDel_not_mem _ c _ en3) ?_ (fun k hk _ => hk.1)
            · intro hnr2
              obtain ⟨r, hr, hrp⟩ := h2
              rw [hnr2] at hn
              rw [hn] at hr
              rw [← Option.some.inj hr] at hrp
              exact hrp
            · intro hnro
              obtain ⟨m, hm, hne⟩ := en4 hnro
              exact ⟨m, hm, fun hq => hne hq.1⟩
          have hmid2 : InvOn st.rootName
              (mapSet (mapSet st.list n
                { en with children := if en.children.map (fun cs => jsSetDelete cs c) = some [] then none
                                      else en.children.map (fun cs => jsSetDelete cs c) })
                c { ec with parents := ec.parents.map (fun ps => jsSetDelete ps n) })
              (fun k => P k ∧ k ≠ c) := by
            refine invOn_set _ _ _ _ c _ hmid1 (fun hcon => absurd hcon hc)
              (mapDel_nodup _ n ec1) ec2 ec3 ?_ (fun k hk _ => hk)
            · intro _
              obtain ⟨m0, hm0, -⟩ := ec4 hc
              exact ⟨jsSetDelete m0 n, by rw [hm0]; rfl, fun hq => absurd rfl hq.2⟩
          refine invOn_mono _ _ _ _ (ensure_invOn _ c _ hmid2) ?_
          intro k hk
          by_cases hkc : k = c
          · exact Or.inr hkc
          · exact Or.inl ⟨hk, hkc⟩

theorem addNode_rootName (st : GraphState) (name : String) (duration : Int)
    (parents children : Option (List String)) (color : Nat) (start : Option Int)
    (validate : Bool) :
    (addNode st name duration parents children color start validate).2.rootName
      = st.rootName := by
  unfold addNode
  split
  · rfl
  split
  · rfl
  split
  · rfl
  · simp only
    cases children with
    | none =>
      cases hp2 : (if parents = none ∧ name ≠ st.rootName then some [st.rootName]
          else parents) with
      | none => rfl
      | some ps =>
        exact foldl_rootName_preserved _ (fun s p => bindChildNode_rootName s name p) ps _
    | some cs =>
      rw [foldl_rootName_preserved _ (fun s c => bindChildNode_rootName s c name) cs]
      cases hp2 : (if parents = none ∧ name ≠ st.rootName then some [st.rootName]
          else parents) with
      | none => rfl
      | some ps =>
        exact foldl_rootName_preserved _ (fun s p => bindChildNode_rootName s name p) ps _

theorem foldl_invOn {β : Type} (root0 : String) (P : String → Prop)
    (f : GraphState → β → GraphState)
    (hroot : ∀ s b, (f s b).rootName = s.rootName) :
    ∀ (l : List β) (st : GraphState),
      (∀ s b, b ∈ l → s.rootName = root0 → InvOn root0 s.list P →
        InvOn root0 (f s b).list P) →
      st.rootName = root0 → InvOn root0 st.list P →
      InvOn root0 (l.foldl f st).list P := by
  intro l
  induction l with
  | nil => intro st _ _ h; exact h
  | cons b t ih =>
    intro st hf hst h
    rw [List.foldl_cons]
    exact ih (f st b) (fun s b' hb' => hf s b' (List.mem_cons_of_mem _ hb'))
      ((hroot st b).trans hst) (hf st b (List.mem_cons_self _ _) hst h)

theorem inv_intro (X : GraphState) (root0 : String) (hr : X.rootName = root0)
    (h : InvOn root0 X.list (fun _ => True)) : Inv X := by
  unfold Inv
  rw [hr]
  exact h

/-- addNode preserves the invariant.  The two preconditions are what the
call sites guarantee: the parent list is never an explicitly empty array
(the ReachableNE restriction; updateNode normalises `[]` to `null` itself),
and with validation off the caller has already validated the children. -/
theorem addNode_inv (st : GraphState) (name : String) (duration : Int)
    (parents children : Option (List String)) (color : Nat) (start : Option Int)
    (validate : Bool) (h : Inv st) (hp : parents ≠ some [])
    (hch : validate = false → ∀ cs, children = some cs → ∀ c ∈ cs, c ≠ st.rootName) :
    Inv (addNode st name duration parents children color start validate).2 := by
  have hrootn := addNode_rootName st name duration parents children color start validate
  refine inv_intro _ st.rootName hrootn ?_
  unfold addNode
  split
  · exact h
  split
  · exact h
  case _ hcap hdup =>
    split
    · exact h
    case _ hval =>
      obtain ⟨h1, h2, h3⟩ := h
      obtain ⟨r, hr, hrp⟩ := h2
      have hname : name ≠ st.rootName := by
        intro hq
        rw [hq] at hdup
        exact hdup (by rw [mapHas, hr]; rfl)
      have hcs : ∀ cs, children = some cs → ∀ c ∈ cs, c ≠ st.rootName := by
        cases validate with
        | false => exact hch rfl
        | true =>
          rw [if_pos rfl] at hval
          intro cs hcseq c hcmem
          exact ((runCommonValidation_none st name duration parents children
            hval).2.1 cs hcseq c hcmem).2.2
      have hps2 : ∀ ps, (if parents = none ∧ name ≠ st.rootName then some [st.rootName]
          else parents) = some ps → ps ≠ [] := by
        intro ps hps
        split at hps
        · cases Option.some.inj hps
          simp
        · intro hq
          exact hp (by rw [hps, hq])
      have hbindP : ∀ (s : GraphState) (p : String), s.rootName = st.rootName →
          InvOn st.rootName s.list (fun _ => True) →
          InvOn st.rootName (bindChildNode s name p).list (fun _ => True) := by
        intro s p hsr hs
        have hb := bind_invOn s name p (fun _ => True) (by rw [hsr]; exact hs)
          (by rw [hsr]; exact hname)
        rwa [hsr] at hb
      have hbindC : ∀ cs0 : List String, (∀ c ∈ cs0, c ≠ st.rootName) →
          ∀ (s : GraphState) (c : String), c ∈ cs0 → s.rootName = st.rootName →
          InvOn st.rootName s.list (fun _ => True) →
          InvOn st.rootName (bindChildNode s c name).list (fun _ => True) := by
        intro cs0 hcs0 s c hcmem hsr hs
        have hb := bind_invOn s c name (fun _ => True) (by rw [hsr]; exact hs)
          (by rw [hsr]; exact hcs0 c hcmem)
        rwa [hsr] at hb
      have hstep1 : ∀ ps, ps ≠ [] →
          InvOn st.rootName
            (mapSet st.list name
              { name := name, duration := duration,
                parents := Option.map jsSetOfList (some ps),
                children := Option.map jsSetOfList children,
                color := color, start := start }) (fun _ => True) := by
        intro ps hpsne
        refine invOn_set _ _ (fun _ => True) (fun _ => True) name _ ⟨h1, ⟨r, hr, hrp⟩, h3⟩
          (fun hcon => absurd hcon hname) ?_ ?_ ?_ ?_ (fun k hk _ => hk)
        · simpa using jsSetOfList_nodup ps
        · cases hchil : children with
          | none => simp
          | some cs => simpa using jsSetOfList_nodup cs
        · cases hchil : children with
          | none => simp
          | some cs =>
            simp only [Option.map_some', Option.getD_some]
            intro hcon
            exact hcs cs hchil st.rootName ((mem_jsSetOfList cs _).mp hcon) rfl
        · exact fun _ => ⟨jsSetOfList ps, rfl, fun _ => jsSetOfList_ne_nil ps hpsne⟩
      simp only
      cases hchil : children with
      | none =>
        cases hp2 : (if parents = none ∧ name ≠ st.rootName then some [st.rootName]
            else parents) with
        | none =>
          exfalso
          split at hp2
          · cases hp2
          case _ hcnd =>
            exact hcnd ⟨hp2, hname⟩
        | some ps =>
          refine foldl_invOn st.rootName (fun _ => True) _
            (fun s p => bindChildNode_rootName s name p) ps _
            (fun s p _ hsr hs => hbindP s p hsr hs) rfl ?_
          have := hstep1 ps (hps2 ps hp2)
          simpa [hchil] using this
      | some cs =>
        have hcsroot : ∀ c ∈ cs, c ≠ st.rootName := hcs cs hchil
        refine foldl_invOn st.rootName (fun _ => True) _
          (fun s c => bindChildNode_rootName s c name) cs _
          (fun s c hcm hsr hs => hbindC cs hcsroot s c hcm hsr hs) ?_ ?_
        · cases hp2 : (if parents = none ∧ name ≠ st.rootName then some [st.rootName]
              else parents) with
          | none => rfl
          | some ps =>
            exact foldl_rootName_preserved _ (fun s p => bindChildNode_rootName s name p) ps _
        · cases hp2 : (if parents = none ∧ name ≠ st.rootName then some [st.rootName]
              else parents) with
          | none =>
            exfalso
            split at hp2
            · cases hp2
            case _ hcnd =>
              exact hcnd ⟨hp2, hname⟩
          | some ps =>
            refine foldl_invOn st.rootName (fun _ => True) _
              (fun s p => bindChildNode_rootName s name p) ps _
              (fun s p _ hsr hs => hbindP s p hsr hs) rfl ?_
            have := hstep1 ps (hps2 ps hp2)
            simpa [hchil] using this

/-- removeNode preserves the invariant: parents are unbound (the removed node
itself being exempt), children are unbound and re-linked (each being repaired
by ensureRootBinding as it is processed), and the removed node's binding and
its leftover root-child edge are deleted. -/
theorem removeNode_inv (st : GraphState) (name : String) (isUpdate : Bool)
    (h : Inv st) : Inv (removeNode st name isUpdate).2 := by
  have hrootn := removeNode_rootName st name isUpdate
  refine inv_intro _ st.rootName hrootn ?_
  unfold removeNode
  split
  · exact h
  case _ hroot =>
    split
    · exact h
    case _ hhas =>
      split
      · exact h
      case _ node hnode =>
        simp only
        have hname : name ≠ st.rootName := hroot
        obtain ⟨nd1, nd2, nd3, nd4⟩ := h.2.2 name node hnode
        obtain ⟨r, hr, hrp⟩ := h.2.1
        have hP0 : InvOn st.rootName st.list (fun k => k ≠ name) :=
          invOn_mono _ _ _ _ h (fun _ _ => trivial)
        have hst1 : InvOn st.rootName
            ((node.parents.getD []).foldl (fun s parent => unbindChildNode s name parent) st).list
            (fun k => k ≠ name) := by
          refine foldl_invOn st.rootName _ _ (fun s p => unbindChildNode_rootName s name p)
            (node.parents.getD []) st ?_ rfl hP0
          intro s p _ hsr hs
          have hu := unbind_presP s name p (fun k => k ≠ name) (by rw [hsr]; exact hs)
            (by rw [hsr]; exact hname) (fun _ k hk => hk)
          rwa [hsr] at hu
        have hst1root : ((node.parents.getD []).foldl
            (fun s parent => unbindChildNode s name parent) st).rootName = st.rootName :=
          foldl_rootName_preserved _ (fun s p => unbindChildNode_rootName s name p) _ st
        have hst2 : InvOn st.rootName
            ((node.children.getD []).foldl
              (fun s child =>
                if isUpdate then unbindChildNode s child name
                else (node.parents.getD []).foldl
                  (fun s2 parent => bindChildNode s2 child parent)
                  (unbindChildNode s child name))
              ((node.parents.getD []).foldl (fun s parent => unbindChildNode s name parent) st)).list
            (fun k => k ≠ name) := by
          refine foldl_invOn st.rootName _ _ ?_ (node.children.getD []) _ ?_ hst1root hst1
          · intro s c
            by_cases hiu : isUpdate = true
            · simp only [hiu, eq_self_iff_true, if_true]
              exact unbindChildNode_rootName s c name
            · simp only [hiu, Bool.false_eq_true, if_false]
              rw [foldl_rootName_preserved _ (fun s2 q => bindChildNode_rootName s2 c q)]
              exact unbindChildNode_rootName s c name
          · intro s c hcm hsr hs
            have hcroot : c ≠ st.rootName := fun hq => nd3 (hq ▸ hcm)
            have hu := unbind_presP s c name (fun k => k ≠ name) (by rw [hsr]; exact hs)
              (by rw [hsr]; exact hcroot)
              (fun hq k hk => absurd (hq.trans hsr) hname)
            have husr : (unbindChildNode s c name).rootName = st.rootName := by
              rw [unbindChildNode_rootName, hsr]
            by_cases hiu : isUpdate = true
            · simp only [hiu, eq_self_iff_true, if_true]
              rwa [hsr] at hu
            · simp only [hiu, Bool.false_eq_true, if_false]
              rw [hsr] at hu
              refine foldl_invOn st.rootName _ _ (fun s2 q => bindChildNode_rootName s2 c q)
                (node.parents.getD []) _ ?_ husr hu
              intro s2 q _ hs2r hs2
              have hb := bind_invOn s2 c q (fun k => k ≠ name) (by rw [hs2r]; exact hs2)
                (by rw [hs2r]; exact hcroot)
              rwa [hs2r] at hb
        have hst3 : InvOn st.rootName
            (mapDelete
              ((node.children.getD []).foldl
                (fun s child =>
                  if isUpdate then unbindChildNode s child name
                  else (node.parents.getD []).foldl
                    (fun s2 parent => bindChildNode s2 child parent)
                    (unbindChildNode s child name))
                ((node.parents.getD []).foldl (fun s parent => unbindChildNode s name parent) st)).list
              name)
            (fun _ => True) :=
          invOn_delete st.rootName _ name hst2 (fun hq => hname hq.symm)
        have hhasroot : mapHas st.list st.rootName = true := by
          rw [mapHas, hr]
          rfl
        rw [if_pos hhasroot]
        cases hre : mapGet
            (mapDelete
              ((node.children.getD []).foldl
                (fun s child =>
                  if isUpdate then unbindChildNode s child name
                  else (node.parents.getD []).foldl
                    (fun s2 parent => bindChildNode s2 child parent)
                    (unbindChildNode s child name))
                ((node.parents.getD []).foldl (fun s parent => unbindChildNode s name parent) st)).list
              name)
            st.rootName with
        | none => exact hst3
        | some rootNode =>
          simp only
          cases hrc : rootNode.children with
          | none => exact hst3
          | some cs2 =>
            simp only
            obtain ⟨rn1, rn2, rn3, rn4⟩ := hst3.2.2 st.rootName rootNode hre
            obtain ⟨r3, hr3, hr3p⟩ := hst3.2.1
            have hrn : rootNode = r3 := by
              rw [hre] at hr3
              exact Option.some.inj hr3
            refine invOn_set _ _ (fun _ => True) (fun _ => True) st.rootName _ hst3
              (fun _ => by rw [hrn]; exact hr3p) ?_ ?_ ?_
              (fun hcon => absurd rfl hcon) (fun k hk _ => hk)
            · simp only [hrn, hr3p]
              simp
            · rw [hrc] at rn2
              simpa using jsSetDelete_nodup cs2 name (by simpa using rn2)
            · rw [hrc] at rn3
              simp only [Option.getD_some, mem_jsSetDelete]
              rintro ⟨hcon, -⟩
              exact rn3 (by simpa using hcon)

/-- updateNode preserves the invariant: it delegates to removeNode (isUpdate
mode) followed by addNode with an explicitly normalised parents argument
(`[]` becomes `null`) and pre-validated children. -/
theorem updateNode_inv (st : GraphState) (name : String) (newNameArg : Option String)
    (durationArg : Option Int) (parentsArg childrenArg : Option (Option (List String)))
    (colorArg : Option Nat) (startArg : Option (Option Int)) (h : Inv st) :
    Inv (updateNode st name newNameArg durationArg parentsArg childrenArg
      colorArg startArg).2 := by
  unfold updateNode
  simp only
  split
  · exact h
  split
  · exact h
  split
  · exact h
  split
  · exact h
  case _ hval =>
    cases hrem : removeNode st name true with
    | mk f st1 =>
      cases f with
      | some e =>
        simp only
        have hri := removeNode_inv st name true h
        rw [hrem] at hri
        exact hri
      | none =>
        simp only
        have hst1 : Inv st1 := by
          have hri := removeNode_inv st name true h
          rw [hrem] at hri
          exact hri
        have hst1r : st1.rootName = st.rootName := by
          have hrr := removeNode_rootName st name true
          rw [hrem] at hrr
          exact hrr
        refine addNode_inv st1 _ _ _ _ _ _ false hst1 ?_ ?_
        · split
          · simp
          case _ hne => exact hne
        · intro _ cs hcs c hc
          split at hcs
          · cases hcs
          case _ hne =>
            rw [hst1r]
            exact ((runCommonValidation_none st name _ _ _ hval).2.1 cs hcs c hc).2.2

theorem string_length_ne_zero (s : String) (h : s ≠ "") : s.length ≠ 0 := by
  intro hc
  apply h
  cases s with
  | mk data =>
    cases data with
    | nil => rfl
    | cons a t => simp [String.length] at hc

/-- A freshly constructed graph satisfies the invariant: it holds exactly the
root entry, whose parent set is null. -/
theorem mkGraph_inv (rootName : String) (startDate : Int) (h : rootName ≠ "") :
    Inv (mkGraph rootName startDate).2 := by
  unfold mkGraph addNode
  simp only
  have hval : runCommonValidation
      { list := [], defaultColor := 1, startDate := startDate, rootName := rootName }
      rootName 0 none none = none := by
    unfold runCommonValidation
    rw [if_neg (string_length_ne_zero rootName h)]
    rw [if_neg (fun hc => hc.2 rfl)]
    rw [if_neg (by decide : ¬ (0 : Int) < 0)]
    rfl
  have hvalif : (if True then runCommonValidation
      { list := [], defaultColor := 1, startDate := startDate, rootName := rootName }
      rootName 0 none none else none) = none := by
    rw [if_pos trivial, hval]
  rw [if_neg (by decide : ¬ (MAX_NODES ≤ ([] : List (String × entryNode)).length))]
  rw [if_neg (by simp [mapHas, mapGet] : ¬ (mapHas ([] : List (String × entryNode)) rootName = true))]
  rw [hvalif]
  simp only
  rw [if_neg (fun hc => hc.2 rfl : ¬ (True ∧ rootName ≠ rootName))]
  simp only
  refine inv_intro _ rootName rfl ?_
  show InvOn rootName (mapSet [] rootName _) (fun _ => True)
  refine ⟨?_, ?_, ?_⟩
  · simp [mapSet, KeysNodup]
  · refine ⟨{ name := rootName, duration := 0, parents := none, children := none, color := 1, start := none }, ?_, rfl⟩
    simp [mapSet, mapGet]
  · intro k e hk
    simp only [mapSet, mapGet] at hk
    by_cases hkr : rootName = k
    · rw [if_pos hkr] at hk
      cases hk
      refine ⟨by simp, by simp, by simp, ?_⟩
      intro hcon
      exact (hcon hkr.symm).elim
    · rw [if_neg hkr] at hk
      cases hk

/-- Reachability restricted to addNode calls whose parents argument is not an
explicitly empty array (`null` stays allowed; updateNode and removeNode are
unrestricted).  This is the hypothesis under which the root-binding claim
holds: `addNode(name, d, [])` stores an empty parent set verbatim. -/
inductive ReachableNE (rootName : String) (startDate : Int) : GraphState → Prop where
  | init : rootName ≠ "" → ReachableNE rootName startDate (mkGraph rootName startDate).2
  | add : ∀ {st} (_ : ReachableNE rootName startDate st)
      (name : String) (duration : Int) (parents children : Option (List String))
      (color : Nat) (start : Option Int), parents ≠ some [] →
      ReachableNE rootName startDate
        (addNode st name duration parents children color start true).2
  | update : ∀ {st} (_ : ReachableNE rootName startDate st)
      (name : String) (newNameArg : Option String) (durationArg : Option Int)
      (parentsArg childrenArg : Option (Option (List String)))
      (colorArg : Option Nat) (startArg : Option (Option Int)),
      ReachableNE rootName startDate
        (updateNode st name newNameArg durationArg parentsArg childrenArg
          colorArg startArg).2
  | remove : ∀ {st} (_ : ReachableNE rootName startDate st)
      (name : String) (isUpdate : Bool),
      ReachableNE rootName startDate (removeNode st name isUpdate).2

theorem reachableNE_inv (rootName : String) (startDate : Int) (st : GraphState)
    (h : ReachableNE rootName startDate st) : Inv st := by
  induction h with
  | init h0 => exact mkGraph_inv rootName startDate h0
  | add _ name duration parents children color start hp ih =>
    exact addNode_inv _ name duration parents children color start true ih hp
      (fun hf => Bool.noConfusion hf)
  | update _ name newNameArg durationArg parentsArg childrenArg colorArg startArg ih =>
    exact updateNode_inv _ name newNameArg durationArg parentsArg childrenArg
      colorArg startArg ih
  | remove _ name isUpdate ih => exact removeNode_inv _ name isUpdate ih

/-- Modelled from the spec: for every reachable graph state, the root entry
has zero (null) parents and every non-root entry has a non-empty parent set. -/
def claimC1Stmt : Prop :=
  ∀ (rootName : String) (startDate : Int) (st : GraphState),
    Reachable rootName startDate st →
    (∃ r, mapGet st.list st.rootName = some r ∧ r.parents = none) ∧
    (∀ k e, mapGet st.list k = some e → k ≠ st.rootName →
      ∃ l, e.parents = some l ∧ l ≠ [])

/-- addNode with an explicitly empty parents array: `parents ?? [rootName]`
substitutes the root only for null/undefined, so the empty set is stored. -/
def gXempty : GraphState :=
  (addNode (mkGraph "R" 0).2 "X" 5 (some []) none 1 none true).2

/-- C1: counterexample.  After `new AdjacencyList()` (root `R`) and
`addNode("X", 5, [])`, the non-root node `X` has an empty parent set: the
claimed invariant fails on a reachable state. -/
theorem claim_C1_cex :
    ¬ claimC1Stmt ∧
    mapGet gXempty.list "X" = some { name := "X", duration := 5, parents := some [], children := none, color := 1, start := none } ∧
    "X" ≠ gXempty.rootName := by
  refine ⟨?_, by decide, by decide⟩
  intro hstmt
  obtain ⟨-, h2⟩ := hstmt "R" 0 gXempty
    (Reachable.add (Reachable.init (by decide)) "X" 5 (some []) none 1 none)
  obtain ⟨l, hl, hne⟩ := h2 "X"
    { name := "X", duration := 5, parents := some [], children := none, color := 1, start := none }
    (by decide) (by decide)
  cases Option.some.inj hl
  exact hne rfl

/-- C1 (corrected): for every graph state reachable when every addNode call
passes a non-empty (or null/omitted) parents array — updateNode and removeNode
unrestricted — the root entry is present with a null parent set and every
non-root entry has a materialised, non-empty parent set (nodes that would
otherwise end up with zero parents are implicitly bound to the root). -/
theorem claim_C1 (rootName : String) (startDate : Int) (st : GraphState)
    (h : ReachableNE rootName startDate st) :
    (∃ r, mapGet st.list st.rootName = some r ∧ r.parents = none) ∧
    (∀ k e, mapGet st.list k = some e → k ≠ st.rootName →
      ∃ l, e.parents = some l ∧ l ≠ []) := by
  have hinv := reachableNE_inv rootName startDate st h
  obtain ⟨-, h2, h3⟩ := hinv
  refine ⟨h2, ?_⟩
  intro k e hk hkr
  obtain ⟨-, -, -, h4⟩ := h3 k e hk
  obtain ⟨l, hl, hne⟩ := h4 hkr
  exact ⟨l, hl, hne trivial⟩

def gC1w : GraphState :=
  (addNode (mkGraph "R" 0).2 "A" 5 none none 1 none true).2

theorem claim_C1_witness :
    ∃ r, mapGet gC1w.list gC1w.rootName = some r ∧ r.parents = none :=
  (claim_C1 "R" 0 gC1w
    (ReachableNE.add (ReachableNE.init (by decide)) "A" 5 none none 1 none
      (by decide))).1

/-! ### PatternMatcher (src/unnamed/part_002): getMaxLsp / buildLspArray

Strings are modelled as `List Char`; `s[i]` is `s.get? i` (JS indexing yields
`undefined` out of range, modelled by `none`), and `toLowerCase` maps
`Char.toLower` over the characters.  The two non-structural loops carry fuel;
the bounds passed below provably dominate the source loops' iteration counts
(the KMP potential `2·textIndex − patternIndex` increases every iteration),
so exhaustion never occurs on the embedded calls. -/

/-- The `while (len > 0 && pattern[i] !== pattern[len])` fallback loop of
buildLspArray: `len = lsp[len - 1] ?? 0`. -/
def lspLoopInner (p : List Char) (lsp : List Nat) (ci : Option Char) :
    Nat → Nat → Nat
  | 0, len => len
  | fuel + 1, len =>
    if 0 < len ∧ ci ≠ p.get? len then
      lspLoopInner p lsp ci fuel ((lsp.get? (len - 1)).getD 0)
    else len

/-- The `for (let i = 1; i < patternLen; i++)` loop of buildLspArray; `steps`
counts the remaining indices, `lsp` is the prefix of the array built so far
(length `i`) and `len` the running border length. -/
def buildLspGo (p : List Char) : Nat → Nat → List Nat → Nat → List Nat
  | 0, _, lsp, _ => lsp
  | steps + 1, i, lsp, len =>
    let len1 := lspLoopInner p lsp (p.get? i) (len + 1) len
    let len2 := if p.get? i = p.get? len1 then len1 + 1 else len1
    buildLspGo p steps (i + 1) (lsp ++ [len2]) len2

/-- buildLspArray (src/unnamed/part_002 lines 57-74).  `lsp[0] = 0` on the
empty array produces the one-element array `[0]` (never reached through
getMaxLsp, which returns early on an empty pattern). -/
def buildLspArray (p : List Char) : List Nat :=
  if p.length = 0 then [0]
  else buildLspGo p (p.length - 1) 1 [0] 0

/-- The KMP search loop of getMaxLsp: one constructor step per iteration of
the source `while (textIndex < textLen)` loop. -/
def kmpGo (p t : List Char) (lsp : List Nat) : Nat → Nat → Nat → Nat → Nat
  | 0, _, _, maxLsp => maxLsp
  | fuel + 1, ti, pi, maxLsp =>
    if ti < t.length then
      if t.get? ti = p.get? pi then
        if pi + 1 = p.length then p.length
        else kmpGo p t lsp fuel (ti + 1) (pi + 1) (max maxLsp (pi + 1))
      else if pi ≠ 0 then kmpGo p t lsp fuel ti ((lsp.get? (pi - 1)).getD 0) maxLsp
      else kmpGo p t lsp fuel (ti + 1) pi maxLsp
    else maxLsp

/-- getMaxLsp (src/unnamed/part_002 lines 8-48). -/
def getMaxLsp (pattern text : List Char) : Nat :=
  if pattern.length = 0 ∨ text.length = 0 then 0
  else if text.length < pattern.length then 0
  else
    let lowerPattern := pattern.map Char.toLower
    let lowerText := text.map Char.toLower
    let lsp := buildLspArray lowerPattern
    kmpGo lowerPattern lowerText lsp (2 * lowerText.length + 1) 0 0 0

/-- `a` is a suffix of `b`. -/
def SuffixOf (a b : List Char) : Prop := ∃ u, b = u ++ a

/-- `b` is the length of the longest proper border (a string that is both a
proper prefix and a suffix) of `p.take m`. -/
def MaxBorder (p : List Char) (m b : Nat) : Prop :=
  b < m ∧ SuffixOf (p.take b) (p.take m) ∧
  ∀ k, k < m → SuffixOf (p.take k) (p.take m) → k ≤ b

/-- The correctness property of the constructed lsp array. -/
def LspOk (p : List Char) (lsp : List Nat) : Prop :=
  ∀ j, j < lsp.length → ∃ b, lsp.get? j = some b ∧ MaxBorder p (j + 1) b

theorem suffixOf_refl (a : List Char) : SuffixOf a a := ⟨[], by simp⟩

theorem suffixOf_nil (b : List Char) : SuffixOf [] b := ⟨b, by simp⟩

theorem suffixOf_length_le (a b : List Char) (h : SuffixOf a b) :
    a.length ≤ b.length := by
  obtain ⟨u, rfl⟩ := h
  simp

theorem suffixOf_trans (a b c : List Char) (h1 : SuffixOf a b) (h2 : SuffixOf b c) :
    SuffixOf a c := by
  obtain ⟨u, rfl⟩ := h1
  obtain ⟨v, rfl⟩ := h2
  exact ⟨v ++ u, by simp⟩

/-- Two suffixes of the same list are nested: the shorter is a suffix of the
longer. -/
theorem suffixOf_nest (a b s : List Char) (ha : SuffixOf a s) (hb : SuffixOf b s)
    (hl : a.length ≤ b.length) : SuffixOf a b := by
  obtain ⟨u, hu⟩ := ha
  obtain ⟨v, hv⟩ := hb
  rw [hu] at hv
  rcases List.append_eq_append_iff.mp hv with ⟨w, hw1, hw2⟩ | ⟨w, hw1, hw2⟩
  · have hwl : w.length = 0 := by
      have := congrArg List.length hw2
      simp at this
      omega
    rw [List.length_eq_zero.mp hwl] at hw2
    simp at hw2
    subst hw2
    exact suffixOf_refl _
  · exact ⟨w, hw2⟩

/-- Extending a matched prefix by one equal character. -/
theorem suffixOf_extend (p t : List Char) (k ti : Nat)
    (hs : SuffixOf (p.take k) (t.take ti)) (hc : p.get? k = t.get? ti) :
    SuffixOf (p.take (k + 1)) (t.take (ti + 1)) := by
  obtain ⟨u, hu⟩ := hs
  refine ⟨u, ?_⟩
  have hc2 : p[k]? = t[ti]? := by
    rw [← List.get?_eq_getElem?, ← List.get?_eq_getElem?]
    exact hc
  rw [List.take_succ, List.take_succ, hu, ← hc2, List.append_assoc]

/-- Splitting a matched prefix: its last character matched the last consumed
text character. -/
theorem suffixOf_split (p t : List Char) (k ti : Nat) (hk : 0 < k)
    (hkp : k ≤ p.length) (hti : ti < t.length)
    (hs : SuffixOf (p.take k) (t.take (ti + 1))) :
    SuffixOf (p.take (k - 1)) (t.take ti) ∧ p.get? (k - 1) = t.get? ti := by
  obtain ⟨u, hu⟩ := hs
  have hpk : p.take k = p.take (k - 1) ++ (p[k - 1]?).toList := by
    have hkk : k - 1 + 1 = k := Nat.succ_pred_eq_of_pos hk
    rw [← hkk, List.take_succ, hkk]
  have htt : t.take (ti + 1) = t.take ti ++ (t[ti]?).toList := List.take_succ
  obtain ⟨c, hcg⟩ : ∃ c, p[k - 1]? = some c := by
    have hklt : k - 1 < p.length := by omega
    exact ⟨p.get ⟨k - 1, hklt⟩, by rw [← List.get?_eq_getElem?]; exact List.get?_eq_get hklt⟩
  obtain ⟨d, hdg⟩ : ∃ d, t[ti]? = some d :=
    ⟨t.get ⟨ti, hti⟩, by rw [← List.get?_eq_getElem?]; exact List.get?_eq_get hti⟩
  rw [hpk, htt, hcg, hdg] at hu
  simp only [Option.toList_some] at hu
  rw [← List.append_assoc] at hu
  obtain ⟨h1, h2⟩ := List.append_inj' hu (by simp)
  refine ⟨⟨u, h1⟩, ?_⟩
  rw [List.get?_eq_getElem?, List.get?_eq_getElem?, hcg, hdg]
  simp only [List.cons.injEq] at h2
  rw [h2.1]

/-- The inner fallback loop of buildLspArray walks down the border chain and
returns the largest border-or-zero at which the next character matches. -/
theorem lspLoopInner_spec (p : List Char) (lsp : List Nat) (hlsp : LspOk p lsp)
    (s : List Char) (c : Option Char) :
    ∀ (fuel len : Nat), len < fuel → len ≤ lsp.length → SuffixOf (p.take len) s →
      lspLoopInner p lsp c fuel len ≤ len ∧
      SuffixOf (p.take (lspLoopInner p lsp c fuel len)) s ∧
      (lspLoopInner p lsp c fuel len = 0 ∨ c = p.get? (lspLoopInner p lsp c fuel len)) ∧
      (∀ k, k ≤ len → SuffixOf (p.take k) s → c = p.get? k →
        k ≤ lspLoopInner p lsp c fuel len) := by
  intro fuel
  induction fuel with
  | zero => intro len hlt; omega
  | succ fuel ih =>
    intro len hlt hlen hsuf
    simp only [lspLoopInner]
    by_cases hcond : 0 < len ∧ c ≠ p.get? len
    · rw [if_pos hcond]
      obtain ⟨b, hb, hmb⟩ := hlsp (len - 1) (by omega)
      have hlen1 : len - 1 + 1 = len := by omega
      rw [hlen1] at hmb
      have hgd : (lsp.get? (len - 1)).getD 0 = b := by rw [hb]; rfl
      rw [hgd]
      have hsufb : SuffixOf (p.take b) s := suffixOf_trans _ _ _ hmb.2.1 hsuf
      have hblen : b < len := hmb.1
      obtain ⟨ih1, ih2, ih3, ih4⟩ := ih b (by omega) (by omega) hsufb
      refine ⟨le_trans ih1 (by omega), ih2, ih3, ?_⟩
      intro k hk hks hkc
      by_cases hkl : k = len
      · subst hkl
        exact absurd hkc hcond.2
      · have hk2 : k < len := by omega
        have hnest : SuffixOf (p.take k) (p.take len) :=
          suffixOf_nest _ _ s hks hsuf (by simp [List.length_take]; omega)
        exact ih4 k (hmb.2.2 k hk2 hnest) hks hkc
    · rw [if_neg hcond]
      push_neg at hcond
      refine ⟨le_refl _, hsuf, ?_, fun k hk _ _ => hk⟩
      by_cases h0 : len = 0
      · exact Or.inl h0
      · exact Or.inr (hcond (by omega))

/-- Each step of buildLspArray's outer loop appends the longest proper border
length of the next prefix. -/
theorem buildLspGo_spec (p : List Char) :
    ∀ (steps i : Nat) (lsp : List Nat) (len : Nat),
      i = lsp.length → steps + i = p.length → 1 ≤ i →
      LspOk p lsp → MaxBorder p i len →
      LspOk p (buildLspGo p steps i lsp len) ∧
      (buildLspGo p steps i lsp len).length = p.length := by
  intro steps
  induction steps with
  | zero =>
    intro i lsp len hi hsum _ hok _
    simp only [buildLspGo]
    exact ⟨hok, by omega⟩
  | succ steps ih =>
    intro i lsp len hi hsum h1 hok hmb
    simp only [buildLspGo]
    have hip : i < p.length := by omega
    have hlenb : len < i := hmb.1
    obtain ⟨hs1, hs2, hs3, hs4⟩ := lspLoopInner_spec p lsp hok (p.take i) (p.get? i)
      (len + 1) len (by omega) (by omega) hmb.2.1
    set len1 := lspLoopInner p lsp (p.get? i) (len + 1) len with hlen1def
    have hmb2 : MaxBorder p (i + 1)
        (if p.get? i = p.get? len1 then len1 + 1 else len1) := by
      refine ⟨?_, ?_, ?_⟩
      · split
        · omega
        · omega
      · split
        case _ hmatch =>
          exact suffixOf_extend p p len1 i hs2 hmatch.symm
        case _ hmatch =>
          rcases hs3 with h0 | hch
          · rw [h0]
            simp only [List.take_zero]
            exact suffixOf_nil _
          · exact absurd hch hmatch
      · intro k hk hksuf
        by_cases hk0 : k = 0
        · omega
        · have hkpos : 0 < k := by omega
          obtain ⟨hsp, hchar⟩ := suffixOf_split p p k i hkpos (by omega) hip hksuf
          have hk1len : k - 1 ≤ len := by
            by_cases hkeq : k - 1 = len
            · omega
            · exact le_of_lt (by
                have := hmb.2.2 (k - 1) (by omega) hsp
                omega)
          have hk1len1 : k - 1 ≤ len1 := hs4 (k - 1) hk1len hsp (by rw [hchar])
          by_cases hkeq1 : k - 1 = len1
          · have hch2 : p.get? i = p.get? len1 := by rw [← hkeq1, ← hchar]
            rw [if_pos hch2]
            omega
          · split
            · omega
            · omega
    exact ih (i + 1) (lsp ++ [if p.get? i = p.get? len1 then len1 + 1 else len1])
      (if p.get? i = p.get? len1 then len1 + 1 else len1)
      (by simp; omega) (by omega) (by omega)
      (by
        intro j hj
        simp only [List.length_append, List.length_singleton] at hj
        by_cases hji : j < lsp.length
        · obtain ⟨b, hb, hmbj⟩ := hok j hji
          refine ⟨b, ?_, hmbj⟩
          rw [List.get?_eq_getElem?] at hb ⊢
          rw [List.getElem?_append, if_pos hji]
          exact hb
        · have hj2 : j = lsp.length := by omega
          refine ⟨if p.get? i = p.get? len1 then len1 + 1 else len1, ?_, ?_⟩
          · rw [List.get?_eq_getElem?, hj2, List.getElem?_append_right (le_refl _)]
            simp
          · have hji2 : j + 1 = i + 1 := by omega
            rw [hji2]
            exact hmb2)
      hmb2

/-- The constructed lsp array is the KMP failure function. -/
theorem buildLspArray_spec (p : List Char) (h : 0 < p.length) :
    LspOk p (buildLspArray p) ∧ (buildLspArray p).length = p.length := by
  unfold buildLspArray
  rw [if_neg (by omega)]
  refine buildLspGo_spec p (p.length - 1) 1 [0] 0 (by simp) (by omega) (le_refl _) ?_ ?_
  · intro j hj
    simp only [List.length_singleton] at hj
    have hj0 : j = 0 := by omega
    subst hj0
    refine ⟨0, rfl, ?_, suffixOf_nil _, ?_⟩
    · omega
    · intro k hk _
      omega
  · refine ⟨by omega, suffixOf_nil _, ?_⟩
    intro k hk _
    omega

/-- Soundness of the KMP loop: it only returns the full pattern length when
the pattern actually occurs (ends at some position of the text). -/
theorem kmpGo_sound (p t : List Char) (lsp : List Nat) (hlsp : LspOk p lsp)
    (hlspLen : lsp.length = p.length) :
    ∀ (fuel ti pi maxLsp : Nat),
      SuffixOf (p.take pi) (t.take ti) → pi < p.length → maxLsp < p.length →
      kmpGo p t lsp fuel ti pi maxLsp = p.length →
      ∃ j, j ≤ t.length ∧ SuffixOf p (t.take j) := by
  intro fuel
  induction fuel with
  | zero =>
    intro ti pi maxLsp _ _ hmax hres
    simp only [kmpGo] at hres
    omega
  | succ fuel ih =>
    intro ti pi maxLsp hsuf hpi hmax hres
    simp only [kmpGo] at hres
    by_cases htl : ti < t.length
    · rw [if_pos htl] at hres
      by_cases hch : t.get? ti = p.get? pi
      · rw [if_pos hch] at hres
        by_cases hfull : pi + 1 = p.length
        · refine ⟨ti + 1, by omega, ?_⟩
          have hext := suffixOf_extend p t pi ti hsuf hch.symm
          rw [hfull, List.take_length] at hext
          exact hext
        · rw [if_neg hfull] at hres
          have hpi2 : pi + 1 < p.length := by omega
          exact ih (ti + 1) (pi + 1) _ (suffixOf_extend p t pi ti hsuf hch.symm)
            hpi2 (Nat.max_lt.mpr ⟨hmax, hpi2⟩) hres
      · rw [if_neg hch] at hres
        by_cases hpi0 : pi ≠ 0
        · rw [if_pos hpi0] at hres
          obtain ⟨b, hb, hmb⟩ := hlsp (pi - 1) (by rw [hlspLen]; omega)
          have hp1 : pi - 1 + 1 = pi := by omega
          rw [hp1] at hmb
          have hgd : (lsp.get? (pi - 1)).getD 0 = b := by rw [hb]; rfl
          rw [hgd] at hres
          exact ih ti b maxLsp (suffixOf_trans _ _ _ hmb.2.1 hsuf)
            (by have := hmb.1; omega) hmax hres
        · rw [if_neg hpi0] at hres
          push_neg at hpi0
          refine ih (ti + 1) pi maxLsp ?_ hpi hmax hres
          rw [hpi0]
          simp only [List.take_zero]
          exact suffixOf_nil _
    · rw [if_neg htl] at hres
      omega

/-- Completeness of the KMP loop: if the pattern occurs in the text (and has
not been passed yet), the loop reaches the early return. -/
theorem kmpGo_complete (p t : List Char) (lsp : List Nat) (hlsp : LspOk p lsp)
    (hlspLen : lsp.length = p.length) (hp : 0 < p.length) :
    ∀ (fuel ti pi maxLsp : Nat),
      2 * (t.length - ti) + pi + 1 ≤ fuel →
      ti ≤ t.length → pi < p.length →
      SuffixOf (p.take pi) (t.take ti) →
      (∀ k, k ≤ p.length → SuffixOf (p.take k) (t.take ti) →
        p.get? k = t.get? ti → k ≤ pi) →
      (∃ j, j ≤ t.length ∧ SuffixOf p (t.take j)) →
      (∀ j, j ≤ ti → ¬ SuffixOf p (t.take j)) →
      kmpGo p t lsp fuel ti pi maxLsp = p.length := by
  intro fuel
  induction fuel with
  | zero =>
    intro ti pi maxLsp hfuel
    omega
  | succ fuel ih =>
    intro ti pi maxLsp hfuel hti hpi hsuf hdE hocc hpast
    simp only [kmpGo]
    by_cases htl : ti < t.length
    · rw [if_pos htl]
      by_cases hch : t.get? ti = p.get? pi
      · rw [if_pos hch]
        by_cases hfull : pi + 1 = p.length
        · rw [if_pos hfull]
        · rw [if_neg hfull]
          have hnewsuf := suffixOf_extend p t pi ti hsuf hch.symm
          have hdE2 : ∀ k, k ≤ p.length → SuffixOf (p.take k) (t.take (ti + 1)) →
              p.get? k = t.get? (ti + 1) → k ≤ pi + 1 := by
            intro k hkp hks _
            by_cases hk0 : k = 0
            · omega
            · obtain ⟨hsp, hchar⟩ := suffixOf_split p t k ti (by omega) hkp htl hks
              have := hdE (k - 1) (by omega) hsp hchar
              omega
          have hpast2 : ∀ j, j ≤ ti + 1 → ¬ SuffixOf p (t.take j) := by
            intro j hj
            by_cases hj2 : j ≤ ti
            · exact hpast j hj2
            · have hj3 : j = ti + 1 := by omega
              subst hj3
              intro hcon
              have hcon2 : SuffixOf (p.take p.length) (t.take (ti + 1)) := by
                rw [List.take_length]
                exact hcon
              obtain ⟨hsp, hchar⟩ := suffixOf_split p t p.length ti hp (le_refl _) htl hcon2
              have := hdE (p.length - 1) (by omega) hsp hchar
              omega
          exact ih (ti + 1) (pi + 1) _ (by omega) (by omega) (by omega)
            hnewsuf hdE2 hocc hpast2
      · rw [if_neg hch]
        by_cases hpi0 : pi ≠ 0
        · rw [if_pos hpi0]
          obtain ⟨b, hb, hmb⟩ := hlsp (pi - 1) (by rw [hlspLen]; omega)
          have hp1 : pi - 1 + 1 = pi := by omega
          rw [hp1] at hmb
          have hgd : (lsp.get? (pi - 1)).getD 0 = b := by rw [hb]; rfl
          rw [hgd]
          have hblt : b < pi := hmb.1
          have hdEb : ∀ k, k ≤ p.length → SuffixOf (p.take k) (t.take ti) →
              p.get? k = t.get? ti → k ≤ b := by
            intro k hkp hks hkc
            have hkpi : k ≤ pi := hdE k hkp hks hkc
            by_cases hkeq : k = pi
            · subst hkeq
              exact absurd hkc.symm hch
            · have hnest : SuffixOf (p.take k) (p.take pi) :=
                suffixOf_nest _ _ _ hks hsuf (by simp [List.length_take]; omega)
              exact hmb.2.2 k (by omega) hnest
          exact ih ti b maxLsp (by omega) hti (by omega)
            (suffixOf_trans _ _ _ hmb.2.1 hsuf) hdEb hocc hpast
        · rw [if_neg hpi0]
          push_neg at hpi0
          subst hpi0
          have hdE0 : ∀ k, k ≤ p.length → SuffixOf (p.take k) (t.take (ti + 1)) →
              p.get? k = t.get? (ti + 1) → k ≤ 0 := by
            intro k hkp hks _
            by_cases hk0 : k = 0
            · omega
            · obtain ⟨hsp, hchar⟩ := suffixOf_split p t k ti (by omega) hkp htl hks
              have hk1 : k - 1 ≤ 0 := hdE (k - 1) (by omega) hsp hchar
              have hkeq : k = 1 := by omega
              subst hkeq
              simp only [Nat.sub_self] at hchar
              exact absurd hchar.symm hch
          have hpast2 : ∀ j, j ≤ ti + 1 → ¬ SuffixOf p (t.take j) := by
            intro j hj
            by_cases hj2 : j ≤ ti
            · exact hpast j hj2
            · have hj3 : j = ti + 1 := by omega
              subst hj3
              intro hcon
              have hcon2 : SuffixOf (p.take p.length) (t.take (ti + 1)) := by
                rw [List.take_length]
                exact hcon
              obtain ⟨hsp, hchar⟩ := suffixOf_split p t p.length ti hp (le_refl _) htl hcon2
              have hk1 : p.length - 1 ≤ 0 := hdE (p.length - 1) (by omega) hsp hchar
              have hpl : p.length = 1 := by omega
              rw [hpl] at hchar
              simp only [Nat.sub_self] at hchar
              exact absurd hchar.symm hch
          exact ih (ti + 1) 0 maxLsp (by omega) (by omega) hpi
            (by simp only [List.take_zero]; exact suffixOf_nil _) hdE0 hocc hpast2
    · exfalso
      obtain ⟨j, hj, hjs⟩ := hocc
      exact hpast j (by omega) hjs

/-- C9: `getMaxLsp(pattern, text)` equals the pattern's length if and only if
the pattern occurs case-insensitively (via toLowerCase on both sides) as a
contiguous substring of the text; this is the test the search facade uses to
classify a task name as relevant.  The edge cases agree: an empty pattern
yields 0 = length and trivially occurs, and a pattern longer than the text
yields 0 ≠ length and cannot occur. -/
theorem claim_C9 (pattern text : List Char) :
    getMaxLsp pattern text = pattern.length ↔
    ∃ l r, text.map Char.toLower = l ++ pattern.map Char.toLower ++ r := by
  unfold getMaxLsp
  by_cases h0 : pattern.length = 0 ∨ text.length = 0
  · rw [if_pos h0]
    rcases h0 with h0 | h0
    · constructor
      · intro _
        refine ⟨[], text.map Char.toLower, ?_⟩
        rw [List.length_eq_zero.mp h0]
        simp
      · intro _
        exact h0.symm
    · by_cases hp0 : pattern.length = 0
      · constructor
        · intro _
          refine ⟨[], text.map Char.toLower, ?_⟩
          rw [List.length_eq_zero.mp hp0]
          simp
        · intro _
          exact hp0.symm
      · constructor
        · intro hc
          exact absurd hc.symm hp0
        · rintro ⟨l, r, hlr⟩
          exfalso
          rw [List.length_eq_zero.mp h0] at hlr
          have := congrArg List.length hlr
          simp at this
          omega
  · rw [if_neg h0]
    push_neg at h0
    by_cases h1 : text.length < pattern.length
    · rw [if_pos h1]
      constructor
      · intro hc
        exact absurd hc.symm (by omega)
      · rintro ⟨l, r, hlr⟩
        exfalso
        have := congrArg List.length hlr
        simp at this
        omega
    · rw [if_neg h1]
      simp only
      have hp'len : (pattern.map Char.toLower).length = pattern.length := by simp
      have ht'len : (text.map Char.toLower).length = text.length := by simp
      obtain ⟨hok, hlen⟩ := buildLspArray_spec (pattern.map Char.toLower) (by omega)
      constructor
      · intro hres
        obtain ⟨j, hj, hjs⟩ := kmpGo_sound (pattern.map Char.toLower)
          (text.map Char.toLower) (buildLspArray (pattern.map Char.toLower)) hok hlen
          (2 * (text.map Char.toLower).length + 1) 0 0 0
          (by simp only [List.take_zero]; exact suffixOf_nil _)
          (by omega) (by omega) (by rw [hres, hp'len])
        obtain ⟨u, hu⟩ := hjs
        refine ⟨u, (text.map Char.toLower).drop j, ?_⟩
        conv_lhs => rw [← List.take_append_drop j (text.map Char.toLower)]
        rw [hu, List.append_assoc]
      · rintro ⟨l, r, hlr⟩
        have hocc : ∃ j, j ≤ (text.map Char.toLower).length ∧
            SuffixOf (pattern.map Char.toLower) ((text.map Char.toLower).take j) := by
          refine ⟨l.length + (pattern.map Char.toLower).length, ?_, ?_⟩
          · have := congrArg List.length hlr
            simp at this
            simp
            omega
          · refine ⟨l, ?_⟩
            rw [hlr]
            have hll : (l ++ pattern.map Char.toLower).length
                = l.length + (pattern.map Char.toLower).length := by simp
            rw [← hll, List.take_left]
        have hres := kmpGo_complete (pattern.map Char.toLower) (text.map Char.toLower)
          (buildLspArray (pattern.map Char.toLower)) hok hlen (by omega)
          (2 * (text.map Char.toLower).length + 1) 0 0 0 (by omega) (by omega) (by omega)
          (by simp only [List.take_zero]; exact suffixOf_nil _)
          ?_ hocc ?_
        · rw [hp'len] at hres
          exact hres
        · intro k hk hks _
          obtain ⟨u, hu⟩ := hks
          simp only [List.take_zero] at hu
          have hu2 := congrArg List.length hu
          simp [List.length_take] at hu2
          omega
        · intro j hj hcon
          obtain ⟨u, hu⟩ := hcon
          have hj0 : j = 0 := by omega
          subst hj0
          simp only [List.take_zero] at hu
          have hu2 := congrArg List.length hu
          simp at hu2
          omega

/-! ### C2: acyclicity of the dependency graph

`EdgeC st a b` is the child-recorded edge (`b` listed among `a`'s children),
`EdgeP st a b` the parent-recorded edge (`a` listed among `b`'s parents); the
combined graph of the claim is their union. -/

def EdgeC (st : GraphState) (a b : String) : Prop :=
  ∃ ea, mapGet st.list a = some ea ∧ b ∈ ea.children.getD []

def EdgeP (st : GraphState) (a b : String) : Prop :=
  ∃ eb, mapGet st.list b = some eb ∧ a ∈ eb.parents.getD []

/-- Every parent-recorded edge is also child-recorded (the store keeps the
two directions in sync; transiently broken only inside addNode's bind loops,
where the exception set `X` tracks the not-yet-mirrored pairs). -/
def IncUpTo (st : GraphState) (X : String → String → Prop) : Prop :=
  ∀ a b, EdgeP st a b → EdgeC st a b ∨ X a b

def AcyclicC (st : GraphState) : Prop :=
  ∀ a, ¬ Relation.TransGen (EdgeC st) a a

/-- No path can end at a vertex with no incoming edges. -/
theorem no_path_to_sink (rel : String → String → Prop) (root : String)
    (hnoin : ∀ a b, rel a b → b ≠ root) (c : String) (hc : c ≠ root) :
    ¬ Relation.ReflTransGen rel c root := by
  intro h
  rcases Relation.reflTransGen_iff_eq_or_transGen.mp h with heq | htg
  · exact hc heq.symm
  · obtain ⟨w, -, hw⟩ := Relation.TransGen.tail'_iff.mp htg
    exact hnoin w root hw rfl

/-- A path in a graph whose only root-touching edges leave the root, started
away from the root, simulates in the root-free part. -/
theorem transGen_avoid (rel rel' : String → String → Prop) (root : String)
    (hsub : ∀ a b, rel' a b → Relation.TransGen rel a b ∨ a = root)
    (hnoin : ∀ a b, rel' a b → b ≠ root) :
    ∀ a b, Relation.TransGen rel' a b → a ≠ root → Relation.TransGen rel a b := by
  intro a b h
  induction h using Relation.TransGen.head_induction_on with
  | base h1 =>
    intro ha
    rcases hsub _ _ h1 with h2 | h2
    · exact h2
    · exact absurd h2 ha
  | ih h1 hrest ihz =>
    intro ha
    have hz := hnoin _ _ h1
    have ht2 := ihz hz
    rcases hsub _ _ h1 with h3 | h3
    · exact h3.trans ht2
    · exact absurd h3 ha

/-- Acyclicity is preserved by any graph change whose edges are simulated by
old paths, except for freely added edges leaving the (in-edge-free) root. -/
theorem acyclic_sim_root (rel rel' : String → String → Prop) (root : String)
    (hsub : ∀ a b, rel' a b → Relation.TransGen rel a b ∨ a = root)
    (hnoin : ∀ a b, rel' a b → b ≠ root)
    (hacyc : ∀ a, ¬ Relation.TransGen rel a a) :
    ∀ a, ¬ Relation.TransGen rel' a a := by
  intro a h
  by_cases ha : a = root
  · subst ha
    obtain ⟨w, -, hw⟩ := Relation.TransGen.tail'_iff.mp h
    exact hnoin w _ hw rfl
  · exact hacyc a (transGen_avoid rel rel' root hsub hnoin a a h ha)

/-- Adding an isolated node `x` with in-edges from `P` and out-edges to `C`
preserves acyclicity provided no old path leads from `C` back to `P`. -/
theorem acyclic_newnode (rel : String → String → Prop) (x : String)
    (P C : String → Prop)
    (hacyc : ∀ a, ¬ Relation.TransGen rel a a)
    (hiso1 : ∀ a, ¬ rel a x) (hiso2 : ∀ b, ¬ rel x b)
    (hPx : ¬ P x) (hCx : ¬ C x)
    (hnopath : ∀ c p, C c → P p → ¬ Relation.ReflTransGen rel c p) :
    ∀ a, ¬ Relation.TransGen (fun u v => rel u v ∨ (P u ∧ v = x) ∨ (u = x ∧ C v)) a a := by
  have hkey : ∀ a b,
      Relation.TransGen (fun u v => rel u v ∨ (P u ∧ v = x) ∨ (u = x ∧ C v)) a b → b ≠ x →
      ((a = x → ∃ c, C c ∧ Relation.ReflTransGen rel c b) ∧
       (a ≠ x → Relation.TransGen rel a b ∨
         ∃ p c, P p ∧ C c ∧ Relation.ReflTransGen rel a p ∧
           Relation.ReflTransGen rel c b)) := by
    intro a b h
    induction h using Relation.TransGen.head_induction_on with
    | @base a h1 =>
      intro hbx
      constructor
      · intro hax
        subst hax
        rcases h1 with h2 | h2 | h2
        · exact absurd h2 (hiso2 _)
        · exact absurd h2.2 hbx
        · exact ⟨b, h2.2, Relation.ReflTransGen.refl⟩
      · intro hax
        rcases h1 with h2 | h2 | h2
        · exact Or.inl (Relation.TransGen.single h2)
        · exact absurd h2.2 hbx
        · exact absurd h2.1 hax
    | @ih a z h1 hrest ihz =>
      intro hbx
      constructor
      · intro hax
        rcases h1 with h2 | h2 | h2
        · exact absurd (hax ▸ h2) (hiso2 z)
        · exact absurd (hax ▸ h2.1) hPx
        · have hzx : z ≠ x := fun hq => hCx (hq ▸ h2.2)
          obtain ⟨-, ih2⟩ := ihz hbx
          rcases ih2 hzx with h3 | ⟨p, c, hp, hc, hzp, hcb⟩
          · exact ⟨z, h2.2, h3.to_reflTransGen⟩
          · exact absurd hzp (hnopath z p h2.2 hp)
      · intro hax
        rcases h1 with h2 | h2 | h2
        · have hzx : z ≠ x := fun hq => hiso1 a (hq ▸ h2)
          obtain ⟨-, ih2⟩ := ihz hbx
          rcases ih2 hzx with h3 | ⟨p, c, hp, hc, hzp, hcb⟩
          · exact Or.inl (Relation.TransGen.head h2 h3)
          · exact Or.inr ⟨p, c, hp, hc, Relation.ReflTransGen.head h2 hzp, hcb⟩
        · obtain ⟨ih1, -⟩ := ihz hbx
          obtain ⟨c, hc, hcb⟩ := ih1 h2.2
          exact Or.inr ⟨a, c, h2.1, hc, Relation.ReflTransGen.refl, hcb⟩
        · exact absurd h2.1 hax
  intro a h
  by_cases hax : a = x
  · rw [hax] at h
    obtain ⟨w, hw1, hw2⟩ := Relation.TransGen.tail'_iff.mp h
    rcases hw2 with h2 | h2 | h2
    · exact hiso1 w h2
    · rcases Relation.reflTransGen_iff_eq_or_transGen.mp hw1 with heq | htg
      · exact hPx (heq ▸ h2.1)
      · have hwx : w ≠ x := fun hq => hPx (hq ▸ h2.1)
        obtain ⟨ih1, -⟩ := hkey _ w htg hwx
        obtain ⟨c, hc, hcw⟩ := ih1 rfl
        exact hnopath c w hc h2.1 hcw
    · exact hCx h2.2
  · obtain ⟨-, ih2⟩ := hkey a a h hax
    rcases ih2 hax with h3 | ⟨p, c, hp, hc, hap, hca⟩
    · exact hacyc a h3
    · exact hnopath c p hc hp (hca.trans hap)

theorem edgeC_iff_mem (st : GraphState) (a b : String) :
    EdgeC st a b ↔ b ∈ (match mapGet st.list a with
      | some e => e.children.getD []
      | none => ([] : List String)) := by
  cases h : mapGet st.list a with
  | none => simp [EdgeC, h]
  | some e => simp [EdgeC, h]

theorem dfs_fold_superset (V : List String) (cs acc : List String) (x : String)
    (h : x ∈ acc) : x ∈ cs.foldl (fun s c => if c ∈ V then s else c :: s) acc := by
  induction cs generalizing acc with
  | nil => exact h
  | cons c t ih =>
    rw [List.foldl_cons]
    apply ih
    split
    · exact h
    · exact List.mem_cons_of_mem _ h

theorem dfs_fold_covers (V : List String) (cs acc : List String) (x : String)
    (h : x ∈ cs) :
    x ∈ V ∨ x ∈ cs.foldl (fun s c => if c ∈ V then s else c :: s) acc := by
  induction cs generalizing acc with
  | nil => cases h
  | cons c t ih =>
    rw [List.foldl_cons]
    rcases List.mem_cons.mp h with rfl | hx
    · by_cases hv : x ∈ V
      · exact Or.inl hv
      · refine Or.inr (dfs_fold_superset V t _ x ?_)
        rw [if_neg hv]
        exact List.mem_cons_self _ _
    · exact ih _ hx

/-- False-direction soundness of the findLoop DFS: if the search exhausts its
stack without touching the parent set, then no parent-set element is
reachable through child edges from any stack or visited node. -/
theorem findLoopGo_false (st : GraphState) (parentSet : List String) :
    ∀ (fuel : Nat) (stack visited : List String),
      (∀ v ∈ visited, v ∉ parentSet) →
      (∀ v ∈ visited, ∀ w, EdgeC st v w → w ∈ visited ∨ w ∈ stack) →
      findLoopGo st parentSet fuel stack visited = false →
      ∀ v, (v ∈ stack ∨ v ∈ visited) → ∀ q ∈ parentSet,
        ¬ Relation.ReflTransGen (EdgeC st) v q := by
  intro fuel
  induction fuel with
  | zero =>
    intro stack visited _ _ hres
    cases hres
  | succ fuel ih =>
    intro stack visited hdisj hclo hres
    cases stack with
    | nil =>
      have haux : ∀ v q, Relation.ReflTransGen (EdgeC st) v q → v ∈ visited →
          q ∈ visited := by
        intro v q h
        induction h using Relation.ReflTransGen.head_induction_on with
        | refl => exact id
        | head h1 h2 ih2 =>
          intro hv
          rcases hclo _ hv _ h1 with h3 | h3
          · exact ih2 h3
          · cases h3
      rintro v (hv | hv) q hq hr
      · cases hv
      · exact hdisj q (haux v q hr hv) hq
    | cons current rest =>
      simp only [findLoopGo] at hres
      by_cases hcur : current ∈ parentSet
      · rw [if_pos hcur] at hres
        cases hres
      · rw [if_neg hcur] at hres
        have hstep := ih _ _ ?_ ?_ hres
        · rintro v (hv | hv) q hq hr
          · rcases List.mem_cons.mp hv with rfl | hv2
            · exact hstep v (Or.inr (List.mem_cons_self _ _)) q hq hr
            · exact hstep v (Or.inl (dfs_fold_superset _ _ _ _ hv2)) q hq hr
          · exact hstep v (Or.inr (List.mem_cons_of_mem _ hv)) q hq hr
        · intro v hv
          rcases List.mem_cons.mp hv with rfl | hv2
          · exact hcur
          · exact hdisj v hv2
        · intro v hv w hw
          rcases List.mem_cons.mp hv with rfl | hv2
          · have hwmem := (edgeC_iff_mem st v w).mp hw
            exact dfs_fold_covers _ _ _ _ hwmem
          · rcases hclo v hv2 w hw with h3 | h3
            · exact Or.inl (List.mem_cons_of_mem _ h3)
            · rcases List.mem_cons.mp h3 with rfl | h4
              · exact Or.inl (List.mem_cons_self _ _)
              · exact Or.inr (dfs_fold_superset _ _ _ _ h4)

theorem findLoop_false_nopath (st : GraphState) (ps cs : List String)
    (h : findLoop st (some ps) (some cs) = false) :
    ∀ c ∈ cs, ∀ p ∈ ps, ¬ Relation.ReflTransGen (EdgeC st) c p := by
  unfold findLoop at h
  intro c hc p hp
  exact findLoopGo_false st (jsSetOfList ps) (findLoopFuel st) cs.reverse []
    (by simp) (by simp) h c (Or.inl (List.mem_reverse.mpr hc)) p
    ((mem_jsSetOfList ps p).mpr hp)

theorem ensure_drop_get (st : GraphState) (y : String) (e r : entryNode)
    (l : List String) (hyg : mapGet st.list y = some e) (hyr : y ≠ st.rootName)
    (hr : mapGet st.list st.rootName = some r) (hp : e.parents = some l)
    (hl1 : 1 < l.length) (hnd : l.Nodup) (k : String) :
    mapGet (ensureRootBinding st y).list k =
      if k = st.rootName then some { r with children := r.children.map (fun cs => jsSetDelete cs y) }
      else if k = y then some { e with parents := some (jsSetDelete l st.rootName) }
      else mapGet st.list k := by
  rw [ensure_eq_drop st y e r l hyg hyr hr hp hl1 hnd]
  by_cases hk1 : k = st.rootName
  · rw [if_pos hk1, hk1, mapGet_mapSet_self]
  · rw [if_neg hk1, mapGet_mapSet_ne _ _ _ _ (fun hh => hk1 hh.symm)]
    by_cases hk2 : k = y
    · rw [if_pos hk2, hk2, mapGet_mapSet_self]
    · rw [if_neg hk2, mapGet_mapSet_ne _ _ _ _ (fun hh => hk2 hh.symm)]

theorem ensure_addroot_get (st : GraphState) (y : String) (e r : entryNode)
    (hyg : mapGet st.list y = some e) (hyr : y ≠ st.rootName)
    (hr : mapGet st.list st.rootName = some r) (hp : e.parents = some [])
    (k : String) :
    mapGet (ensureRootBinding st y).list k =
      if k = st.rootName then some { r with children := some (jsSetInsert (r.children.getD []) y) }
      else if k = y then some { e with parents := some (jsSetInsert [] st.rootName) }
      else mapGet st.list k := by
  rw [ensure_eq_addroot st y e r hyg hyr hr hp]
  by_cases hk1 : k = st.rootName
  · rw [if_pos hk1, hk1, mapGet_mapSet_self]
  · rw [if_neg hk1, mapGet_mapSet_ne _ _ _ _ (fun hh => hk1 hh.symm)]
    by_cases hk2 : k = y
    · rw [if_pos hk2, hk2, mapGet_mapSet_self]
    · rw [if_neg hk2, mapGet_mapSet_ne _ _ _ _ (fun hh => hk2 hh.symm)]

theorem ensure_edgeC_sub (st : GraphState) (y : String)
    (hroot : (mapGet st.list st.rootName).isSome)
    (hnd : ∀ e2, mapGet st.list y = some e2 → (e2.parents.getD []).Nodup) :
    ∀ a b, EdgeC (ensureRootBinding st y) a b →
      EdgeC st a b ∨ (a = st.rootName ∧ b = y) := by
  intro a b hedge
  by_cases hyr : y = st.rootName
  · rw [ensure_eq_self_root st y hyr] at hedge
    exact Or.inl hedge
  cases hyg : mapGet st.list y with
  | none =>
    rw [ensure_eq_self_missing st y (Or.inl hyg)] at hedge
    exact Or.inl hedge
  | some e =>
    obtain ⟨r, hr⟩ := Option.isSome_iff_exists.mp hroot
    cases hp : e.parents with
    | none =>
      rw [ensure_eq_self_noparents st y e hyg hp] at hedge
      exact Or.inl hedge
    | some l =>
      obtain ⟨ea, hea, hmem⟩ := hedge
      have hlnd : l.Nodup := by
        have := hnd e hyg
        rw [hp] at this
        simpa using this
      by_cases hl1 : 1 < l.length
      · rw [ensure_drop_get st y e r l hyg hyr hr hp hl1 hlnd a] at hea
        by_cases ha1 : a = st.rootName
        · rw [if_pos ha1] at hea
          cases Option.some.inj hea
          cases hrc : r.children with
          | none => rw [hrc] at hmem; cases hmem
          | some cs =>
            rw [hrc] at hmem
            simp only [Option.map_some', Option.getD_some, mem_jsSetDelete] at hmem
            exact Or.inl ⟨r, by rw [← ha1] at hr; exact hr, by rw [hrc]; exact hmem.1⟩
        · rw [if_neg ha1] at hea
          by_cases ha2 : a = y
          · rw [if_pos ha2] at hea
            cases Option.some.inj hea
            exact Or.inl ⟨e, by rw [ha2]; exact hyg, hmem⟩
          · rw [if_neg ha2] at hea
            exact Or.inl ⟨ea, hea, hmem⟩
      · by_cases hl0 : l = []
        · subst hl0
          rw [ensure_addroot_get st y e r hyg hyr hr hp a] at hea
          by_cases ha1 : a = st.rootName
          · rw [if_pos ha1] at hea
            cases Option.some.inj hea
            simp only [Option.getD_some, mem_jsSetInsert] at hmem
            rcases hmem with hmem | hmem
            · exact Or.inl ⟨r, by rw [← ha1] at hr; exact hr, hmem⟩
            · exact Or.inr ⟨ha1, hmem⟩
          · rw [if_neg ha1] at hea
            by_cases ha2 : a = y
            · rw [if_pos ha2] at hea
              cases Option.some.inj hea
              exact Or.inl ⟨e, by rw [ha2]; exact hyg, hmem⟩
            · rw [if_neg ha2] at hea
              exact Or.inl ⟨ea, hea, hmem⟩
        · rw [ensure_eq_self_small st y e l hyg hp hl1 hl0] at hea
          exact Or.inl ⟨ea, hea, hmem⟩

theorem ensure_edgeP_sub (st : GraphState) (y : String)
    (hroot : (mapGet st.list st.rootName).isSome)
    (hnd : ∀ e2, mapGet st.list y = some e2 → (e2.parents.getD []).Nodup) :
    ∀ a b, EdgeP (ensureRootBinding st y) a b →
      EdgeP st a b ∨ (a = st.rootName ∧ b = y) := by
  intro a b hedge
  by_cases hyr : y = st.rootName
  · rw [ensure_eq_self_root st y hyr] at hedge
    exact Or.inl hedge
  cases hyg : mapGet st.list y with
  | none =>
    rw [ensure_eq_self_missing st y (Or.inl hyg)] at hedge
    exact Or.inl hedge
  | some e =>
    obtain ⟨r, hr⟩ := Option.isSome_iff_exists.mp hroot
    cases hp : e.parents with
    | none =>
      rw [ensure_eq_self_noparents st y e hyg hp] at hedge
      exact Or.inl hedge
    | some l =>
      obtain ⟨eb, heb, hmem⟩ := hedge
      have hlnd : l.Nodup := by
        have := hnd e hyg
        rw [hp] at this
        simpa using this
      by_cases hl1 : 1 < l.length
      · rw [ensure_drop_get st y e r l hyg hyr hr hp hl1 hlnd b] at heb
        by_cases hb1 : b = st.rootName
        · rw [if_pos hb1] at heb
          cases Option.some.inj heb
          exact Or.inl ⟨r, by rw [← hb1] at hr; exact hr, hmem⟩
        · rw [if_neg hb1] at heb
          by_cases hb2 : b = y
          · rw [if_pos hb2] at heb
            cases Option.some.inj heb
            simp only [Option.getD_some, mem_jsSetDelete] at hmem
            refine Or.inl ⟨e, by rw [hb2]; exact hyg, ?_⟩
            rw [hp]
            exact hmem.1
          · rw [if_neg hb2] at heb
            exact Or.inl ⟨eb, heb, hmem⟩
      · by_cases hl0 : l = []
        · subst hl0
          rw [ensure_addroot_get st y e r hyg hyr hr hp b] at heb
          by_cases hb1 : b = st.rootName
          · rw [if_pos hb1] at heb
            cases Option.some.inj heb
            exact Or.inl ⟨r, by rw [← hb1] at hr; exact hr, hmem⟩
          · rw [if_neg hb1] at heb
            by_cases hb2 : b = y
            · rw [if_pos hb2] at heb
              cases Option.some.inj heb
              simp only [Option.getD_some, mem_jsSetInsert] at hmem
              rcases hmem with hmem | hmem
              · cases hmem
              · exact Or.inr ⟨hmem, hb2⟩
            · rw [if_neg hb2] at heb
              exact Or.inl ⟨eb, heb, hmem⟩
        · rw [ensure_eq_self_small st y e l hyg hp hl1 hl0] at heb
          exact Or.inl ⟨eb, heb, hmem⟩

/-- ensureRootBinding keeps the parent-to-child inclusion: it only removes or
adds the two sides of the root binding together. -/
theorem ensure_inc (st : GraphState) (y : String) (X : String → String → Prop)
    (hroot : (mapGet st.list st.rootName).isSome)
    (hnd : ∀ e2, mapGet st.list y = some e2 → (e2.parents.getD []).Nodup)
    (hinc : IncUpTo st X) : IncUpTo (ensureRootBinding st y) X := by
  intro a b hedge
  by_cases hyr : y = st.rootName
  · rw [ensure_eq_self_root st y hyr] at hedge ⊢
    exact hinc a b hedge
  cases hyg : mapGet st.list y with
  | none =>
    rw [ensure_eq_self_missing st y (Or.inl hyg)] at hedge ⊢
    exact hinc a b hedge
  | some e =>
    obtain ⟨r, hr⟩ := Option.isSome_iff_exists.mp hroot
    cases hp : e.parents with
    | none =>
      rw [ensure_eq_self_noparents st y e hyg hp] at hedge ⊢
      exact hinc a b hedge
    | some l =>
      have hlnd : l.Nodup := by
        have := hnd e hyg
        rw [hp] at this
        simpa using this
      by_cases hl1 : 1 < l.length
      · -- drop case: the pair (root, y) is removed on both sides
        have hCpres : ∀ u v, EdgeC st u v → ¬(u = st.rootName ∧ v = y) →
            EdgeC (ensureRootBinding st y) u v := by
          intro u v huv hpair
          obtain ⟨eu, heu, hm⟩ := huv
          have hgu := ensure_drop_get st y e r l hyg hyr hr hp hl1 hlnd u
          by_cases hu1 : u = st.rootName
          · rw [if_pos hu1] at hgu
            refine ⟨_, hgu, ?_⟩
            have her : eu = r := by rw [hu1] at heu; rw [heu] at hr; exact Option.some.inj hr
            subst her
            cases hrc : eu.children with
            | none => rw [hrc] at hm; cases hm
            | some cs =>
              rw [hrc] at hm
              simp only [hrc, Option.map_some', Option.getD_some, mem_jsSetDelete]
              exact ⟨hm, fun hq => hpair ⟨hu1, hq⟩⟩
          · rw [if_neg hu1] at hgu
            by_cases hu2 : u = y
            · rw [if_pos hu2] at hgu
              refine ⟨_, hgu, ?_⟩
              have heu2 : eu = e := by rw [hu2] at heu; rw [heu] at hyg; exact Option.some.inj hyg
              subst heu2
              exact hm
            · rw [if_neg hu2] at hgu
              rw [heu] at hgu
              exact ⟨eu, hgu, hm⟩
        obtain ⟨eb, heb, hmem⟩ := hedge
        rw [ensure_drop_get st y e r l hyg hyr hr hp hl1 hlnd b] at heb
        by_cases hb1 : b = st.rootName
        · rw [if_pos hb1] at heb
          cases Option.some.inj heb
          have hPold : EdgeP st a b := ⟨r, by rw [hb1]; exact hr, hmem⟩
          rcases hinc a b hPold with hC | hX
          · exact Or.inl (hCpres a b hC (fun hq => hyr (hq.2 ▸ hb1)))
          · exact Or.inr hX
        · rw [if_neg hb1] at heb
          by_cases hb2 : b = y
          · rw [if_pos hb2] at heb
            cases Option.some.inj heb
            simp only [Option.getD_some, mem_jsSetDelete] at hmem
            have hPold : EdgeP st a b := ⟨e, by rw [hb2]; exact hyg, by rw [hp]; exact hmem.1⟩
            rcases hinc a b hPold with hC | hX
            · exact Or.inl (hCpres a b hC (fun hq => hmem.2 hq.1))
            · exact Or.inr hX
          · rw [if_neg hb2] at heb
            have hPold : EdgeP st a b := ⟨eb, heb, hmem⟩
            rcases hinc a b hPold with hC | hX
            · exact Or.inl (hCpres a b hC (fun hq => hb2 hq.2))
            · exact Or.inr hX
      · by_cases hl0 : l = []
        · -- addroot case: the pair (root, y) is added on both sides
          subst hl0
          have hCpres : ∀ u v, EdgeC st u v → EdgeC (ensureRootBinding st y) u v := by
            intro u v huv
            obtain ⟨eu, heu, hm⟩ := huv
            have hgu := ensure_addroot_get st y e r hyg hyr hr hp u
            by_cases hu1 : u = st.rootName
            · rw [if_pos hu1] at hgu
              refine ⟨_, hgu, ?_⟩
              have her : eu = r := by rw [hu1] at heu; rw [heu] at hr; exact Option.some.inj hr
              subst her
              cases hrc : eu.children with
              | none => rw [hrc] at hm; cases hm
              | some cs =>
                rw [hrc] at hm
                simp only [hrc, Option.getD_some, mem_jsSetInsert]
                exact Or.inl hm
            · rw [if_neg hu1] at hgu
              by_cases hu2 : u = y
              · rw [if_pos hu2] at hgu
                refine ⟨_, hgu, ?_⟩
                have heu2 : eu = e := by rw [hu2] at heu; rw [heu] at hyg; exact Option.some.inj hyg
                subst heu2
                exact hm
              · rw [if_neg hu2] at hgu
                rw [heu] at hgu
                exact ⟨eu, hgu, hm⟩
          obtain ⟨eb, heb, hmem⟩ := hedge
          rw [ensure_addroot_get st y e r hyg hyr hr hp b] at heb
          by_cases hb1 : b = st.rootName
          · rw [if_pos hb1] at heb
            cases Option.some.inj heb
            have hPold : EdgeP st a b := ⟨r, by rw [hb1]; exact hr, hmem⟩
            rcases hinc a b hPold with hC | hX
            · exact Or.inl (hCpres a b hC)
            · exact Or.inr hX
          · rw [if_neg hb1] at heb
            by_cases hb2 : b = y
            · rw [if_pos hb2] at heb
              cases Option.some.inj heb
              simp only [Option.getD_some, mem_jsSetInsert] at hmem
              rcases hmem with hmem | hmem
              · cases hmem
              · have hga := ensure_addroot_get st y e r hyg hyr hr hp a
                rw [if_pos hmem] at hga
                refine Or.inl ⟨_, hga, ?_⟩
                simp only [Option.getD_some, mem_jsSetInsert]
                exact Or.inr hb2
            · rw [if_neg hb2] at heb
              have hPold : EdgeP st a b := ⟨eb, heb, hmem⟩
              rcases hinc a b hPold with hC | hX
              · exact Or.inl (hCpres a b hC)
              · exact Or.inr hX
        · rw [ensure_eq_self_small st y e l hyg hp hl1 hl0] at hedge ⊢
          exact hinc a b hedge

theorem mapGet_mapSet2 (l : List (String × α)) (k1 k2 k : String) (v1 v2 : α) :
    mapGet (mapSet (mapSet l k1 v1) k2 v2) k =
      if k = k2 then some v2 else if k = k1 then some v1 else mapGet l k := by
  by_cases h2 : k = k2
  · rw [if_pos h2, h2, mapGet_mapSet_self]
  · rw [if_neg h2, mapGet_mapSet_ne _ _ _ _ (fun hh => h2 hh.symm)]
    by_cases h1 : k = k1
    · rw [if_pos h1, h1, mapGet_mapSet_self]
    · rw [if_neg h1, mapGet_mapSet_ne _ _ _ _ (fun hh => h1 hh.symm)]

theorem isSome_mapSet2_present (l : List (String × α)) (k1 k2 : String)
    (v1 v2 : α) (k : String) (h1 : (mapGet l k1).isSome)
    (h2 : (mapGet l k2).isSome) :
    (mapGet (mapSet (mapSet l k1 v1) k2 v2) k).isSome = (mapGet l k).isSome := by
  rw [mapGet_mapSet2]
  by_cases hq2 : k = k2
  · subst hq2
    simp [h2]
  · rw [if_neg hq2]
    by_cases hq1 : k = k1
    · subst hq1
      simp [h1]
    · rw [if_neg hq1]

theorem ensure_has (st : GraphState) (y k : String) :
    (mapGet (ensureRootBinding st y).list k).isSome = (mapGet st.list k).isSome := by
  unfold ensureRootBinding
  split
  · rfl
  split
  case _ node rootNode hnode hroot =>
    simp only
    have hy0 : (mapGet st.list y).isSome := by rw [hnode]; rfl
    have hr0 : (mapGet st.list st.rootName).isSome := by rw [hroot]; rfl
    split
    case isTrue h1 =>
      have hyA : ∀ (v1 v2 : entryNode) (k2 : String),
          (mapGet (mapSet (mapSet st.list y v1) st.rootName v2) k2).isSome
            = (mapGet st.list k2).isSome :=
        fun v1 v2 k2 => isSome_mapSet2_present st.list y st.rootName v1 v2 k2 hy0 hr0
      split
      · rw [isSome_mapSet2_present _ _ _ _ _ _ (by rw [hyA]; exact hy0) (by rw [hyA]; exact hr0),
          hyA]
      · rw [hyA]
    case isFalse h1 =>
      split
      · rw [isSome_mapSet2_present _ _ _ _ _ _ hy0 hr0]
      · rfl
  case _ => rfl

theorem bind_has (st : GraphState) (c n k : String) :
    (mapGet (bindChildNode st c n).list k).isSome = (mapGet st.list k).isSome := by
  unfold bindChildNode
  split
  case _ node childNode hn hc =>
    simp only
    rw [ensure_has]
    have hn0 : (mapGet st.list n).isSome := by rw [hn]; rfl
    have hc0 : (mapGet st.list c).isSome := by rw [hc]; rfl
    exact isSome_mapSet2_present _ _ _ _ _ _ hn0 hc0
  case _ => rfl

theorem unbind_has (st : GraphState) (c n k : String) :
    (mapGet (unbindChildNode st c n).list k).isSome = (mapGet st.list k).isSome := by
  unfold unbindChildNode
  split
  case _ node childNode hn hc =>
    simp only
    have hn0 : (mapGet st.list n).isSome := by rw [hn]; rfl
    have hc0 : (mapGet st.list c).isSome := by rw [hc]; rfl
    split
    · rw [ensure_has]
      exact isSome_mapSet2_present _ _ _ _ _ _ hn0 hc0
    · exact isSome_mapSet2_present _ _ _ _ _ _ hn0 hc0
  case _ => rfl

/-- The edges added by bindChildNode: the bound pair `n → c` and possibly a
root binding for `c` from the trailing ensureRootBinding. -/
theorem bind_edgeC_sub (st : GraphState) (c n : String)
    (h : InvOn st.rootName st.list (fun _ => False)) :
    ∀ a b, EdgeC (bindChildNode st c n) a b →
      EdgeC st a b ∨ (a = n ∧ b = c) ∨ (a = st.rootName ∧ b = c) := by
  intro a b hedge
  cases hn : mapGet st.list n with
  | none => rw [bind_eq_missing st c n (Or.inl hn)] at hedge; exact Or.inl hedge
  | some en =>
  cases hcg : mapGet st.list c with
  | none => rw [bind_eq_missing st c n (Or.inr hcg)] at hedge; exact Or.inl hedge
  | some ec =>
    obtain ⟨h1, h2, h3⟩ := h
    obtain ⟨r, hr, hrp⟩ := h2
    have hr0 : (mapGet st.list st.rootName).isSome := by rw [hr]; rfl
    by_cases hcn : c = n
    · subst hcn
      have hee : en = ec := by rw [hn] at hcg; exact Option.some.inj hcg
      subst hee
      rw [bind_eq_alias st c en hn] at hedge
      have hroot2 : (mapGet (mapSet st.list c
          { en with children := some (jsSetInsert (en.children.getD []) c),
                    parents := some (jsSetInsert (en.parents.getD []) c) }) st.rootName).isSome :=
        isSome_mapGet_mapSet _ _ _ _ hr0
      have hnd2 : ∀ e2, mapGet (mapSet st.list c
          { en with children := some (jsSetInsert (en.children.getD []) c),
                    parents := some (jsSetInsert (en.parents.getD []) c) }) c = some e2 →
          (e2.parents.getD []).Nodup := by
        intro e2 he2
        rw [mapGet_mapSet_self] at he2
        cases Option.some.inj he2
        obtain ⟨hn1, -, -, -⟩ := h3 c en hn
        simpa using jsSetInsert_nodup _ c hn1
      rcases ensure_edgeC_sub _ c hroot2 hnd2 a b hedge with hC | hpair
      · obtain ⟨ea, hea, hm⟩ := hC
        rw [mapGet_mapSet] at hea
        by_cases hac : c = a
        · rw [if_pos hac] at hea
          cases Option.some.inj hea
          simp only [Option.getD_some, mem_jsSetInsert] at hm
          rcases hm with hm | hm
          · exact Or.inl ⟨en, by rw [← hac]; exact hn, hm⟩
          · exact Or.inr (Or.inl ⟨hac.symm, hm⟩)
        · rw [if_neg hac] at hea
          exact Or.inl ⟨ea, hea, hm⟩
      · exact Or.inr (Or.inr hpair)
    · rw [bind_eq st c n en ec hn hcg hcn] at hedge
      have hroot2 : (mapGet (mapSet (mapSet st.list n
          { en with children := some (jsSetInsert (en.children.getD []) c) }) c
          { ec with parents := some (jsSetInsert (ec.parents.getD []) n) }) st.rootName).isSome :=
        isSome_mapGet_mapSet _ _ _ _ (isSome_mapGet_mapSet _ _ _ _ hr0)
      have hnd2 : ∀ e2, mapGet (mapSet (mapSet st.list n
          { en with children := some (jsSetInsert (en.children.getD []) c) }) c
          { ec with parents := some (jsSetInsert (ec.parents.getD []) n) }) c = some e2 →
          (e2.parents.getD []).Nodup := by
        intro e2 he2
        rw [mapGet_mapSet_self] at he2
        cases Option.some.inj he2
        obtain ⟨hc1, -, -, -⟩ := h3 c ec hcg
        simpa using jsSetInsert_nodup _ n hc1
      rcases ensure_edgeC_sub _ c hroot2 hnd2 a b hedge with hC | hpair
      · obtain ⟨ea, hea, hm⟩ := hC
        rw [mapGet_mapSet2] at hea
        by_cases hac : a = c
        · rw [if_pos hac] at hea
          cases Option.some.inj hea
          exact Or.inl ⟨ec, by rw [hac]; exact hcg, hm⟩
        · rw [if_neg hac] at hea
          by_cases han : a = n
          · rw [if_pos han] at hea
            cases Option.some.inj hea
            simp only [Option.getD_some, mem_jsSetInsert] at hm
            rcases hm with hm | hm
            · exact Or.inl ⟨en, by rw [han]; exact hn, hm⟩
            · exact Or.inr (Or.inl ⟨han, hm⟩)
          · rw [if_neg han] at hea
            exact Or.inl ⟨ea, hea, hm⟩
      · exact Or.inr (Or.inr hpair)

theorem bind_edgeP_sub (st : GraphState) (c n : String)
    (h : InvOn st.rootName st.list (fun _ => False)) :
    ∀ a b, EdgeP (bindChildNode st c n) a b →
      EdgeP st a b ∨ (a = n ∧ b = c) ∨ (a = st.rootName ∧ b = c) := by
  intro a b hedge
  cases hn : mapGet st.list n with
  | none => rw [bind_eq_missing st c n (Or.inl hn)] at hedge; exact Or.inl hedge
  | some en =>
  cases hcg : mapGet st.list c with
  | none => rw [bind_eq_missing st c n (Or.inr hcg)] at hedge; exact Or.inl hedge
  | some ec =>
    obtain ⟨h1, h2, h3⟩ := h
    obtain ⟨r, hr, hrp⟩ := h2
    have hr0 : (mapGet st.list st.rootName).isSome := by rw [hr]; rfl
    by_cases hcn : c = n
    · subst hcn
      have hee : en = ec := by rw [hn] at hcg; exact Option.some.inj hcg
      subst hee
      rw [bind_eq_alias st c en hn] at hedge
      have hroot2 : (mapGet (mapSet st.list c
          { en with children := some (jsSetInsert (en.children.getD []) c),
                    parents := some (jsSetInsert (en.parents.getD []) c) }) st.rootName).isSome :=
        isSome_mapGet_mapSet _ _ _ _ hr0
      have hnd2 : ∀ e2, mapGet (mapSet st.list c
          { en with children := some (jsSetInsert (en.children.getD []) c),
                    parents := some (jsSetInsert (en.parents.getD []) c) }) c = some e2 →
          (e2.parents.getD []).Nodup := by
        intro e2 he2
        rw [mapGet_mapSet_self] at he2
        cases Option.some.inj he2
        obtain ⟨hn1, -, -, -⟩ := h3 c en hn
        simpa using jsSetInsert_nodup _ c hn1
      rcases ensure_edgeP_sub _ c hroot2 hnd2 a b hedge with hP | hpair
      · obtain ⟨eb, heb, hm⟩ := hP
        rw [mapGet_mapSet] at heb
        by_cases hbc : c = b
        · rw [if_pos hbc] at heb
          cases Option.some.inj heb
          simp only [Option.getD_some, mem_jsSetInsert] at hm
          rcases hm with hm | hm
          · exact Or.inl ⟨en, by rw [← hbc]; exact hn, hm⟩
          · exact Or.inr (Or.inl ⟨hm, hbc.symm⟩)
        · rw [if_neg hbc] at heb
          exact Or.inl ⟨eb, heb, hm⟩
      · exact Or.inr (Or.inr hpair)
    · rw [bind_eq st c n en ec hn hcg hcn] at hedge
      have hroot2 : (mapGet (mapSet (mapSet st.list n
          { en with children := some (jsSetInsert (en.children.getD []) c) }) c
          { ec with parents := some (jsSetInsert (ec.parents.getD []) n) }) st.rootName).isSome :=
        isSome_mapGet_mapSet _ _ _ _ (isSome_mapGet_mapSet _ _ _ _ hr0)
      have hnd2 : ∀ e2, mapGet (mapSet (mapSet st.list n
          { en with children := some (jsSetInsert (en.children.getD []) c) }) c
          { ec with parents := some (jsSetInsert (ec.parents.getD []) n) }) c = some e2 →
          (e2.parents.getD []).Nodup := by
        intro e2 he2
        rw [mapGet_mapSet_self] at he2
        cases Option.some.inj he2
        obtain ⟨hc1, -, -, -⟩ := h3 c ec hcg
        simpa using jsSetInsert_nodup _ n hc1
      rcases ensure_edgeP_sub _ c hroot2 hnd2 a b hedge with hP | hpair
      · obtain ⟨eb, heb, hm⟩ := hP
        rw [mapGet_mapSet2] at heb
        by_cases hbc : b = c
        · rw [if_pos hbc] at heb
          cases Option.some.inj heb
          simp only [Option.getD_some, mem_jsSetInsert] at hm
          rcases hm with hm | hm
          · exact Or.inl ⟨ec, by rw [hbc]; exact hcg, hm⟩
          · exact Or.inr (Or.inl ⟨hm, hbc⟩)
        · rw [if_neg hbc] at heb
          by_cases hbn : b = n
          · rw [if_pos hbn] at heb
            cases Option.some.inj heb
            exact Or.inl ⟨en, by rw [hbn]; exact hn, hm⟩
          · rw [if_neg hbn] at heb
            exact Or.inl ⟨eb, heb, hm⟩
      · exact Or.inr (Or.inr hpair)

theorem normDel_mem_sub (o : Option (List String)) (x z : String)
    (h : z ∈ (if o.map (fun cs => jsSetDelete cs x) = some [] then none
              else o.map (fun cs => jsSetDelete cs x)).getD []) :
    z ∈ o.getD [] := by
  cases o with
  | none => simp at h
  | some cs =>
    split at h
    · simp at h
    · simp only [Option.map_some', Option.getD_some, mem_jsSetDelete] at h
      simpa using h.1

theorem normDel_mem_of (o : Option (List String)) (x z : String)
    (hz : z ∈ o.getD []) (hne : z ≠ x) :
    z ∈ (if o.map (fun cs => jsSetDelete cs x) = some [] then none
         else o.map (fun cs => jsSetDelete cs x)).getD [] := by
  cases o with
  | none => simp at hz
  | some cs =>
    have hzd : z ∈ jsSetDelete cs x := (mem_jsSetDelete cs x z).mpr ⟨by simpa using hz, hne⟩
    split
    case _ hq =>
      simp only [Option.map_some', Option.some.injEq] at hq
      rw [hq] at hzd
      cases hzd
    case _ =>
      simpa using hzd

theorem unbind_eq_alias_root (st : GraphState) (c : String) (ec : entryNode)
    (hc : mapGet st.list c = some ec) (hnr : c = st.rootName) :
    unbindChildNode st c c =
      { st with list := mapSet st.list c { ec with children := if ec.children.map (fun cs => jsSetDelete cs c) = some [] then none else ec.children.map (fun cs => jsSetDelete cs c), parents := ec.parents.map (fun ps => jsSetDelete ps c) } } := by
  unfold unbindChildNode
  split
  case _ node childNode hn2 hc2 =>
    have he1 : node = ec := by rw [hc] at hn2; exact (Option.some.inj hn2).symm
    have he2 : childNode = ec := by rw [hc] at hc2; exact (Option.some.inj hc2).symm
    subst he1
    subst he2
    simp only [mapGet_mapSet_self, Option.getD_some, mapSet_mapSet_self]
    rw [if_neg (not_not_intro hnr)]
  case _ h2 =>
    rw [hc] at h2
    exact absurd rfl (h2 ec ec rfl)

theorem unbind_edgeC_sub (st : GraphState) (c n : String)
    (h : InvOn st.rootName st.list (fun _ => False)) :
    ∀ a b, EdgeC (unbindChildNode st c n) a b →
      EdgeC st a b ∨ (a = st.rootName ∧ b = c) := by
  intro a b hedge
  cases hn : mapGet st.list n with
  | none => rw [unbind_eq_missing st c n (Or.inl hn)] at hedge; exact Or.inl hedge
  | some en =>
  cases hcg : mapGet st.list c with
  | none => rw [unbind_eq_missing st c n (Or.inr hcg)] at hedge; exact Or.inl hedge
  | some ec =>
    obtain ⟨h1, h2, h3⟩ := h
    obtain ⟨r, hr, hrp⟩ := h2
    have hr0 : (mapGet st.list st.rootName).isSome := by rw [hr]; rfl
    by_cases hcn : c = n
    · subst hcn
      by_cases hcr : c = st.rootName
      · rw [unbind_eq_alias_root st c ec hcg hcr] at hedge
        obtain ⟨ea, hea, hm⟩ := hedge
        rw [mapGet_mapSet] at hea
        by_cases hac : c = a
        · rw [if_pos hac] at hea
          cases Option.some.inj hea
          exact Or.inl ⟨ec, by rw [hac] at hcg; exact hcg, normDel_mem_sub _ _ _ hm⟩
        · rw [if_neg hac] at hea
          exact Or.inl ⟨ea, hea, hm⟩
      · rw [unbind_eq_alias st c ec hcg hcr] at hedge
        have hroot2 : (mapGet (mapSet st.list c
            { ec with children := if ec.children.map (fun cs => jsSetDelete cs c) = some [] then none else ec.children.map (fun cs => jsSetDelete cs c), parents := ec.parents.map (fun ps => jsSetDelete ps c) }) st.rootName).isSome :=
          isSome_mapGet_mapSet _ _ _ _ hr0
        have hnd2 : ∀ e2, mapGet (mapSet st.list c
            { ec with children := if ec.children.map (fun cs => jsSetDelete cs c) = some [] then none else ec.children.map (fun cs => jsSetDelete cs c), parents := ec.parents.map (fun ps => jsSetDelete ps c) }) c = some e2 →
            (e2.parents.getD []).Nodup := by
          intro e2 he2
          rw [mapGet_mapSet_self] at he2
          cases Option.some.inj he2
          obtain ⟨hc1, -, -, -⟩ := h3 c ec hcg
          exact mapDel_nodup _ c hc1
        rcases ensure_edgeC_sub _ c hroot2 hnd2 a b hedge with hC | hpair
        · obtain ⟨ea, hea, hm⟩ := hC
          rw [mapGet_mapSet] at hea
          by_cases hac : c = a
          · rw [if_pos hac] at hea
            cases Option.some.inj hea
            exact Or.inl ⟨ec, by rw [hac] at hcg; exact hcg, normDel_mem_sub _ _ _ hm⟩
          · rw [if_neg hac] at hea
            exact Or.inl ⟨ea, hea, hm⟩
        · exact Or.inr hpair
    · by_cases hnr : n = st.rootName
      · rw [unbind_eq_root st c n en ec hn hcg (fun hq => hcn hq) hnr] at hedge
        obtain ⟨ea, hea, hm⟩ := hedge
        rw [mapGet_mapSet2] at hea
        by_cases hac : a = c
        · rw [if_pos hac] at hea
          cases Option.some.inj hea
          exact Or.inl ⟨ec, by rw [hac]; exact hcg, hm⟩
        · rw [if_neg hac] at hea
          by_cases han : a = n
          · rw [if_pos han] at hea
            cases Option.some.inj hea
            exact Or.inl ⟨en, by rw [han]; exact hn, normDel_mem_sub _ _ _ hm⟩
          · rw [if_neg han] at hea
            exact Or.inl ⟨ea, hea, hm⟩
      · rw [unbind_eq st c n en ec hn hcg (fun hq => hcn hq) hnr] at hedge
        have hroot2 : (mapGet (mapSet (mapSet st.list n
            { en with children := if en.children.map (fun cs => jsSetDelete cs c) = some [] then none else en.children.map (fun cs => jsSetDelete cs c) }) c
            { ec with parents := ec.parents.map (fun ps => jsSetDelete ps n) }) st.rootName).isSome :=
          isSome_mapGet_mapSet _ _ _ _ (isSome_mapGet_mapSet _ _ _ _ hr0)
        have hnd2 : ∀ e2, mapGet (mapSet (mapSet st.list n
            { en with children := if en.children.map (fun cs => jsSetDelete cs c) = some [] then none else en.children.map (fun cs => jsSetDelete cs c) }) c
            { ec with parents := ec.parents.map (fun ps => jsSetDelete ps n) }) c = some e2 →
            (e2.parents.getD []).Nodup := by
          intro e2 he2
          rw [mapGet_mapSet_self] at he2
          cases Option.some.inj he2
          obtain ⟨hc1, -, -, -⟩ := h3 c ec hcg
          exact mapDel_nodup _ n hc1
        rcases ensure_edgeC_sub _ c hroot2 hnd2 a b hedge with hC | hpair
        · obtain ⟨ea, hea, hm⟩ := hC
          rw [mapGet_mapSet2] at hea
          by_cases hac : a = c
          · rw [if_pos hac] at hea
            cases Option.some.inj hea
            exact Or.inl ⟨ec, by rw [hac]; exact hcg, hm⟩
          · rw [if_neg hac] at hea
            by_cases han : a = n
            · rw [if_pos han] at hea
              cases Option.some.inj hea
              exact Or.inl ⟨en, by rw [han]; exact hn, normDel_mem_sub _ _ _ hm⟩
            · rw [if_neg han] at hea
              exact Or.inl ⟨ea, hea, hm⟩
        · exact Or.inr hpair

theorem unbind_edgeP_sub (st : GraphState) (c n : String)
    (h : InvOn st.rootName st.list (fun _ => False)) :
    ∀ a b, EdgeP (unbindChildNode st c n) a b →
      EdgeP st a b ∨ (a = st.rootName ∧ b = c) := by
  intro a b hedge
  cases hn : mapGet st.list n with
  | none => rw [unbind_eq_missing st c n (Or.inl hn)] at hedge; exact Or.inl hedge
  | some en =>
  cases hcg : mapGet st.list c with
  | none => rw [unbind_eq_missing st c n (Or.inr hcg)] at hedge; exact Or.inl hedge
  | some ec =>
    obtain ⟨h1, h2, h3⟩ := h
    obtain ⟨r, hr, hrp⟩ := h2
    have hr0 : (mapGet st.list st.rootName).isSome := by rw [hr]; rfl
    have hsubP : ∀ (o : Option (List String)) (x z : String),
        z ∈ ((o.map (fun ps => jsSetDelete ps x)).getD []) → z ∈ o.getD [] := by
      intro o x z hz
      cases o with
      | none => simp at hz
      | some ps =>
        simp only [Option.map_some', Option.getD_some, mem_jsSetDelete] at hz
        simpa using hz.1
    by_cases hcn : c = n
    · subst hcn
      by_cases hcr : c = st.rootName
      · rw [unbind_eq_alias_root st c ec hcg hcr] at hedge
        obtain ⟨eb, heb, hm⟩ := hedge
        rw [mapGet_mapSet] at heb
        by_cases hbc : c = b
        · rw [if_pos hbc] at heb
          cases Option.some.inj heb
          exact Or.inl ⟨ec, by rw [hbc] at hcg; exact hcg, hsubP _ _ _ hm⟩
        · rw [if_neg hbc] at heb
          exact Or.inl ⟨eb, heb, hm⟩
      · rw [unbind_eq_alias st c ec hcg hcr] at hedge
        have hroot2 : (mapGet (mapSet st.list c
            { ec with children := if ec.children.map (fun cs => jsSetDelete cs c) = some [] then none else ec.children.map (fun cs => jsSetDelete cs c), parents := ec.parents.map (fun ps => jsSetDelete ps c) }) st.rootName).isSome :=
          isSome_mapGet_mapSet _ _ _ _ hr0
        have hnd2 : ∀ e2, mapGet (mapSet st.list c
            { ec with children := if ec.children.map (fun cs => jsSetDelete cs c) = some [] then none else ec.children.map (fun cs => jsSetDelete cs c), parents := ec.parents.map (fun ps => jsSetDelete ps c) }) c = some e2 →
            (e2.parents.getD []).Nodup := by
          intro e2 he2
          rw [mapGet_mapSet_self] at he2
          cases Option.some.inj he2
          obtain ⟨hc1, -, -, -⟩ := h3 c ec hcg
          exact mapDel_nodup _ c hc1
        rcases ensure_edgeP_sub _ c hroot2 hnd2 a b hedge with hP | hpair
        · obtain ⟨eb, heb, hm⟩ := hP
          rw [mapGet_mapSet] at heb
          by_cases hbc : c = b
          · rw [if_pos hbc] at heb
            cases Option.some.inj heb
            exact Or.inl ⟨ec, by rw [hbc] at hcg; exact hcg, hsubP _ _ _ hm⟩
          · rw [if_neg hbc] at heb
            exact Or.inl ⟨eb, heb, hm⟩
        · exact Or.inr hpair
    · by_cases hnr : n = st.rootName
      · rw [unbind_eq_root st c n en ec hn hcg (fun hq => hcn hq) hnr] at hedge
        obtain ⟨eb, heb, hm⟩ := hedge
        rw [mapGet_mapSet2] at heb
        by_cases hbc : b = c
        · rw [if_pos hbc] at heb
          cases Option.some.inj heb
          exact Or.inl ⟨ec, by rw [hbc]; exact hcg, hsubP _ _ _ hm⟩
        · rw [if_neg hbc] at heb
          by_cases hbn : b = n
          · rw [if_pos hbn] at heb
            cases Option.some.inj heb
            exact Or.inl ⟨en, by rw [hbn]; exact hn, hm⟩
          · rw [if_neg hbn] at heb
            exact Or.inl ⟨eb, heb, hm⟩
      · rw [unbind_eq st c n en ec hn hcg (fun hq => hcn hq) hnr] at hedge
        have hroot2 : (mapGet (mapSet (mapSet st.list n
            { en with children := if en.children.map (fun cs => jsSetDelete cs c) = some [] then none else en.children.map (fun cs => jsSetDelete cs c) }) c
            { ec with parents := ec.parents.map (fun ps => jsSetDelete ps n) }) st.rootName).isSome :=
          isSome_mapGet_mapSet _ _ _ _ (isSome_mapGet_mapSet _ _ _ _ hr0)
        have hnd2 : ∀ e2, mapGet (mapSet (mapSet st.list n
            { en with children := if en.children.map (fun cs => jsSetDelete cs c) = some [] then none else en.children.map (fun cs => jsSetDelete cs c) }) c
            { ec with parents := ec.parents.map (fun ps => jsSetDelete ps n) }) c = some e2 →
            (e2.parents.getD []).Nodup := by
          intro e2 he2
          rw [mapGet_mapSet_self] at he2
          cases Option.some.inj he2
          obtain ⟨hc1, -, -, -⟩ := h3 c ec hcg
          exact mapDel_nodup _ n hc1
        rcases ensure_edgeP_sub _ c hroot2 hnd2 a b hedge with hP | hpair
        · obtain ⟨eb, heb, hm⟩ := hP
          rw [mapGet_mapSet2] at heb
          by_cases hbc : b = c
          · rw [if_pos hbc] at heb
            cases Option.some.inj heb
            exact Or.inl ⟨ec, by rw [hbc]; exact hcg, hsubP _ _ _ hm⟩
          · rw [if_neg hbc] at heb
            by_cases hbn : b = n
            · rw [if_pos hbn] at heb
              cases Option.some.inj heb
              exact Or.inl ⟨en, by rw [hbn]; exact hn, hm⟩
            · rw [if_neg hbn] at heb
              exact Or.inl ⟨eb, heb, hm⟩
        · exact Or.inr hpair

/-- bindChildNode records the pair `n → c` on both sides, clearing it from
the exception set; all other mirrored pairs survive. -/
theorem bind_inc (st : GraphState) (c n : String) (X : String → String → Prop)
    (h : InvOn st.rootName st.list (fun _ => False))
    (hinc : IncUpTo st X)
    (hnp : (mapGet st.list n).isSome) (hcp : (mapGet st.list c).isSome) :
    IncUpTo (bindChildNode st c n) (fun a b => X a b ∧ ¬(a = n ∧ b = c)) := by
  obtain ⟨en, hn⟩ := Option.isSome_iff_exists.mp hnp
  obtain ⟨ec, hcg⟩ := Option.isSome_iff_exists.mp hcp
  obtain ⟨h1, h2, h3⟩ := h
  obtain ⟨r, hr, hrp⟩ := h2
  have hr0 : (mapGet st.list st.rootName).isSome := by rw [hr]; rfl
  by_cases hcn : c = n
  · subst hcn
    have hee : en = ec := by rw [hn] at hcg; exact Option.some.inj hcg
    subst hee
    rw [bind_eq_alias st c en hn]
    have hCpres : ∀ u v, EdgeC st u v →
        EdgeC { st with list := mapSet st.list c { en with children := some (jsSetInsert (en.children.getD []) c), parents := some (jsSetInsert (en.parents.getD []) c) } } u v := by
      intro u v huv
      obtain ⟨eu, heu, hm⟩ := huv
      by_cases huc : u = c
      · have hgu : mapGet (mapSet st.list c { en with children := some (jsSetInsert (en.children.getD []) c), parents := some (jsSetInsert (en.parents.getD []) c) }) u = some { en with children := some (jsSetInsert (en.children.getD []) c), parents := some (jsSetInsert (en.parents.getD []) c) } := by
          rw [huc, mapGet_mapSet_self]
        refine ⟨_, hgu, ?_⟩
        have heq : eu = en := by rw [huc] at heu; rw [heu] at hn; exact Option.some.inj hn
        subst heq
        simp only [Option.getD_some, mem_jsSetInsert]
        exact Or.inl hm
      · have hgu : mapGet (mapSet st.list c { en with children := some (jsSetInsert (en.children.getD []) c), parents := some (jsSetInsert (en.parents.getD []) c) }) u = mapGet st.list u :=
          mapGet_mapSet_ne _ _ _ _ (fun hq => huc hq.symm)
        exact ⟨eu, hgu.trans heu, hm⟩
    have hmid : IncUpTo { st with list := mapSet st.list c { en with children := some (jsSetInsert (en.children.getD []) c), parents := some (jsSetInsert (en.parents.getD []) c) } } (fun a b => X a b ∧ ¬(a = c ∧ b = c)) := by
      intro a b hedge
      obtain ⟨eb, heb, hm⟩ := hedge
      rw [mapGet_mapSet] at heb
      by_cases hbc : c = b
      · rw [if_pos hbc] at heb
        cases Option.some.inj heb
        simp only [Option.getD_some, mem_jsSetInsert] at hm
        by_cases hac : a = c
        · have hga : mapGet (mapSet st.list c { en with children := some (jsSetInsert (en.children.getD []) c), parents := some (jsSetInsert (en.parents.getD []) c) }) a = some { en with children := some (jsSetInsert (en.children.getD []) c), parents := some (jsSetInsert (en.parents.getD []) c) } := by
            rw [hac, mapGet_mapSet_self]
          refine Or.inl ⟨_, hga, ?_⟩
          simp only [Option.getD_some, mem_jsSetInsert]
          exact Or.inr hbc.symm
        · rcases hm with hm | hm
          · have hPold : EdgeP st a b := ⟨en, by rw [← hbc]; exact hn, hm⟩
            rcases hinc a b hPold with hC | hX
            · exact Or.inl (hCpres a b hC)
            · exact Or.inr ⟨hX, fun hq => hac hq.1⟩
          · exact absurd hm hac
      · rw [if_neg hbc] at heb
        have hPold : EdgeP st a b := ⟨eb, heb, hm⟩
        rcases hinc a b hPold with hC | hX
        · exact Or.inl (hCpres a b hC)
        · exact Or.inr ⟨hX, fun hq => hbc hq.2.symm⟩
    have hroot2 : (mapGet (mapSet st.list c
        { en with children := some (jsSetInsert (en.children.getD []) c),
                  parents := some (jsSetInsert (en.parents.getD []) c) }) st.rootName).isSome :=
      isSome_mapGet_mapSet _ _ _ _ hr0
    have hnd2 : ∀ e2, mapGet (mapSet st.list c
        { en with children := some (jsSetInsert (en.children.getD []) c),
                  parents := some (jsSetInsert (en.parents.getD []) c) }) c = some e2 →
        (e2.parents.getD []).Nodup := by
      intro e2 he2
      rw [mapGet_mapSet_self] at he2
      cases Option.some.inj he2
      obtain ⟨hn1, -, -, -⟩ := h3 c en hn
      simpa using jsSetInsert_nodup _ c hn1
    exact ensure_inc _ c _ hroot2 hnd2 hmid
  · rw [bind_eq st c n en ec hn hcg hcn]
    have hCpres : ∀ u v, EdgeC st u v →
        EdgeC { st with list := mapSet (mapSet st.list n { en with children := some (jsSetInsert (en.children.getD []) c) }) c { ec with parents := some (jsSetInsert (ec.parents.getD []) n) } } u v := by
      intro u v huv
      obtain ⟨eu, heu, hm⟩ := huv
      have hgu : mapGet (mapSet (mapSet st.list n
          { en with children := some (jsSetInsert (en.children.getD []) c) }) c
          { ec with parents := some (jsSetInsert (ec.parents.getD []) n) }) u =
          if u = c then some { ec with parents := some (jsSetInsert (ec.parents.getD []) n) }
          else if u = n then some { en with children := some (jsSetInsert (en.children.getD []) c) }
          else mapGet st.list u := mapGet_mapSet2 _ _ _ _ _ _
      by_cases huc : u = c
      · rw [if_pos huc] at hgu
        refine ⟨_, hgu, ?_⟩
        have heq : eu = ec := by rw [huc] at heu; rw [heu] at hcg; exact Option.some.inj hcg
        subst heq
        exact hm
      · rw [if_neg huc] at hgu
        by_cases hun : u = n
        · rw [if_pos hun] at hgu
          refine ⟨_, hgu, ?_⟩
          have heq : eu = en := by rw [hun] at heu; rw [heu] at hn; exact Option.some.inj hn
          subst heq
          simp only [Option.getD_some, mem_jsSetInsert]
          exact Or.inl hm
        · rw [if_neg hun] at hgu
          rw [heu] at hgu
          exact ⟨eu, hgu, hm⟩
    have hmid : IncUpTo { st with list := mapSet (mapSet st.list n { en with children := some (jsSetInsert (en.children.getD []) c) }) c { ec with parents := some (jsSetInsert (ec.parents.getD []) n) } } (fun a b => X a b ∧ ¬(a = n ∧ b = c)) := by
      intro a b hedge
      obtain ⟨eb, heb, hm⟩ := hedge
      rw [mapGet_mapSet2] at heb
      by_cases hbc : b = c
      · rw [if_pos hbc] at heb
        cases Option.some.inj heb
        simp only [Option.getD_some, mem_jsSetInsert] at hm
        by_cases han : a = n
        · refine Or.inl ?_
          have hgn : mapGet (mapSet (mapSet st.list n
              { en with children := some (jsSetInsert (en.children.getD []) c) }) c
              { ec with parents := some (jsSetInsert (ec.parents.getD []) n) }) a =
              some { en with children := some (jsSetInsert (en.children.getD []) c) } := by
            rw [mapGet_mapSet2, if_neg (han ▸ (fun hq => hcn hq.symm) : ¬ a = c), if_pos han]
          refine ⟨_, hgn, ?_⟩
          simp only [Option.getD_some, mem_jsSetInsert]
          exact Or.inr hbc
        · rcases hm with hm | hm
          · have hPold : EdgeP st a b := ⟨ec, by rw [hbc]; exact hcg, hm⟩
            rcases hinc a b hPold with hC | hX
            · exact Or.inl (hCpres a b hC)
            · exact Or.inr ⟨hX, fun hq => han hq.1⟩
          · exact absurd hm han
      · rw [if_neg hbc] at heb
        by_cases hbn : b = n
        · rw [if_pos hbn] at heb
          cases Option.some.inj heb
          have hPold : EdgeP st a b := ⟨en, by rw [hbn]; exact hn, hm⟩
          rcases hinc a b hPold with hC | hX
          · exact Or.inl (hCpres a b hC)
          · exact Or.inr ⟨hX, fun hq => hbc hq.2⟩
        · rw [if_neg hbn] at heb
          have hPold : EdgeP st a b := ⟨eb, heb, hm⟩
          rcases hinc a b hPold with hC | hX
          · exact Or.inl (hCpres a b hC)
          · exact Or.inr ⟨hX, fun hq => hbc hq.2⟩
    have hroot2 : (mapGet (mapSet (mapSet st.list n
        { en with children := some (jsSetInsert (en.children.getD []) c) }) c
        { ec with parents := some (jsSetInsert (ec.parents.getD []) n) }) st.rootName).isSome :=
      isSome_mapGet_mapSet _ _ _ _ (isSome_mapGet_mapSet _ _ _ _ hr0)
    have hnd2 : ∀ e2, mapGet (mapSet (mapSet st.list n
        { en with children := some (jsSetInsert (en.children.getD []) c) }) c
        { ec with parents := some (jsSetInsert (ec.parents.getD []) n) }) c = some e2 →
        (e2.parents.getD []).Nodup := by
      intro e2 he2
      rw [mapGet_mapSet_self] at he2
      cases Option.some.inj he2
      obtain ⟨hc1, -, -, -⟩ := h3 c ec hcg
      simpa using jsSetInsert_nodup _ n hc1
    exact ensure_inc _ c _ hroot2 hnd2 hmid

/-- unbindChildNode removes the pair `n → c` from both sides together, so
the inclusion invariant is untouched. -/
theorem unbind_inc (st : GraphState) (c n : String) (X : String → String → Prop)
    (h : InvOn st.rootName st.list (fun _ => False))
    (hinc : IncUpTo st X) :
    IncUpTo (unbindChildNode st c n) X := by
  cases hn : mapGet st.list n with
  | none => rw [unbind_eq_missing st c n (Or.inl hn)]; exact hinc
  | some en =>
  cases hcg : mapGet st.list c with
  | none => rw [unbind_eq_missing st c n (Or.inr hcg)]; exact hinc
  | some ec =>
    obtain ⟨h1, h2, h3⟩ := h
    obtain ⟨r, hr, hrp⟩ := h2
    have hr0 : (mapGet st.list st.rootName).isSome := by rw [hr]; rfl
    have hsubP : ∀ (o : Option (List String)) (x z : String),
        z ∈ ((o.map (fun ps => jsSetDelete ps x)).getD []) → z ∈ o.getD [] ∧ z ≠ x := by
      intro o x z hz
      cases o with
      | none => simp at hz
      | some ps =>
        simp only [Option.map_some', Option.getD_some, mem_jsSetDelete] at hz
        exact ⟨by simpa using hz.1, hz.2⟩
    by_cases hcn : c = n
    · subst hcn
      have hee : en = ec := by rw [hn] at hcg; exact Option.some.inj hcg
      subst hee
      have hmid : IncUpTo { st with list := mapSet st.list c { en with children := if en.children.map (fun cs => jsSetDelete cs c) = some [] then none else en.children.map (fun cs => jsSetDelete cs c), parents := en.parents.map (fun ps => jsSetDelete ps c) } } X := by
        intro a b hedge
        obtain ⟨eb, heb, hm⟩ := hedge
        rw [mapGet_mapSet] at heb
        have hCpres : ∀ u v, EdgeC st u v → (u = c → v ≠ c) →
            EdgeC { st with list := mapSet st.list c { en with children := if en.children.map (fun cs => jsSetDelete cs c) = some [] then none else en.children.map (fun cs => jsSetDelete cs c), parents := en.parents.map (fun ps => jsSetDelete ps c) } } u v := by
          intro u v huv hguard
          obtain ⟨eu, heu, hmm⟩ := huv
          by_cases huc : u = c
          · have hgu : mapGet (mapSet st.list c { en with children := if en.children.map (fun cs => jsSetDelete cs c) = some [] then none else en.children.map (fun cs => jsSetDelete cs c), parents := en.parents.map (fun ps => jsSetDelete ps c) }) u = some { en with children := if en.children.map (fun cs => jsSetDelete cs c) = some [] then none else en.children.map (fun cs => jsSetDelete cs c), parents := en.parents.map (fun ps => jsSetDelete ps c) } := by
              rw [huc, mapGet_mapSet_self]
            refine ⟨_, hgu, ?_⟩
            have heq : eu = en := by rw [huc] at heu; rw [heu] at hn; exact Option.some.inj hn
            subst heq
            exact normDel_mem_of _ _ _ hmm (hguard huc)
          · have hgu : mapGet (mapSet st.list c { en with children := if en.children.map (fun cs => jsSetDelete cs c) = some [] then none else en.children.map (fun cs => jsSetDelete cs c), parents := en.parents.map (fun ps => jsSetDelete ps c) }) u = mapGet st.list u :=
              mapGet_mapSet_ne _ _ _ _ (fun hq => huc hq.symm)
            exact ⟨eu, hgu.trans heu, hmm⟩
        by_cases hbc : c = b
        · rw [if_pos hbc] at heb
          cases Option.some.inj heb
          obtain ⟨hmem, hane⟩ := hsubP _ _ _ hm
          have hPold : EdgeP st a b := ⟨en, by rw [← hbc]; exact hn, hmem⟩
          rcases hinc a b hPold with hC | hX
          · exact Or.inl (hCpres a b hC (fun ha => absurd ha hane))
          · exact Or.inr hX
        · rw [if_neg hbc] at heb
          have hPold : EdgeP st a b := ⟨eb, heb, hm⟩
          rcases hinc a b hPold with hC | hX
          · exact Or.inl (hCpres a b hC (fun _ => fun hq => hbc hq.symm))
          · exact Or.inr hX
      by_cases hcr : c = st.rootName
      · rw [unbind_eq_alias_root st c en hcg hcr]
        exact hmid
      · rw [unbind_eq_alias st c en hcg hcr]
        have hroot2 : (mapGet (mapSet st.list c { en with children := if en.children.map (fun cs => jsSetDelete cs c) = some [] then none else en.children.map (fun cs => jsSetDelete cs c), parents := en.parents.map (fun ps => jsSetDelete ps c) }) st.rootName).isSome :=
          isSome_mapGet_mapSet _ _ _ _ hr0
        have hnd2 : ∀ e2, mapGet (mapSet st.list c { en with children := if en.children.map (fun cs => jsSetDelete cs c) = some [] then none else en.children.map (fun cs => jsSetDelete cs c), parents := en.parents.map (fun ps => jsSetDelete ps c) }) c = some e2 →
            (e2.parents.getD []).Nodup := by
          intro e2 he2
          rw [mapGet_mapSet_self] at he2
          cases Option.some.inj he2
          obtain ⟨hc1, -, -, -⟩ := h3 c en hn
          exact mapDel_nodup _ c hc1
        exact ensure_inc _ c _ hroot2 hnd2 hmid
    · have hmid : IncUpTo { st with list := mapSet (mapSet st.list n { en with children := if en.children.map (fun cs => jsSetDelete cs c) = some [] then none else en.children.map (fun cs => jsSetDelete cs c) }) c { ec with parents := ec.parents.map (fun ps => jsSetDelete ps n) } } X := by
        intro a b hedge
        obtain ⟨eb, heb, hm⟩ := hedge
        rw [mapGet_mapSet2] at heb
        have hCpres : ∀ u v, EdgeC st u v → (u = n → v ≠ c) →
            EdgeC { st with list := mapSet (mapSet st.list n { en with children := if en.children.map (fun cs => jsSetDelete cs c) = some [] then none else en.children.map (fun cs => jsSetDelete cs c) }) c { ec with parents := ec.parents.map (fun ps => jsSetDelete ps n) } } u v := by
          intro u v huv hguard
          obtain ⟨eu, heu, hmm⟩ := huv
          have hgu := mapGet_mapSet2 st.list n c u
            { en with children := if en.children.map (fun cs => jsSetDelete cs c) = some [] then none else en.children.map (fun cs => jsSetDelete cs c) }
            { ec with parents := ec.parents.map (fun ps => jsSetDelete ps n) }
          by_cases huc : u = c
          · rw [if_pos huc] at hgu
            refine ⟨_, hgu, ?_⟩
            have heq : eu = ec := by rw [huc] at heu; rw [heu] at hcg; exact Option.some.inj hcg
            subst heq
            exact hmm
          · rw [if_neg huc] at hgu
            by_cases hun : u = n
            · rw [if_pos hun] at hgu
              refine ⟨_, hgu, ?_⟩
              have heq : eu = en := by rw [hun] at heu; rw [heu] at hn; exact Option.some.inj hn
              subst heq
              exact normDel_mem_of _ _ _ hmm (hguard hun)
            · rw [if_neg hun] at hgu
              rw [heu] at hgu
              exact ⟨eu, hgu, hmm⟩
        by_cases hbc : b = c
        · rw [if_pos hbc] at heb
          cases Option.some.inj heb
          obtain ⟨hmem, hane⟩ := hsubP _ _ _ hm
          have hPold : EdgeP st a b := ⟨ec, by rw [hbc]; exact hcg, hmem⟩
          rcases hinc a b hPold with hC | hX
          · refine Or.inl (hCpres a b hC ?_)
            intro hq
            exact absurd hq hane
          · exact Or.inr hX
        · rw [if_neg hbc] at heb
          by_cases hbn : b = n
          · rw [if_pos hbn] at heb
            cases Option.some.inj heb
            have hPold : EdgeP st a b := ⟨en, by rw [hbn]; exact hn, hm⟩
            rcases hinc a b hPold with hC | hX
            · exact Or.inl (hCpres a b hC (fun _ => hbn ▸ hbc))
            · exact Or.inr hX
          · rw [if_neg hbn] at heb
            have hPold : EdgeP st a b := ⟨eb, heb, hm⟩
            rcases hinc a b hPold with hC | hX
            · exact Or.inl (hCpres a b hC (fun _ => hbc))
            · exact Or.inr hX
      by_cases hnr : n = st.rootName
      · rw [unbind_eq_root st c n en ec hn hcg (fun hq => hcn hq) hnr]
        exact hmid
      · rw [unbind_eq st c n en ec hn hcg (fun hq => hcn hq) hnr]
        have hroot2 : (mapGet (mapSet (mapSet st.list n { en with children := if en.children.map (fun cs => jsSetDelete cs c) = some [] then none else en.children.map (fun cs => jsSetDelete cs c) }) c { ec with parents := ec.parents.map (fun ps => jsSetDelete ps n) }) st.rootName).isSome :=
          isSome_mapGet_mapSet _ _ _ _ (isSome_mapGet_mapSet _ _ _ _ hr0)
        have hnd2 : ∀ e2, mapGet (mapSet (mapSet st.list n { en with children := if en.children.map (fun cs => jsSetDelete cs c) = some [] then none else en.children.map (fun cs => jsSetDelete cs c) }) c { ec with parents := ec.parents.map (fun ps => jsSetDelete ps n) }) c = some e2 →
            (e2.parents.getD []).Nodup := by
          intro e2 he2
          rw [mapGet_mapSet_self] at he2
          cases Option.some.inj he2
          obtain ⟨hc1, -, -, -⟩ := h3 c ec hcg
          exact mapDel_nodup _ n hc1
        exact ensure_inc _ c _ hroot2 hnd2 hmid

/-- The converse inclusion: every child-recorded edge is parent-recorded,
up to the exception set `Y` (the not-yet-mirrored pairs of a running fold). -/
def CoIncUpTo (st : GraphState) (Y : String → String → Prop) : Prop :=
  ∀ a b, EdgeC st a b → EdgeP st a b ∨ Y a b

theorem inc_mono (st : GraphState) (X X' : String → String → Prop)
    (h : IncUpTo st X) (hm : ∀ a b, X a b → X' a b) : IncUpTo st X' := by
  intro a b he
  rcases h a b he with h2 | h2
  · exact Or.inl h2
  · exact Or.inr (hm a b h2)

theorem coinc_mono (st : GraphState) (Y Y' : String → String → Prop)
    (h : CoIncUpTo st Y) (hm : ∀ a b, Y a b → Y' a b) : CoIncUpTo st Y' := by
  intro a b he
  rcases h a b he with h2 | h2
  · exact Or.inl h2
  · exact Or.inr (hm a b h2)

theorem invW_root_isSome (root0 : String) (l : List (String × entryNode))
    (h : InvOn root0 l (fun _ => False)) : (mapGet l root0).isSome := by
  obtain ⟨-, ⟨r, hr, -⟩, -⟩ := h
  rw [hr]
  rfl

/-- Under the invariant no child edge enters the root. -/
theorem invW_no_edge_to_root (root0 : String) (st : GraphState)
    (h : InvOn root0 st.list (fun _ => False)) :
    ∀ a b, EdgeC st a b → b ≠ root0 := by
  intro a b ⟨ea, hea, hm⟩ hb
  obtain ⟨-, -, h3⟩ := h
  obtain ⟨-, -, h33, -⟩ := h3 a ea hea
  exact h33 (hb ▸ hm)

theorem invOn_delete_false (root : String) (l : List (String × entryNode)) (a : String)
    (h : InvOn root l (fun _ => False)) (hra : root ≠ a) :
    InvOn root (mapDelete l a) (fun _ => False) := by
  obtain ⟨h1, h2, h3⟩ := h
  refine ⟨keysNodup_mapDelete l a h1, ?_, ?_⟩
  · obtain ⟨r, hr, hrp⟩ := h2
    exact ⟨r, by rw [mapGet_mapDelete_ne _ _ _ hra, hr], hrp⟩
  · intro k e hk
    by_cases hka : k = a
    · subst hka
      rw [mapGet_mapDelete_self l k h1] at hk
      cases hk
    · rw [mapGet_mapDelete_ne _ _ _ hka] at hk
      exact h3 k e hk

theorem mapDel_mem (o : Option (List String)) (x z : String) :
    z ∈ ((o.map (fun ps => jsSetDelete ps x)).getD []) ↔ z ∈ o.getD [] ∧ z ≠ x := by
  cases o with
  | none => simp
  | some ps =>
    simp only [Option.map_some', Option.getD_some, mem_jsSetDelete]

theorem normDel_mem (o : Option (List String)) (x z : String) :
    z ∈ ((if o.map (fun cs => jsSetDelete cs x) = some [] then none
          else o.map (fun cs => jsSetDelete cs x)).getD []) ↔ z ∈ o.getD [] ∧ z ≠ x := by
  constructor
  · intro h
    cases o with
    | none => simp at h
    | some cs =>
      split at h
      · simp at h
      · simp only [Option.map_some', Option.getD_some, mem_jsSetDelete] at h
        exact ⟨by simpa using h.1, h.2⟩
  · intro h
    exact normDel_mem_of o x z h.1 h.2

/-- ensureRootBinding can only grow the target's parent set by the root. -/
theorem ensure_parents_sub (st : GraphState) (y : String)
    (hroot : (mapGet st.list st.rootName).isSome)
    (hnd : ∀ e2, mapGet st.list y = some e2 → (e2.parents.getD []).Nodup) :
    ∀ e2, mapGet (ensureRootBinding st y).list y = some e2 →
      ∀ z ∈ e2.parents.getD [],
        (∃ e, mapGet st.list y = some e ∧ z ∈ e.parents.getD []) ∨ z = st.rootName := by
  intro e2 he2 z hz
  by_cases hyr : y = st.rootName
  · rw [ensure_eq_self_root st y hyr] at he2
    exact Or.inl ⟨e2, he2, hz⟩
  cases hyg : mapGet st.list y with
  | none =>
    rw [ensure_eq_self_missing st y (Or.inl hyg)] at he2
    rw [hyg] at he2
    cases he2
  | some e =>
    obtain ⟨r, hr⟩ := Option.isSome_iff_exists.mp hroot
    cases hp : e.parents with
    | none =>
      rw [ensure_eq_self_noparents st y e hyg hp] at he2
      exact Or.inl ⟨e2, hyg.symm.trans he2, hz⟩
    | some l =>
      have hlnd : l.Nodup := by
        have := hnd e hyg
        rw [hp] at this
        simpa using this
      by_cases hl1 : 1 < l.length
      · rw [ensure_drop_get st y e r l hyg hyr hr hp hl1 hlnd y] at he2
        rw [if_neg hyr, if_pos rfl] at he2
        cases Option.some.inj he2
        simp only [Option.getD_some, mem_jsSetDelete] at hz
        exact Or.inl ⟨e, rfl, by rw [hp]; exact hz.1⟩
      · by_cases hl0 : l = []
        · subst hl0
          rw [ensure_addroot_get st y e r hyg hyr hr hp y] at he2
          rw [if_neg hyr, if_pos rfl] at he2
          cases Option.some.inj he2
          simp only [Option.getD_some, mem_jsSetInsert] at hz
          rcases hz with hz | hz
          · cases hz
          · exact Or.inr hz
        · rw [ensure_eq_self_small st y e l hyg hp hl1 hl0] at he2
          exact Or.inl ⟨e2, hyg.symm.trans he2, hz⟩

/-- ensureRootBinding keeps the child-to-parent inclusion: it removes or adds
the two sides of the root binding together. -/
theorem ensure_coinc (st : GraphState) (y : String) (Y : String → String → Prop)
    (hroot : (mapGet st.list st.rootName).isSome)
    (hnd : ∀ e2, mapGet st.list y = some e2 → (e2.parents.getD []).Nodup)
    (hco : CoIncUpTo st Y) : CoIncUpTo (ensureRootBinding st y) Y := by
  intro a b hedge
  by_cases hyr : y = st.rootName
  · rw [ensure_eq_self_root st y hyr] at hedge ⊢
    exact hco a b hedge
  cases hyg : mapGet st.list y with
  | none =>
    rw [ensure_eq_self_missing st y (Or.inl hyg)] at hedge ⊢
    exact hco a b hedge
  | some e =>
    obtain ⟨r, hr⟩ := Option.isSome_iff_exists.mp hroot
    cases hp : e.parents with
    | none =>
      rw [ensure_eq_self_noparents st y e hyg hp] at hedge ⊢
      exact hco a b hedge
    | some l =>
      have hlnd : l.Nodup := by
        have := hnd e hyg
        rw [hp] at this
        simpa using this
      by_cases hl1 : 1 < l.length
      · -- drop case: the pair (root, y) is removed on both sides
        have hPpres : ∀ u v, EdgeP st u v → ¬(u = st.rootName ∧ v = y) →
            EdgeP (ensureRootBinding st y) u v := by
          intro u v huv hpair
          obtain ⟨ev, hev, hm⟩ := huv
          have hgv := ensure_drop_get st y e r l hyg hyr hr hp hl1 hlnd v
          by_cases hv1 : v = st.rootName
          · rw [if_pos hv1] at hgv
            refine ⟨_, hgv, ?_⟩
            have her : ev = r := by rw [hv1] at hev; rw [hev] at hr; exact Option.some.inj hr
            subst her
            exact hm
          · rw [if_neg hv1] at hgv
            by_cases hv2 : v = y
            · rw [if_pos hv2] at hgv
              refine ⟨_, hgv, ?_⟩
              have hev2 : ev = e := by rw [hv2] at hev; rw [hev] at hyg; exact Option.some.inj hyg
              subst hev2
              rw [hp] at hm
              simp only [Option.getD_some] at hm ⊢
              exact (mem_jsSetDelete _ _ _).mpr ⟨hm, fun hq => hpair ⟨hq, hv2⟩⟩
            · rw [if_neg hv2] at hgv
              rw [hev] at hgv
              exact ⟨ev, hgv, hm⟩
        obtain ⟨ea, hea, hmem⟩ := hedge
        rw [ensure_drop_get st y e r l hyg hyr hr hp hl1 hlnd a] at hea
        by_cases ha1 : a = st.rootName
        · rw [if_pos ha1] at hea
          cases Option.some.inj hea
          cases hrc : r.children with
          | none => rw [hrc] at hmem; cases hmem
          | some cs =>
            rw [hrc] at hmem
            simp only [Option.map_some', Option.getD_some, mem_jsSetDelete] at hmem
            have hCold : EdgeC st a b := ⟨r, by rw [ha1]; exact hr, by rw [hrc]; exact hmem.1⟩
            rcases hco a b hCold with hP | hY
            · exact Or.inl (hPpres a b hP (fun hq => hmem.2 hq.2))
            · exact Or.inr hY
        · rw [if_neg ha1] at hea
          by_cases ha2 : a = y
          · rw [if_pos ha2] at hea
            cases Option.some.inj hea
            have hCold : EdgeC st a b := ⟨e, by rw [ha2]; exact hyg, hmem⟩
            rcases hco a b hCold with hP | hY
            · exact Or.inl (hPpres a b hP (fun hq => ha1 hq.1))
            · exact Or.inr hY
          · rw [if_neg ha2] at hea
            have hCold : EdgeC st a b := ⟨ea, hea, hmem⟩
            rcases hco a b hCold with hP | hY
            · exact Or.inl (hPpres a b hP (fun hq => ha1 hq.1))
            · exact Or.inr hY
      · by_cases hl0 : l = []
        · -- addroot case: the pair (root, y) is added on both sides
          subst hl0
          have hPpres : ∀ u v, EdgeP st u v → EdgeP (ensureRootBinding st y) u v := by
            intro u v huv
            obtain ⟨ev, hev, hm⟩ := huv
            have hgv := ensure_addroot_get st y e r hyg hyr hr hp v
            by_cases hv1 : v = st.rootName
            · rw [if_pos hv1] at hgv
              refine ⟨_, hgv, ?_⟩
              have her : ev = r := by rw [hv1] at hev; rw [hev] at hr; exact Option.some.inj hr
              subst her
              exact hm
            · rw [if_neg hv1] at hgv
              by_cases hv2 : v = y
              · exfalso
                have hev2 : ev = e := by rw [hv2] at hev; rw [hev] at hyg; exact Option.some.inj hyg
                subst hev2
                rw [hp] at hm
                simp at hm
              · rw [if_neg hv2] at hgv
                rw [hev] at hgv
                exact ⟨ev, hgv, hm⟩
          obtain ⟨ea, hea, hmem⟩ := hedge
          rw [ensure_addroot_get st y e r hyg hyr hr hp a] at hea
          by_cases ha1 : a = st.rootName
          · rw [if_pos ha1] at hea
            cases Option.some.inj hea
            simp only [Option.getD_some, mem_jsSetInsert] at hmem
            rcases hmem with hmem | hmem
            · have hCold : EdgeC st a b := ⟨r, by rw [ha1]; exact hr, hmem⟩
              rcases hco a b hCold with hP | hY
              · exact Or.inl (hPpres a b hP)
              · exact Or.inr hY
            · refine Or.inl ?_
              have hgy := ensure_addroot_get st y e r hyg hyr hr hp y
              rw [if_neg hyr, if_pos rfl] at hgy
              rw [hmem]
              refine ⟨_, hgy, ?_⟩
              simp only [Option.getD_some, mem_jsSetInsert]
              exact Or.inr ha1
          · rw [if_neg ha1] at hea
            by_cases ha2 : a = y
            · rw [if_pos ha2] at hea
              cases Option.some.inj hea
              have hCold : EdgeC st a b := ⟨e, by rw [ha2]; exact hyg, hmem⟩
              rcases hco a b hCold with hP | hY
              · exact Or.inl (hPpres a b hP)
              · exact Or.inr hY
            · rw [if_neg ha2] at hea
              have hCold : EdgeC st a b := ⟨ea, hea, hmem⟩
              rcases hco a b hCold with hP | hY
              · exact Or.inl (hPpres a b hP)
              · exact Or.inr hY
        · rw [ensure_eq_self_small st y e l hyg hp hl1 hl0] at hedge ⊢
          exact hco a b hedge

/-- After unbinding, the unbound node is gone from the child's parent set;
anything still there was there before (or is the root, re-added by
ensureRootBinding). -/
theorem unbind_edgeP_self_sub (st : GraphState) (c n : String)
    (h : InvOn st.rootName st.list (fun _ => False))
    (hnp : (mapGet st.list n).isSome) (hcp : (mapGet st.list c).isSome) :
    ∀ q, EdgeP (unbindChildNode st c n) q c → (EdgeP st q c ∧ q ≠ n) ∨ q = st.rootName := by
  obtain ⟨en, hn⟩ := Option.isSome_iff_exists.mp hnp
  obtain ⟨ec, hcg⟩ := Option.isSome_iff_exists.mp hcp
  obtain ⟨h1, h2, h3⟩ := h
  obtain ⟨r, hr, hrp⟩ := h2
  have hr0 : (mapGet st.list st.rootName).isSome := by rw [hr]; rfl
  have hecnd : (ec.parents.getD []).Nodup := (h3 c ec hcg).1
  intro q hq
  by_cases hcn : c = n
  · by_cases hcr : c = st.rootName
    · rw [← hcn, unbind_eq_alias_root st c ec hcg hcr] at hq
      obtain ⟨eb, heb, hm⟩ := hq
      rw [mapGet_mapSet_self] at heb
      cases Option.some.inj heb
      have hz2 : q ∈ ((ec.parents.map (fun ps => jsSetDelete ps c)).getD []) := hm
      rw [mapDel_mem] at hz2
      exact Or.inl ⟨⟨ec, hcg, hz2.1⟩, fun hq2 => hz2.2 (by rw [hcn]; exact hq2)⟩
    · rw [← hcn, unbind_eq_alias st c ec hcg hcr] at hq
      obtain ⟨eb, heb, hm⟩ := hq
      have hroot2 : (mapGet (mapSet st.list c { ec with children := if ec.children.map (fun cs => jsSetDelete cs c) = some [] then none else ec.children.map (fun cs => jsSetDelete cs c), parents := ec.parents.map (fun ps => jsSetDelete ps c) }) st.rootName).isSome :=
        isSome_mapGet_mapSet _ _ _ _ hr0
      have hnd2 : ∀ e2, mapGet (mapSet st.list c { ec with children := if ec.children.map (fun cs => jsSetDelete cs c) = some [] then none else ec.children.map (fun cs => jsSetDelete cs c), parents := ec.parents.map (fun ps => jsSetDelete ps c) }) c = some e2 → (e2.parents.getD []).Nodup := by
        intro e2 he2
        rw [mapGet_mapSet_self] at he2
        cases Option.some.inj he2
        exact mapDel_nodup _ c hecnd
      rcases ensure_parents_sub _ c hroot2 hnd2 eb heb q hm with ⟨e0, he0, hz⟩ | hzr
      · rw [mapGet_mapSet_self] at he0
        cases Option.some.inj he0
        have hz2 : q ∈ ((ec.parents.map (fun ps => jsSetDelete ps c)).getD []) := hz
        rw [mapDel_mem] at hz2
        exact Or.inl ⟨⟨ec, hcg, hz2.1⟩, fun hq2 => hz2.2 (by rw [hcn]; exact hq2)⟩
      · exact Or.inr hzr
  · have hcn2 : c ≠ n := hcn
    by_cases hnr : n = st.rootName
    · rw [unbind_eq_root st c n en ec hn hcg hcn2 hnr] at hq
      obtain ⟨eb, heb, hm⟩ := hq
      rw [mapGet_mapSet_self] at heb
      cases Option.some.inj heb
      have hz2 : q ∈ ((ec.parents.map (fun ps => jsSetDelete ps n)).getD []) := hm
      rw [mapDel_mem] at hz2
      exact Or.inl ⟨⟨ec, hcg, hz2.1⟩, hz2.2⟩
    · rw [unbind_eq st c n en ec hn hcg hcn2 hnr] at hq
      obtain ⟨eb, heb, hm⟩ := hq
      have hroot2 : (mapGet (mapSet (mapSet st.list n { en with children := if en.children.map (fun cs => jsSetDelete cs c) = some [] then none else en.children.map (fun cs => jsSetDelete cs c) }) c { ec with parents := ec.parents.map (fun ps => jsSetDelete ps n) }) st.rootName).isSome :=
        isSome_mapGet_mapSet _ _ _ _ (isSome_mapGet_mapSet _ _ _ _ hr0)
      have hnd2 : ∀ e2, mapGet (mapSet (mapSet st.list n { en with children := if en.children.map (fun cs => jsSetDelete cs c) = some [] then none else en.children.map (fun cs => jsSetDelete cs c) }) c { ec with parents := ec.parents.map (fun ps => jsSetDelete ps n) }) c = some e2 → (e2.parents.getD []).Nodup := by
        intro e2 he2
        rw [mapGet_mapSet_self] at he2
        cases Option.some.inj he2
        exact mapDel_nodup _ n hecnd
      rcases ensure_parents_sub _ c hroot2 hnd2 eb heb q hm with ⟨e0, he0, hz⟩ | hzr
      · rw [mapGet_mapSet_self] at he0
        cases Option.some.inj he0
        have hz2 : q ∈ ((ec.parents.map (fun ps => jsSetDelete ps n)).getD []) := hz
        rw [mapDel_mem] at hz2
        exact Or.inl ⟨⟨ec, hcg, hz2.1⟩, hz2.2⟩
      · exact Or.inr hzr

/-- bindChildNode records both directions of the bound pair at once: the
child-to-parent inclusion survives, and the bound pair's exception is
discharged. -/
theorem bind_coinc (st : GraphState) (c n : String) (Y : String → String → Prop)
    (h : InvOn st.rootName st.list (fun _ => False))
    (hco : CoIncUpTo st Y)
    (hnp : (mapGet st.list n).isSome) (hcp : (mapGet st.list c).isSome) :
    CoIncUpTo (bindChildNode st c n) (fun a b => Y a b ∧ ¬(a = n ∧ b = c)) := by
  obtain ⟨en, hn⟩ := Option.isSome_iff_exists.mp hnp
  obtain ⟨ec, hcg⟩ := Option.isSome_iff_exists.mp hcp
  obtain ⟨h1, h2, h3⟩ := h
  obtain ⟨r, hr, hrp⟩ := h2
  have hr0 : (mapGet st.list st.rootName).isSome := by rw [hr]; rfl
  by_cases hcn : c = n
  · subst hcn
    have hee : en = ec := by rw [hn] at hcg; exact Option.some.inj hcg
    subst hee
    rw [bind_eq_alias st c en hn]
    have hPpres : ∀ u v, EdgeP st u v →
        EdgeP { st with list := mapSet st.list c { en with children := some (jsSetInsert (en.children.getD []) c), parents := some (jsSetInsert (en.parents.getD []) c) } } u v := by
      intro u v huv
      obtain ⟨ev, hev, hm⟩ := huv
      by_cases hvc : v = c
      · have hgv : mapGet (mapSet st.list c { en with children := some (jsSetInsert (en.children.getD []) c), parents := some (jsSetInsert (en.parents.getD []) c) }) v = some { en with children := some (jsSetInsert (en.children.getD []) c), parents := some (jsSetInsert (en.parents.getD []) c) } := by
          rw [hvc, mapGet_mapSet_self]
        refine ⟨_, hgv, ?_⟩
        have heq : ev = en := by rw [hvc] at hev; rw [hev] at hn; exact Option.some.inj hn
        subst heq
        simp only [Option.getD_some, mem_jsSetInsert]
        exact Or.inl hm
      · have hgv : mapGet (mapSet st.list c { en with children := some (jsSetInsert (en.children.getD []) c), parents := some (jsSetInsert (en.parents.getD []) c) }) v = mapGet st.list v :=
          mapGet_mapSet_ne _ _ _ _ (fun hq => hvc hq.symm)
        exact ⟨ev, hgv.trans hev, hm⟩
    have hmid : CoIncUpTo { st with list := mapSet st.list c { en with children := some (jsSetInsert (en.children.getD []) c), parents := some (jsSetInsert (en.parents.getD []) c) } } (fun a b => Y a b ∧ ¬(a = c ∧ b = c)) := by
      intro a b hedge
      obtain ⟨ea, hea, hm⟩ := hedge
      rw [mapGet_mapSet] at hea
      by_cases hac : c = a
      · rw [if_pos hac] at hea
        cases Option.some.inj hea
        simp only [Option.getD_some, mem_jsSetInsert] at hm
        by_cases hbc : b = c
        · refine Or.inl ?_
          have hgb : mapGet (mapSet st.list c { en with children := some (jsSetInsert (en.children.getD []) c), parents := some (jsSetInsert (en.parents.getD []) c) }) b = some { en with children := some (jsSetInsert (en.children.getD []) c), parents := some (jsSetInsert (en.parents.getD []) c) } := by
            rw [hbc, mapGet_mapSet_self]
          refine ⟨_, hgb, ?_⟩
          simp only [Option.getD_some, mem_jsSetInsert]
          exact Or.inr hac.symm
        · rcases hm with hm | hm
          · have hCold : EdgeC st a b := ⟨en, by rw [← hac]; exact hn, hm⟩
            rcases hco a b hCold with hP | hY
            · exact Or.inl (hPpres a b hP)
            · exact Or.inr ⟨hY, fun hq => hbc hq.2⟩
          · exact absurd hm hbc
      · rw [if_neg hac] at hea
        have hCold : EdgeC st a b := ⟨ea, hea, hm⟩
        rcases hco a b hCold with hP | hY
        · exact Or.inl (hPpres a b hP)
        · exact Or.inr ⟨hY, fun hq => hac hq.1.symm⟩
    have hroot2 : (mapGet (mapSet st.list c
        { en with children := some (jsSetInsert (en.children.getD []) c),
                  parents := some (jsSetInsert (en.parents.getD []) c) }) st.rootName).isSome :=
      isSome_mapGet_mapSet _ _ _ _ hr0
    have hnd2 : ∀ e2, mapGet (mapSet st.list c
        { en with children := some (jsSetInsert (en.children.getD []) c),
                  parents := some (jsSetInsert (en.parents.getD []) c) }) c = some e2 →
        (e2.parents.getD []).Nodup := by
      intro e2 he2
      rw [mapGet_mapSet_self] at he2
      cases Option.some.inj he2
      obtain ⟨hn1, -, -, -⟩ := h3 c en hn
      simpa using jsSetInsert_nodup _ c hn1
    exact ensure_coinc _ c _ hroot2 hnd2 hmid
  · rw [bind_eq st c n en ec hn hcg hcn]
    have hPpres : ∀ u v, EdgeP st u v →
        EdgeP { st with list := mapSet (mapSet st.list n { en with children := some (jsSetInsert (en.children.getD []) c) }) c { ec with parents := some (jsSetInsert (ec.parents.getD []) n) } } u v := by
      intro u v huv
      obtain ⟨ev, hev, hm⟩ := huv
      have hgv := mapGet_mapSet2 st.list n c v
        { en with children := some (jsSetInsert (en.children.getD []) c) }
        { ec with parents := some (jsSetInsert (ec.parents.getD []) n) }
      by_cases hvc : v = c
      · rw [if_pos hvc] at hgv
        refine ⟨_, hgv, ?_⟩
        have heq : ev = ec := by rw [hvc] at hev; rw [hev] at hcg; exact Option.some.inj hcg
        subst heq
        simp only [Option.getD_some, mem_jsSetInsert]
        exact Or.inl hm
      · rw [if_neg hvc] at hgv
        by_cases hvn : v = n
        · rw [if_pos hvn] at hgv
          refine ⟨_, hgv, ?_⟩
          have heq : ev = en := by rw [hvn] at hev; rw [hev] at hn; exact Option.some.inj hn
          subst heq
          exact hm
        · rw [if_neg hvn] at hgv
          rw [hev] at hgv
          exact ⟨ev, hgv, hm⟩
    have hmid : CoIncUpTo { st with list := mapSet (mapSet st.list n { en with children := some (jsSetInsert (en.children.getD []) c) }) c { ec with parents := some (jsSetInsert (ec.parents.getD []) n) } } (fun a b => Y a b ∧ ¬(a = n ∧ b = c)) := by
      intro a b hedge
      obtain ⟨ea, hea, hm⟩ := hedge
      rw [mapGet_mapSet2] at hea
      by_cases hac : a = c
      · rw [if_pos hac] at hea
        cases Option.some.inj hea
        have hCold : EdgeC st a b := ⟨ec, by rw [hac]; exact hcg, hm⟩
        rcases hco a b hCold with hP | hY
        · exact Or.inl (hPpres a b hP)
        · exact Or.inr ⟨hY, fun hq => hcn (hac.symm.trans hq.1)⟩
      · rw [if_neg hac] at hea
        by_cases han : a = n
        · rw [if_pos han] at hea
          cases Option.some.inj hea
          simp only [Option.getD_some, mem_jsSetInsert] at hm
          by_cases hbc : b = c
          · refine Or.inl ?_
            have hgb : mapGet (mapSet (mapSet st.list n { en with children := some (jsSetInsert (en.children.getD []) c) }) c { ec with parents := some (jsSetInsert (ec.parents.getD []) n) }) b = some { ec with parents := some (jsSetInsert (ec.parents.getD []) n) } := by
              rw [mapGet_mapSet2, if_pos hbc]
            refine ⟨_, hgb, ?_⟩
            simp only [Option.getD_some, mem_jsSetInsert]
            exact Or.inr han
          · rcases hm with hm | hm
            · have hCold : EdgeC st a b := ⟨en, by rw [han]; exact hn, hm⟩
              rcases hco a b hCold with hP | hY
              · exact Or.inl (hPpres a b hP)
              · exact Or.inr ⟨hY, fun hq => hbc hq.2⟩
            · exact absurd hm hbc
        · rw [if_neg han] at hea
          have hCold : EdgeC st a b := ⟨ea, hea, hm⟩
          rcases hco a b hCold with hP | hY
          · exact Or.inl (hPpres a b hP)
          · exact Or.inr ⟨hY, fun hq => han hq.1⟩
    have hroot2 : (mapGet (mapSet (mapSet st.list n
        { en with children := some (jsSetInsert (en.children.getD []) c) }) c
        { ec with parents := some (jsSetInsert (ec.parents.getD []) n) }) st.rootName).isSome :=
      isSome_mapGet_mapSet _ _ _ _ (isSome_mapGet_mapSet _ _ _ _ hr0)
    have hnd2 : ∀ e2, mapGet (mapSet (mapSet st.list n
        { en with children := some (jsSetInsert (en.children.getD []) c) }) c
        { ec with parents := some (jsSetInsert (ec.parents.getD []) n) }) c = some e2 →
        (e2.parents.getD []).Nodup := by
      intro e2 he2
      rw [mapGet_mapSet_self] at he2
      cases Option.some.inj he2
      obtain ⟨hc1, -, -, -⟩ := h3 c ec hcg
      simpa using jsSetInsert_nodup _ n hc1
    exact ensure_coinc _ c _ hroot2 hnd2 hmid

/-- unbindChildNode removes the pair `n → c` from both sides together, so
the child-to-parent inclusion is untouched. -/
theorem unbind_coinc (st : GraphState) (c n : String) (Y : String → String → Prop)
    (h : InvOn st.rootName st.list (fun _ => False))
    (hco : CoIncUpTo st Y) :
    CoIncUpTo (unbindChildNode st c n) Y := by
  cases hn : mapGet st.list n with
  | none => rw [unbind_eq_missing st c n (Or.inl hn)]; exact hco
  | some en =>
  cases hcg : mapGet st.list c with
  | none => rw [unbind_eq_missing st c n (Or.inr hcg)]; exact hco
  | some ec =>
    obtain ⟨h1, h2, h3⟩ := h
    obtain ⟨r, hr, hrp⟩ := h2
    have hr0 : (mapGet st.list st.rootName).isSome := by rw [hr]; rfl
    by_cases hcn : c = n
    · subst hcn
      have hee : en = ec := by rw [hn] at hcg; exact Option.some.inj hcg
      subst hee
      have hmid : CoIncUpTo { st with list := mapSet st.list c { en with children := if en.children.map (fun cs => jsSetDelete cs c) = some [] then none else en.children.map (fun cs => jsSetDelete cs c), parents := en.parents.map (fun ps => jsSetDelete ps c) } } Y := by
        have hPpres : ∀ u v, EdgeP st u v → (v = c → u ≠ c) →
            EdgeP { st with list := mapSet st.list c { en with children := if en.children.map (fun cs => jsSetDelete cs c) = some [] then none else en.children.map (fun cs => jsSetDelete cs c), parents := en.parents.map (fun ps => jsSetDelete ps c) } } u v := by
          intro u v huv hguard
          obtain ⟨ev, hev, hmm⟩ := huv
          by_cases hvc : v = c
          · have hgv : mapGet (mapSet st.list c { en with children := if en.children.map (fun cs => jsSetDelete cs c) = some [] then none else en.children.map (fun cs => jsSetDelete cs c), parents := en.parents.map (fun ps => jsSetDelete ps c) }) v = some { en with children := if en.children.map (fun cs => jsSetDelete cs c) = some [] then none else en.children.map (fun cs => jsSetDelete cs c), parents := en.parents.map (fun ps => jsSetDelete ps c) } := by
              rw [hvc, mapGet_mapSet_self]
            refine ⟨_, hgv, ?_⟩
            have heq : ev = en := by rw [hvc] at hev; rw [hev] at hn; exact Option.some.inj hn
            subst heq
            exact (mapDel_mem _ _ _).mpr ⟨hmm, hguard hvc⟩
          · have hgv : mapGet (mapSet st.list c { en with children := if en.children.map (fun cs => jsSetDelete cs c) = some [] then none else en.children.map (fun cs => jsSetDelete cs c), parents := en.parents.map (fun ps => jsSetDelete ps c) }) v = mapGet st.list v :=
              mapGet_mapSet_ne _ _ _ _ (fun hq => hvc hq.symm)
            exact ⟨ev, hgv.trans hev, hmm⟩
        intro a b hedge
        obtain ⟨ea, hea, hm⟩ := hedge
        rw [mapGet_mapSet] at hea
        by_cases hac : c = a
        · rw [if_pos hac] at hea
          cases Option.some.inj hea
          have hm0 : b ∈ ((if en.children.map (fun cs => jsSetDelete cs c) = some [] then none else en.children.map (fun cs => jsSetDelete cs c)).getD []) := hm
          have hm2 := (normDel_mem _ _ _).mp hm0
          have hCold : EdgeC st a b := ⟨en, by rw [← hac]; exact hn, hm2.1⟩
          rcases hco a b hCold with hP | hY
          · exact Or.inl (hPpres a b hP (fun hq => absurd hq hm2.2))
          · exact Or.inr hY
        · rw [if_neg hac] at hea
          have hCold : EdgeC st a b := ⟨ea, hea, hm⟩
          rcases hco a b hCold with hP | hY
          · exact Or.inl (hPpres a b hP (fun _ => fun hq2 => hac hq2.symm))
          · exact Or.inr hY
      by_cases hcr : c = st.rootName
      · rw [unbind_eq_alias_root st c en hcg hcr]
        exact hmid
      · rw [unbind_eq_alias st c en hcg hcr]
        have hroot2 : (mapGet (mapSet st.list c { en with children := if en.children.map (fun cs => jsSetDelete cs c) = some [] then none else en.children.map (fun cs => jsSetDelete cs c), parents := en.parents.map (fun ps => jsSetDelete ps c) }) st.rootName).isSome :=
          isSome_mapGet_mapSet _ _ _ _ hr0
        have hnd2 : ∀ e2, mapGet (mapSet st.list c { en with children := if en.children.map (fun cs => jsSetDelete cs c) = some [] then none else en.children.map (fun cs => jsSetDelete cs c), parents := en.parents.map (fun ps => jsSetDelete ps c) }) c = some e2 →
            (e2.parents.getD []).Nodup := by
          intro e2 he2
          rw [mapGet_mapSet_self] at he2
          cases Option.some.inj he2
          obtain ⟨hc1, -, -, -⟩ := h3 c en hn
          exact mapDel_nodup _ c hc1
        exact ensure_coinc _ c _ hroot2 hnd2 hmid
    · have hmid : CoIncUpTo { st with list := mapSet (mapSet st.list n { en with children := if en.children.map (fun cs => jsSetDelete cs c) = some [] then none else en.children.map (fun cs => jsSetDelete cs c) }) c { ec with parents := ec.parents.map (fun ps => jsSetDelete ps n) } } Y := by
        have hPpres : ∀ u v, EdgeP st u v → (v = c → u ≠ n) →
            EdgeP { st with list := mapSet (mapSet st.list n { en with children := if en.children.map (fun cs => jsSetDelete cs c) = some [] then none else en.children.map (fun cs => jsSetDelete cs c) }) c { ec with parents := ec.parents.map (fun ps => jsSetDelete ps n) } } u v := by
          intro u v huv hguard
          obtain ⟨ev, hev, hmm⟩ := huv
          have hgv := mapGet_mapSet2 st.list n c v
            { en with children := if en.children.map (fun cs => jsSetDelete cs c) = some [] then none else en.children.map (fun cs => jsSetDelete cs c) }
            { ec with parents := ec.parents.map (fun ps => jsSetDelete ps n) }
          by_cases hvc : v = c
          · rw [if_pos hvc] at hgv
            refine ⟨_, hgv, ?_⟩
            have heq : ev = ec := by rw [hvc] at hev; rw [hev] at hcg; exact Option.some.inj hcg
            subst heq
            exact (mapDel_mem _ _ _).mpr ⟨hmm, hguard hvc⟩
          · rw [if_neg hvc] at hgv
            by_cases hvn : v = n
            · rw [if_pos hvn] at hgv
              refine ⟨_, hgv, ?_⟩
              have heq : ev = en := by rw [hvn] at hev; rw [hev] at hn; exact Option.some.inj hn
              subst heq
              exact hmm
            · rw [if_neg hvn] at hgv
              rw [hev] at hgv
              exact ⟨ev, hgv, hmm⟩
        intro a b hedge
        obtain ⟨ea, hea, hm⟩ := hedge
        rw [mapGet_mapSet2] at hea
        by_cases hac : a = c
        · rw [if_pos hac] at hea
          cases Option.some.inj hea
          have hCold : EdgeC st a b := ⟨ec, by rw [hac]; exact hcg, hm⟩
          rcases hco a b hCold with hP | hY
          · exact Or.inl (hPpres a b hP (fun _ => fun hq2 => hcn (hac.symm.trans hq2)))
          · exact Or.inr hY
        · rw [if_neg hac] at hea
          by_cases han : a = n
          · rw [if_pos han] at hea
            cases Option.some.inj hea
            have hm0 : b ∈ ((if en.children.map (fun cs => jsSetDelete cs c) = some [] then none else en.children.map (fun cs => jsSetDelete cs c)).getD []) := hm
            have hm2 := (normDel_mem _ _ _).mp hm0
            have hCold : EdgeC st a b := ⟨en, by rw [han]; exact hn, hm2.1⟩
            rcases hco a b hCold with hP | hY
            · exact Or.inl (hPpres a b hP (fun hq => absurd hq hm2.2))
            · exact Or.inr hY
          · rw [if_neg han] at hea
            have hCold : EdgeC st a b := ⟨ea, hea, hm⟩
            rcases hco a b hCold with hP | hY
            · exact Or.inl (hPpres a b hP (fun _ => han))
            · exact Or.inr hY
      by_cases hnr : n = st.rootName
      · rw [unbind_eq_root st c n en ec hn hcg (fun hq => hcn hq) hnr]
        exact hmid
      · rw [unbind_eq st c n en ec hn hcg (fun hq => hcn hq) hnr]
        have hroot2 : (mapGet (mapSet (mapSet st.list n { en with children := if en.children.map (fun cs => jsSetDelete cs c) = some [] then none else en.children.map (fun cs => jsSetDelete cs c) }) c { ec with parents := ec.parents.map (fun ps => jsSetDelete ps n) }) st.rootName).isSome :=
          isSome_mapGet_mapSet _ _ _ _ (isSome_mapGet_mapSet _ _ _ _ hr0)
        have hnd2 : ∀ e2, mapGet (mapSet (mapSet st.list n { en with children := if en.children.map (fun cs => jsSetDelete cs c) = some [] then none else en.children.map (fun cs => jsSetDelete cs c) }) c { ec with parents := ec.parents.map (fun ps => jsSetDelete ps n) }) c = some e2 →
            (e2.parents.getD []).Nodup := by
          intro e2 he2
          rw [mapGet_mapSet_self] at he2
          cases Option.some.inj he2
          obtain ⟨hc1, -, -, -⟩ := h3 c ec hcg
          exact mapDel_nodup _ n hc1
        exact ensure_coinc _ c _ hroot2 hnd2 hmid

/-- The combined well-formedness invariant for C2: structural invariant with
no parent-emptiness demands, the two edge records mutually included (so the
parent and child directions agree), and the child graph acyclic. -/
def GraphWF (st : GraphState) : Prop :=
  InvOn st.rootName st.list (fun _ => False) ∧
  IncUpTo st (fun _ _ => False) ∧
  CoIncUpTo st (fun _ _ => False) ∧
  AcyclicC st

theorem wf_intro (X : GraphState) (root0 : String) (hr : X.rootName = root0)
    (hinv : InvOn root0 X.list (fun _ => False))
    (hinc : IncUpTo X (fun _ _ => False)) (hco : CoIncUpTo X (fun _ _ => False))
    (hacyc : AcyclicC X) : GraphWF X := by
  refine ⟨?_, hinc, hco, hacyc⟩
  rw [hr]
  exact hinv

/-- The parents fold of addNode: binding the fresh node under each declared
parent mirrors the pre-recorded parent edges one by one. -/
theorem bindP_fold (root0 name : String) (hnr : name ≠ root0) :
    ∀ (l : List String) (Y : String → String → Prop) (s : GraphState),
      s.rootName = root0 →
      InvOn root0 s.list (fun _ => False) →
      (mapGet s.list name).isSome →
      (∀ p ∈ l, (mapGet s.list p).isSome) →
      IncUpTo s (fun a b => a ∈ l ∧ b = name) →
      CoIncUpTo s Y →
      InvOn root0 (l.foldl (fun s2 p => bindChildNode s2 name p) s).list (fun _ => False) ∧
      (l.foldl (fun s2 p => bindChildNode s2 name p) s).rootName = root0 ∧
      (∀ k, (mapGet (l.foldl (fun s2 p => bindChildNode s2 name p) s).list k).isSome
          = (mapGet s.list k).isSome) ∧
      IncUpTo (l.foldl (fun s2 p => bindChildNode s2 name p) s) (fun _ _ => False) ∧
      CoIncUpTo (l.foldl (fun s2 p => bindChildNode s2 name p) s) Y ∧
      (∀ a b, EdgeC (l.foldl (fun s2 p => bindChildNode s2 name p) s) a b →
        EdgeC s a b ∨ ((a ∈ l ∨ a = root0) ∧ b = name)) := by
  intro l
  induction l with
  | nil =>
    intro Y s hsr hinv hnp hpp hinc hco
    exact ⟨hinv, hsr, fun k => rfl,
      inc_mono _ _ _ hinc (fun a b hx => absurd hx.1 (List.not_mem_nil a)),
      hco, fun a b he => Or.inl he⟩
  | cons p t ih =>
    intro Y s hsr hinv hnp hpp hinc hco
    rw [List.foldl_cons]
    have hinv' : InvOn s.rootName s.list (fun _ => False) := by rw [hsr]; exact hinv
    have hppres : (mapGet s.list p).isSome := hpp p (List.mem_cons_self _ _)
    have hstep_inv : InvOn root0 (bindChildNode s name p).list (fun _ => False) := by
      have hb := bind_invOn s name p (fun _ => False) hinv' (by rw [hsr]; exact hnr)
      rwa [hsr] at hb
    have hstep_root : (bindChildNode s name p).rootName = root0 := by
      rw [bindChildNode_rootName, hsr]
    have hstep_has : ∀ k, (mapGet (bindChildNode s name p).list k).isSome
        = (mapGet s.list k).isSome := fun k => bind_has s name p k
    have hstep_inc : IncUpTo (bindChildNode s name p) (fun a b => a ∈ t ∧ b = name) := by
      refine inc_mono _ _ _ (bind_inc s name p _ hinv' hinc hppres hnp) ?_
      rintro a b ⟨⟨hmem, hbn⟩, hneq⟩
      rcases List.mem_cons.mp hmem with heqp | hmem2
      · exact absurd ⟨heqp, hbn⟩ hneq
      · exact ⟨hmem2, hbn⟩
    have hstep_co : CoIncUpTo (bindChildNode s name p) Y :=
      coinc_mono _ _ _ (bind_coinc s name p Y hinv' hco hppres hnp)
        (fun a b hx => hx.1)
    have hstep_pp : ∀ q ∈ t, (mapGet (bindChildNode s name p).list q).isSome := by
      intro q hq
      rw [hstep_has]
      exact hpp q (List.mem_cons_of_mem _ hq)
    have hstep_np : (mapGet (bindChildNode s name p).list name).isSome := by
      rw [hstep_has]
      exact hnp
    obtain ⟨c1, c2, c3, c4, c5, c6⟩ := ih Y (bindChildNode s name p) hstep_root
      hstep_inv hstep_np hstep_pp hstep_inc hstep_co
    refine ⟨c1, c2, ?_, c4, c5, ?_⟩
    · intro k
      rw [c3 k, hstep_has]
    · intro a b he
      rcases c6 a b he with he2 | ⟨hmem, hbn⟩
      · rcases bind_edgeC_sub s name p hinv' a b he2 with h3 | ⟨han, hbn2⟩ | ⟨har, hbn2⟩
        · exact Or.inl h3
        · exact Or.inr ⟨Or.inl (by rw [han]; exact List.mem_cons_self p t), hbn2⟩
        · exact Or.inr ⟨Or.inr (har.trans hsr), hbn2⟩
      · rcases hmem with hmem | hmem
        · exact Or.inr ⟨Or.inl (List.mem_cons_of_mem _ hmem), hbn⟩
        · exact Or.inr ⟨Or.inr hmem, hbn⟩

/-- The children fold of addNode: binding each declared child under the fresh
node mirrors the pre-recorded child edges one by one. -/
theorem bindC_fold (root0 name : String) :
    ∀ (l : List String) (s : GraphState),
      s.rootName = root0 →
      InvOn root0 s.list (fun _ => False) →
      (mapGet s.list name).isSome →
      (∀ c ∈ l, (mapGet s.list c).isSome ∧ c ≠ root0) →
      IncUpTo s (fun _ _ => False) →
      CoIncUpTo s (fun a b => a = name ∧ b ∈ l) →
      InvOn root0 (l.foldl (fun s2 c => bindChildNode s2 c name) s).list (fun _ => False) ∧
      (l.foldl (fun s2 c => bindChildNode s2 c name) s).rootName = root0 ∧
      (∀ k, (mapGet (l.foldl (fun s2 c => bindChildNode s2 c name) s).list k).isSome
          = (mapGet s.list k).isSome) ∧
      IncUpTo (l.foldl (fun s2 c => bindChildNode s2 c name) s) (fun _ _ => False) ∧
      CoIncUpTo (l.foldl (fun s2 c => bindChildNode s2 c name) s) (fun _ _ => False) ∧
      (∀ a b, EdgeC (l.foldl (fun s2 c => bindChildNode s2 c name) s) a b →
        EdgeC s a b ∨ ((a = name ∨ a = root0) ∧ b ∈ l)) := by
  intro l
  induction l with
  | nil =>
    intro s hsr hinv hnp hcl hinc hco
    exact ⟨hinv, hsr, fun k => rfl, hinc,
      coinc_mono _ _ _ hco (fun a b hx => absurd hx.2 (List.not_mem_nil b)),
      fun a b he => Or.inl he⟩
  | cons ch t ih =>
    intro s hsr hinv hnp hcl hinc hco
    rw [List.foldl_cons]
    have hinv' : InvOn s.rootName s.list (fun _ => False) := by rw [hsr]; exact hinv
    have hchpres : (mapGet s.list ch).isSome := (hcl ch (List.mem_cons_self _ _)).1
    have hchroot : ch ≠ root0 := (hcl ch (List.mem_cons_self _ _)).2
    have hstep_inv : InvOn root0 (bindChildNode s ch name).list (fun _ => False) := by
      have hb := bind_invOn s ch name (fun _ => False) hinv' (by rw [hsr]; exact hchroot)
      rwa [hsr] at hb
    have hstep_root : (bindChildNode s ch name).rootName = root0 := by
      rw [bindChildNode_rootName, hsr]
    have hstep_has : ∀ k, (mapGet (bindChildNode s ch name).list k).isSome
        = (mapGet s.list k).isSome := fun k => bind_has s ch name k
    have hstep_inc : IncUpTo (bindChildNode s ch name) (fun _ _ => False) :=
      inc_mono _ _ _ (bind_inc s ch name _ hinv' hinc hnp hchpres)
        (fun a b hx => hx.1)
    have hstep_co : CoIncUpTo (bindChildNode s ch name) (fun a b => a = name ∧ b ∈ t) := by
      refine coinc_mono _ _ _ (bind_coinc s ch name _ hinv' hco hnp hchpres) ?_
      rintro a b ⟨⟨han, hbmem⟩, hneq⟩
      rcases List.mem_cons.mp hbmem with heqc | hmem2
      · exact absurd ⟨han, heqc⟩ hneq
      · exact ⟨han, hmem2⟩
    have hstep_cl : ∀ c2 ∈ t, (mapGet (bindChildNode s ch name).list c2).isSome ∧ c2 ≠ root0 := by
      intro c2 hc2
      rw [hstep_has]
      exact hcl c2 (List.mem_cons_of_mem _ hc2)
    have hstep_np : (mapGet (bindChildNode s ch name).list name).isSome := by
      rw [hstep_has]
      exact hnp
    obtain ⟨c1, c2, c3, c4, c5, c6⟩ := ih (bindChildNode s ch name) hstep_root
      hstep_inv hstep_np hstep_cl hstep_inc hstep_co
    refine ⟨c1, c2, ?_, c4, c5, ?_⟩
    · intro k
      rw [c3 k, hstep_has]
    · intro a b he
      rcases c6 a b he with he2 | ⟨ha2, hbmem⟩
      · rcases bind_edgeC_sub s ch name hinv' a b he2 with h3 | ⟨han, hbc⟩ | ⟨har, hbc⟩
        · exact Or.inl h3
        · exact Or.inr ⟨Or.inl han, by rw [hbc]; exact List.mem_cons_self ch t⟩
        · exact Or.inr ⟨Or.inr (har.trans hsr), by rw [hbc]; exact List.mem_cons_self ch t⟩
      · exact Or.inr ⟨ha2, List.mem_cons_of_mem _ hbmem⟩

/-- The mutation phase of addNode with no declared children preserves the
well-formedness bundle. -/
theorem addNode_mut_WF_none (st : GraphState) (name : String) (duration : Int)
    (ps : List String) (color : Nat) (start : Option Int)
    (hwf : GraphWF st)
    (hfresh : mapGet st.list name = none)
    (hname : name ≠ st.rootName)
    (hpsp : ∀ p ∈ ps, (mapGet st.list p).isSome ∧ name ≠ p) :
    GraphWF (ps.foldl (fun s p => bindChildNode s name p)
      { st with list := mapSet st.list name { name := name, duration := duration, parents := Option.map jsSetOfList (some ps), children := Option.map jsSetOfList (none : Option (List String)), color := color, start := start } }) := by
  obtain ⟨hinv, hinc, hco, hacyc⟩ := hwf
  have hr0 : (mapGet st.list st.rootName).isSome := invW_root_isSome _ _ hinv
  have hg1 : ∀ k, mapGet (mapSet st.list name { name := name, duration := duration, parents := Option.map jsSetOfList (some ps), children := Option.map jsSetOfList (none : Option (List String)), color := color, start := start }) k = if name = k then some { name := name, duration := duration, parents := Option.map jsSetOfList (some ps), children := Option.map jsSetOfList (none : Option (List String)), color := color, start := start } else mapGet st.list k :=
    fun k => mapGet_mapSet st.list name k _
  have hst1_inv : InvOn st.rootName (mapSet st.list name { name := name, duration := duration, parents := Option.map jsSetOfList (some ps), children := Option.map jsSetOfList (none : Option (List String)), color := color, start := start }) (fun _ => False) := by
    refine invOn_set st.rootName st.list (fun _ => False) (fun _ => False) name _ hinv
      (fun hcon => absurd hcon hname) ?_ ?_ ?_ ?_ (fun k hk _ => hk)
    · simpa using jsSetOfList_nodup ps
    · simp
    · simp
    · exact fun _ => ⟨jsSetOfList ps, rfl, fun hf => hf.elim⟩
  have hst1_np : (mapGet (mapSet st.list name { name := name, duration := duration, parents := Option.map jsSetOfList (some ps), children := Option.map jsSetOfList (none : Option (List String)), color := color, start := start }) name).isSome := by
    rw [mapGet_mapSet_self]
    rfl
  have hst1_pp : ∀ p ∈ ps, (mapGet (mapSet st.list name { name := name, duration := duration, parents := Option.map jsSetOfList (some ps), children := Option.map jsSetOfList (none : Option (List String)), color := color, start := start }) p).isSome := by
    intro p hp
    rw [hg1 p, if_neg ((hpsp p hp).2)]
    exact (hpsp p hp).1
  have hst1_inc : IncUpTo { st with list := mapSet st.list name { name := name, duration := duration, parents := Option.map jsSetOfList (some ps), children := Option.map jsSetOfList (none : Option (List String)), color := color, start := start } } (fun a b => a ∈ ps ∧ b = name) := by
    intro a b hedge
    obtain ⟨eb, heb, hm⟩ := hedge
    rw [hg1 b] at heb
    by_cases hbn : name = b
    · rw [if_pos hbn] at heb
      cases Option.some.inj heb
      refine Or.inr ⟨(mem_jsSetOfList ps a).mp (by simpa using hm), hbn.symm⟩
    · rw [if_neg hbn] at heb
      have hPold : EdgeP st a b := ⟨eb, heb, hm⟩
      rcases hinc a b hPold with hC | hF
      · obtain ⟨ea, hea, hm2⟩ := hC
        have hanb : name ≠ a := fun hq => by rw [← hq] at hea; rw [hfresh] at hea; cases hea
        exact Or.inl ⟨ea, by rw [hg1 a, if_neg hanb]; exact hea, hm2⟩
      · cases hF
  have hst1_co : CoIncUpTo { st with list := mapSet st.list name { name := name, duration := duration, parents := Option.map jsSetOfList (some ps), children := Option.map jsSetOfList (none : Option (List String)), color := color, start := start } } (fun _ _ => False) := by
    intro a b hedge
    obtain ⟨ea, hea, hm⟩ := hedge
    rw [hg1 a] at hea
    by_cases han : name = a
    · rw [if_pos han] at hea
      cases Option.some.inj hea
      simp at hm
    · rw [if_neg han] at hea
      have hCold : EdgeC st a b := ⟨ea, hea, hm⟩
      rcases hco a b hCold with hP | hF
      · obtain ⟨eb, heb, hm2⟩ := hP
        have hbnb : name ≠ b := fun hq => by rw [← hq] at heb; rw [hfresh] at heb; cases heb
        exact Or.inl ⟨eb, by rw [hg1 b, if_neg hbnb]; exact heb, hm2⟩
      · cases hF
  have hst1_char : ∀ a b, EdgeC { st with list := mapSet st.list name { name := name, duration := duration, parents := Option.map jsSetOfList (some ps), children := Option.map jsSetOfList (none : Option (List String)), color := color, start := start } } a b → EdgeC st a b := by
    intro a b hedge
    obtain ⟨ea, hea, hm⟩ := hedge
    rw [hg1 a] at hea
    by_cases han : name = a
    · rw [if_pos han] at hea
      cases Option.some.inj hea
      simp at hm
    · rw [if_neg han] at hea
      exact ⟨ea, hea, hm⟩
  obtain ⟨p1, p2, p3, p4, p5, p6⟩ := bindP_fold st.rootName name hname ps
    (fun _ _ => False)
    { st with list := mapSet st.list name { name := name, duration := duration, parents := Option.map jsSetOfList (some ps), children := Option.map jsSetOfList (none : Option (List String)), color := color, start := start } }
    rfl hst1_inv hst1_np hst1_pp hst1_inc hst1_co
  refine wf_intro _ st.rootName p2 p1 p4 p5 ?_
  have hiso1 : ∀ a, ¬ EdgeC st a name := by
    intro a hC
    rcases hco a name hC with hP | hF
    · obtain ⟨eb, heb, -⟩ := hP
      rw [hfresh] at heb
      cases heb
    · cases hF
  have hiso2 : ∀ b, ¬ EdgeC st name b := by
    intro b hC
    obtain ⟨ea, hea, -⟩ := hC
    rw [hfresh] at hea
    cases hea
  have hPx : ¬ name ∈ ps := fun hq => (hpsp name hq).2 rfl
  have hrel1 : ∀ a, ¬ Relation.TransGen
      (fun u v => EdgeC st u v ∨ (u ∈ ps ∧ v = name) ∨ (u = name ∧ False)) a a :=
    acyclic_newnode (EdgeC st) name (fun u => u ∈ ps) (fun _ => False) hacyc
      hiso1 hiso2 hPx (fun hf => hf) (fun c2 p hc2 => hc2.elim)
  refine acyclic_sim_root _ _ st.rootName ?_ (invW_no_edge_to_root st.rootName _ p1) hrel1
  intro a b hab
  rcases p6 a b hab with he2 | ⟨hmem, hbn⟩
  · exact Or.inl (Relation.TransGen.single (Or.inl (hst1_char a b he2)))
  · rcases hmem with hmem | hmem
    · exact Or.inl (Relation.TransGen.single (Or.inr (Or.inl ⟨hmem, hbn⟩)))
    · exact Or.inr hmem

/-- The mutation phase of addNode with declared children preserves the
well-formedness bundle, given that no declared child reaches a declared
parent in the old graph (the findLoop guarantee). -/
theorem addNode_mut_WF_some (st : GraphState) (name : String) (duration : Int)
    (ps cs : List String) (color : Nat) (start : Option Int)
    (hwf : GraphWF st)
    (hfresh : mapGet st.list name = none)
    (hname : name ≠ st.rootName)
    (hpsp : ∀ p ∈ ps, (mapGet st.list p).isSome ∧ name ≠ p)
    (hcsp : ∀ c2 ∈ cs, (mapGet st.list c2).isSome ∧ name ≠ c2 ∧ c2 ≠ st.rootName)
    (hnp2 : ∀ c2 ∈ cs, ∀ p ∈ ps, ¬ Relation.ReflTransGen (EdgeC st) c2 p) :
    GraphWF (cs.foldl (fun s c2 => bindChildNode s c2 name)
      (ps.foldl (fun s p => bindChildNode s name p)
        { st with list := mapSet st.list name { name := name, duration := duration, parents := Option.map jsSetOfList (some ps), children := Option.map jsSetOfList (some cs), color := color, start := start } })) := by
  obtain ⟨hinv, hinc, hco, hacyc⟩ := hwf
  have hr0 : (mapGet st.list st.rootName).isSome := invW_root_isSome _ _ hinv
  have hg1 : ∀ k, mapGet (mapSet st.list name { name := name, duration := duration, parents := Option.map jsSetOfList (some ps), children := Option.map jsSetOfList (some cs), color := color, start := start }) k = if name = k then some { name := name, duration := duration, parents := Option.map jsSetOfList (some ps), children := Option.map jsSetOfList (some cs), color := color, start := start } else mapGet st.list k :=
    fun k => mapGet_mapSet st.list name k _
  have hst1_inv : InvOn st.rootName (mapSet st.list name { name := name, duration := duration, parents := Option.map jsSetOfList (some ps), children := Option.map jsSetOfList (some cs), color := color, start := start }) (fun _ => False) := by
    refine invOn_set st.rootName st.list (fun _ => False) (fun _ => False) name _ hinv
      (fun hcon => absurd hcon hname) ?_ ?_ ?_ ?_ (fun k hk _ => hk)
    · simpa using jsSetOfList_nodup ps
    · simpa using jsSetOfList_nodup cs
    · simp only [Option.map_some', Option.getD_some]
      intro hcon
      exact (hcsp st.rootName ((mem_jsSetOfList cs _).mp hcon)).2.2 rfl
    · exact fun _ => ⟨jsSetOfList ps, rfl, fun hf => hf.elim⟩
  have hst1_np : (mapGet (mapSet st.list name { name := name, duration := duration, parents := Option.map jsSetOfList (some ps), children := Option.map jsSetOfList (some cs), color := color, start := start }) name).isSome := by
    rw [mapGet_mapSet_self]
    rfl
  have hst1_pp : ∀ p ∈ ps, (mapGet (mapSet st.list name { name := name, duration := duration, parents := Option.map jsSetOfList (some ps), children := Option.map jsSetOfList (some cs), color := color, start := start }) p).isSome := by
    intro p hp
    rw [hg1 p, if_neg ((hpsp p hp).2)]
    exact (hpsp p hp).1
  have hst1_cp : ∀ c2 ∈ cs, (mapGet (mapSet st.list name { name := name, duration := duration, parents := Option.map jsSetOfList (some ps), children := Option.map jsSetOfList (some cs), color := color, start := start }) c2).isSome ∧ c2 ≠ st.rootName := by
    intro c2 hc2
    refine ⟨?_, (hcsp c2 hc2).2.2⟩
    rw [hg1 c2, if_neg ((hcsp c2 hc2).2.1)]
    exact (hcsp c2 hc2).1
  have hst1_inc : IncUpTo { st with list := mapSet st.list name { name := name, duration := duration, parents := Option.map jsSetOfList (some ps), children := Option.map jsSetOfList (some cs), color := color, start := start } } (fun a b => a ∈ ps ∧ b = name) := by
    intro a b hedge
    obtain ⟨eb, heb, hm⟩ := hedge
    rw [hg1 b] at heb
    by_cases hbn : name = b
    · rw [if_pos hbn] at heb
      cases Option.some.inj heb
      refine Or.inr ⟨(mem_jsSetOfList ps a).mp (by simpa using hm), hbn.symm⟩
    · rw [if_neg hbn] at heb
      have hPold : EdgeP st a b := ⟨eb, heb, hm⟩
      rcases hinc a b hPold with hC | hF
      · obtain ⟨ea, hea, hm2⟩ := hC
        have hanb : name ≠ a := fun hq => by rw [← hq] at hea; rw [hfresh] at hea; cases hea
        exact Or.inl ⟨ea, by rw [hg1 a, if_neg hanb]; exact hea, hm2⟩
      · cases hF
  have hst1_co : CoIncUpTo { st with list := mapSet st.list name { name := name, duration := duration, parents := Option.map jsSetOfList (some ps), children := Option.map jsSetOfList (some cs), color := color, start := start } } (fun a b => a = name ∧ b ∈ cs) := by
    intro a b hedge
    obtain ⟨ea, hea, hm⟩ := hedge
    rw [hg1 a] at hea
    by_cases han : name = a
    · rw [if_pos han] at hea
      cases Option.some.inj hea
      exact Or.inr ⟨han.symm, (mem_jsSetOfList cs b).mp (by simpa using hm)⟩
    · rw [if_neg han] at hea
      have hCold : EdgeC st a b := ⟨ea, hea, hm⟩
      rcases hco a b hCold with hP | hF
      · obtain ⟨eb, heb, hm2⟩ := hP
        have hbnb : name ≠ b := fun hq => by rw [← hq] at heb; rw [hfresh] at heb; cases heb
        exact Or.inl ⟨eb, by rw [hg1 b, if_neg hbnb]; exact heb, hm2⟩
      · cases hF
  have hst1_char : ∀ a b, EdgeC { st with list := mapSet st.list name { name := name, duration := duration, parents := Option.map jsSetOfList (some ps), children := Option.map jsSetOfList (some cs), color := color, start := start } } a b → EdgeC st a b ∨ (a = name ∧ b ∈ cs) := by
    intro a b hedge
    obtain ⟨ea, hea, hm⟩ := hedge
    rw [hg1 a] at hea
    by_cases han : name = a
    · rw [if_pos han] at hea
      cases Option.some.inj hea
      exact Or.inr ⟨han.symm, (mem_jsSetOfList cs b).mp (by simpa using hm)⟩
    · rw [if_neg han] at hea
      exact Or.inl ⟨ea, hea, hm⟩
  obtain ⟨p1, p2, p3, p4, p5, p6⟩ := bindP_fold st.rootName name hname ps
    (fun a b => a = name ∧ b ∈ cs)
    { st with list := mapSet st.list name { name := name, duration := duration, parents := Option.map jsSetOfList (some ps), children := Option.map jsSetOfList (some cs), color := color, start := start } }
    rfl hst1_inv hst1_np hst1_pp hst1_inc hst1_co
  obtain ⟨q1, q2, q3, q4, q5, q6⟩ := bindC_fold st.rootName name cs _ p2 p1
    (by rw [p3]; exact hst1_np)
    (fun c2 hc2 => ⟨by rw [p3]; exact (hst1_cp c2 hc2).1, (hst1_cp c2 hc2).2⟩)
    p4 p5
  refine wf_intro _ st.rootName q2 q1 q4 q5 ?_
  have hiso1 : ∀ a, ¬ EdgeC st a name := by
    intro a hC
    rcases hco a name hC with hP | hF
    · obtain ⟨eb, heb, -⟩ := hP
      rw [hfresh] at heb
      cases heb
    · cases hF
  have hiso2 : ∀ b, ¬ EdgeC st name b := by
    intro b hC
    obtain ⟨ea, hea, -⟩ := hC
    rw [hfresh] at hea
    cases hea
  have hPx : ¬ name ∈ ps := fun hq => (hpsp name hq).2 rfl
  have hCx : ¬ name ∈ cs := fun hq => (hcsp name hq).2.1 rfl
  have hrel1 : ∀ a, ¬ Relation.TransGen
      (fun u v => EdgeC st u v ∨ (u ∈ ps ∧ v = name) ∨ (u = name ∧ v ∈ cs)) a a :=
    acyclic_newnode (EdgeC st) name (fun u => u ∈ ps) (fun v => v ∈ cs) hacyc
      hiso1 hiso2 hPx hCx (fun c2 p hc2 hp => hnp2 c2 hc2 p hp)
  refine acyclic_sim_root _ _ st.rootName ?_ (invW_no_edge_to_root st.rootName _ q1) hrel1
  intro a b hab
  rcases q6 a b hab with he2 | ⟨ha2, hbm⟩
  · rcases p6 a b he2 with he3 | ⟨hmem, hbn⟩
    · rcases hst1_char a b he3 with he4 | ⟨han, hbm2⟩
      · exact Or.inl (Relation.TransGen.single (Or.inl he4))
      · exact Or.inl (Relation.TransGen.single (Or.inr (Or.inr ⟨han, hbm2⟩)))
    · rcases hmem with hmem | hmem
      · exact Or.inl (Relation.TransGen.single (Or.inr (Or.inl ⟨hmem, hbn⟩)))
      · exact Or.inr hmem
  · rcases ha2 with ha2 | ha2
    · exact Or.inl (Relation.TransGen.single (Or.inr (Or.inr ⟨ha2, hbm⟩)))
    · exact Or.inr ha2

/-- addNode preserves the well-formedness bundle.  The condition packages
what the mutation phase relies on: when the (possibly skipped) validation
reports no error, the declared parents and children exist, differ from the
new name and (for children) from the root, and no declared child reaches a
declared parent. -/
theorem addNode_WF (st : GraphState) (name : String) (duration : Int)
    (parents children : Option (List String)) (color : Nat) (start : Option Int)
    (validate : Bool) (hwf : GraphWF st)
    (hfacts : (if validate then runCommonValidation st name duration parents children
        else none) = none →
      (∀ ps, parents = some ps → ∀ p ∈ ps, (mapGet st.list p).isSome ∧ name ≠ p) ∧
      (∀ cs, children = some cs → ∀ c2 ∈ cs,
        (mapGet st.list c2).isSome ∧ name ≠ c2 ∧ c2 ≠ st.rootName) ∧
      (∀ ps cs, parents = some ps → children = some cs →
        ∀ c2 ∈ cs, ∀ p ∈ ps, ¬ Relation.ReflTransGen (EdgeC st) c2 p)) :
    GraphWF (addNode st name duration parents children color start validate).2 := by
  unfold addNode
  split
  · exact hwf
  split
  · exact hwf
  case _ hcap hdup =>
    split
    · exact hwf
    case _ hval =>
      obtain ⟨hvp, hvc, hnploop⟩ := hfacts hval
      have hinv0 := hwf.1
      have hr0 : (mapGet st.list st.rootName).isSome := invW_root_isSome _ _ hinv0
      have hname : name ≠ st.rootName := by
        intro hq
        rw [hq] at hdup
        exact hdup hr0
      have hfresh : mapGet st.list name = none := by
        cases hq : mapGet st.list name with
        | none => rfl
        | some e => exact absurd (by rw [mapHas, hq]; rfl) hdup
      simp only
      cases hchil : children with
      | none =>
        cases hp2 : (if parents = none ∧ name ≠ st.rootName then some [st.rootName]
            else parents) with
        | none =>
          exfalso
          split at hp2
          · cases hp2
          case _ hcnd => exact hcnd ⟨hp2, hname⟩
        | some ps =>
          split at hp2
          case isTrue hcnd =>
            cases Option.some.inj hp2
            refine addNode_mut_WF_none st name duration [st.rootName] color start
              ⟨hinv0, hwf.2.1, hwf.2.2.1, hwf.2.2.2⟩ hfresh hname ?_
            intro p hp
            have hpr : p = st.rootName := by simpa using hp
            exact ⟨by rw [hpr]; exact hr0, fun hq => hname (hq.trans hpr)⟩
          case isFalse hcnd =>
            exact addNode_mut_WF_none st name duration ps color start
              ⟨hinv0, hwf.2.1, hwf.2.2.1, hwf.2.2.2⟩ hfresh hname (hvp ps hp2)
      | some cs =>
        have hcsp : ∀ c2 ∈ cs, (mapGet st.list c2).isSome ∧ name ≠ c2 ∧ c2 ≠ st.rootName :=
          hvc cs hchil
        cases hp2 : (if parents = none ∧ name ≠ st.rootName then some [st.rootName]
            else parents) with
        | none =>
          exfalso
          split at hp2
          · cases hp2
          case _ hcnd => exact hcnd ⟨hp2, hname⟩
        | some ps =>
          split at hp2
          case isTrue hcnd =>
            cases Option.some.inj hp2
            refine addNode_mut_WF_some st name duration [st.rootName] cs color start
              ⟨hinv0, hwf.2.1, hwf.2.2.1, hwf.2.2.2⟩ hfresh hname ?_ hcsp ?_
            · intro p hp
              have hpr : p = st.rootName := by simpa using hp
              exact ⟨by rw [hpr]; exact hr0, fun hq => hname (hq.trans hpr)⟩
            · intro c2 hc2 p hp
              have hpr : p = st.rootName := by simpa using hp
              rw [hpr]
              exact no_path_to_sink (EdgeC st) st.rootName
                (invW_no_edge_to_root st.rootName st hinv0) c2 (hcsp c2 hc2).2.2
          case isFalse hcnd =>
            exact addNode_mut_WF_some st name duration ps cs color start
              ⟨hinv0, hwf.2.1, hwf.2.2.1, hwf.2.2.2⟩ hfresh hname (hvp ps hp2) hcsp
              (fun c2 hc2 p hp => hnploop ps cs hp2 hchil c2 hc2 p hp)

/-- The parents fold of removeNode: unbinding the node from each of its
recorded parents clears all parent references to it (except a root binding
that ensureRootBinding may re-establish) while keeping the invariants. -/
theorem remP_fold (root0 name : String) (hnr : name ≠ root0) (Q : String → Prop) :
    ∀ (l : List String) (s : GraphState),
      s.rootName = root0 →
      InvOn root0 s.list (fun _ => False) →
      (mapGet s.list name).isSome →
      (∀ p ∈ l, (mapGet s.list p).isSome) →
      IncUpTo s (fun _ _ => False) →
      CoIncUpTo s (fun _ _ => False) →
      (∀ q, EdgeP s q name → q ∈ l ∨ q = root0) →
      (∀ b, EdgeP s name b → Q b) →
      InvOn root0 (l.foldl (fun s2 p => unbindChildNode s2 name p) s).list (fun _ => False) ∧
      (l.foldl (fun s2 p => unbindChildNode s2 name p) s).rootName = root0 ∧
      (∀ k, (mapGet (l.foldl (fun s2 p => unbindChildNode s2 name p) s).list k).isSome
          = (mapGet s.list k).isSome) ∧
      IncUpTo (l.foldl (fun s2 p => unbindChildNode s2 name p) s) (fun _ _ => False) ∧
      CoIncUpTo (l.foldl (fun s2 p => unbindChildNode s2 name p) s) (fun _ _ => False) ∧
      (∀ q, EdgeP (l.foldl (fun s2 p => unbindChildNode s2 name p) s) q name → q = root0) ∧
      (∀ b, EdgeP (l.foldl (fun s2 p => unbindChildNode s2 name p) s) name b → Q b) ∧
      (∀ a b, EdgeC (l.foldl (fun s2 p => unbindChildNode s2 name p) s) a b →
        EdgeC s a b ∨ a = root0) := by
  intro l
  induction l with
  | nil =>
    intro s hsr hinv hnp hpp hinc hco hA hB
    refine ⟨hinv, hsr, fun k => rfl, hinc, hco, ?_, hB, fun a b he => Or.inl he⟩
    intro q hq
    rcases hA q hq with hql | hqr
    · cases hql
    · exact hqr
  | cons p t ih =>
    intro s hsr hinv hnp hpp hinc hco hA hB
    rw [List.foldl_cons]
    have hinv' : InvOn s.rootName s.list (fun _ => False) := by rw [hsr]; exact hinv
    have hpres : (mapGet s.list p).isSome := hpp p (List.mem_cons_self _ _)
    have hstep_inv : InvOn root0 (unbindChildNode s name p).list (fun _ => False) := by
      have h2 := unbind_presP s name p (fun _ => False) hinv' (by rw [hsr]; exact hnr)
        (fun _ k hk => hk.elim)
      rwa [hsr] at h2
    have hstep_root : (unbindChildNode s name p).rootName = root0 := by
      rw [unbindChildNode_rootName, hsr]
    have hstep_has : ∀ k, (mapGet (unbindChildNode s name p).list k).isSome
        = (mapGet s.list k).isSome := fun k => unbind_has s name p k
    have hstep_inc : IncUpTo (unbindChildNode s name p) (fun _ _ => False) :=
      unbind_inc s name p _ hinv' hinc
    have hstep_co : CoIncUpTo (unbindChildNode s name p) (fun _ _ => False) :=
      unbind_coinc s name p _ hinv' hco
    have hstep_A : ∀ q, EdgeP (unbindChildNode s name p) q name → q ∈ t ∨ q = root0 := by
      intro q hq
      rcases unbind_edgeP_self_sub s name p hinv' hpres hnp q hq with ⟨hqP, hqnp⟩ | hqr
      · rcases hA q hqP with hql | hqr2
        · rcases List.mem_cons.mp hql with heq | ht
          · exact absurd heq hqnp
          · exact Or.inl ht
        · exact Or.inr hqr2
      · exact Or.inr (hqr.trans hsr)
    have hstep_B : ∀ b, EdgeP (unbindChildNode s name p) name b → Q b := by
      intro b hb
      rcases unbind_edgeP_sub s name p hinv' name b hb with hP | ⟨hnr2, -⟩
      · exact hB b hP
      · exact absurd (hnr2.trans hsr) hnr
    have hstep_pp : ∀ q ∈ t, (mapGet (unbindChildNode s name p).list q).isSome := by
      intro q hq
      rw [hstep_has]
      exact hpp q (List.mem_cons_of_mem _ hq)
    have hstep_np : (mapGet (unbindChildNode s name p).list name).isSome := by
      rw [hstep_has]
      exact hnp
    obtain ⟨c1, c2, c3, c4, c5, c6, c7, c8⟩ := ih (unbindChildNode s name p) hstep_root
      hstep_inv hstep_np hstep_pp hstep_inc hstep_co hstep_A hstep_B
    refine ⟨c1, c2, ?_, c4, c5, c6, c7, ?_⟩
    · intro k
      rw [c3 k, hstep_has]
    · intro a b he
      rcases c8 a b he with he2 | hroot2
      · rcases unbind_edgeC_sub s name p hinv' a b he2 with he3 | ⟨har, -⟩
        · exact Or.inl he3
        · exact Or.inr (har.trans hsr)
      · exact Or.inr hroot2

/-- The relink fold inside removeNode: binding an orphaned child under each
of the removed node's former parents keeps the invariants, never touches the
removed node's references, and only adds the relink edges (plus possibly
root bindings). -/
theorem relinkB_fold (root0 name ch : String) (hnr : name ≠ root0)
    (hchroot : ch ≠ root0) (hchname : ch ≠ name) (Q : String → Prop) :
    ∀ (l : List String) (s : GraphState),
      s.rootName = root0 →
      InvOn root0 s.list (fun _ => False) →
      (mapGet s.list ch).isSome →
      (∀ p ∈ l, (mapGet s.list p).isSome ∧ p ≠ name) →
      IncUpTo s (fun _ _ => False) →
      CoIncUpTo s (fun _ _ => False) →
      (∀ q, EdgeP s q name → q = root0) →
      (∀ b, EdgeP s name b → Q b) →
      InvOn root0 (l.foldl (fun s3 par => bindChildNode s3 ch par) s).list (fun _ => False) ∧
      (l.foldl (fun s3 par => bindChildNode s3 ch par) s).rootName = root0 ∧
      (∀ k, (mapGet (l.foldl (fun s3 par => bindChildNode s3 ch par) s).list k).isSome
          = (mapGet s.list k).isSome) ∧
      IncUpTo (l.foldl (fun s3 par => bindChildNode s3 ch par) s) (fun _ _ => False) ∧
      CoIncUpTo (l.foldl (fun s3 par => bindChildNode s3 ch par) s) (fun _ _ => False) ∧
      (∀ q, EdgeP (l.foldl (fun s3 par => bindChildNode s3 ch par) s) q name → q = root0) ∧
      (∀ b, EdgeP (l.foldl (fun s3 par => bindChildNode s3 ch par) s) name b → Q b) ∧
      (∀ a b, EdgeC (l.foldl (fun s3 par => bindChildNode s3 ch par) s) a b →
        EdgeC s a b ∨ (a ∈ l ∧ b = ch) ∨ a = root0) := by
  intro l
  induction l with
  | nil =>
    intro s hsr hinv hchp hpl hinc hco hA hB
    exact ⟨hinv, hsr, fun k => rfl, hinc, hco, hA, hB, fun a b he => Or.inl he⟩
  | cons par t ih =>
    intro s hsr hinv hchp hpl hinc hco hA hB
    rw [List.foldl_cons]
    have hinv' : InvOn s.rootName s.list (fun _ => False) := by rw [hsr]; exact hinv
    have hparp : (mapGet s.list par).isSome := (hpl par (List.mem_cons_self _ _)).1
    have hparname : par ≠ name := (hpl par (List.mem_cons_self _ _)).2
    have hstep_inv : InvOn root0 (bindChildNode s ch par).list (fun _ => False) := by
      have h2 := bind_invOn s ch par (fun _ => False) hinv' (by rw [hsr]; exact hchroot)
      rwa [hsr] at h2
    have hstep_root : (bindChildNode s ch par).rootName = root0 := by
      rw [bindChildNode_rootName, hsr]
    have hstep_has : ∀ k, (mapGet (bindChildNode s ch par).list k).isSome
        = (mapGet s.list k).isSome := fun k => bind_has s ch par k
    have hstep_inc : IncUpTo (bindChildNode s ch par) (fun _ _ => False) :=
      inc_mono _ _ _ (bind_inc s ch par _ hinv' hinc hparp hchp) (fun a b hx => hx.1)
    have hstep_co : CoIncUpTo (bindChildNode s ch par) (fun _ _ => False) :=
      coinc_mono _ _ _ (bind_coinc s ch par _ hinv' hco hparp hchp) (fun a b hx => hx.1)
    have hstep_A : ∀ q, EdgeP (bindChildNode s ch par) q name → q = root0 := by
      intro q hq
      rcases bind_edgeP_sub s ch par hinv' q name hq with hP | ⟨-, hnc⟩ | ⟨-, hnc⟩
      · exact hA q hP
      · exact absurd hnc.symm hchname
      · exact absurd hnc.symm hchname
    have hstep_B : ∀ b, EdgeP (bindChildNode s ch par) name b → Q b := by
      intro b hb
      rcases bind_edgeP_sub s ch par hinv' name b hb with hP | ⟨hq1, -⟩ | ⟨hq1, -⟩
      · exact hB b hP
      · exact absurd hq1.symm hparname
      · exact absurd (hq1.trans hsr) hnr
    have hstep_pl : ∀ q ∈ t, (mapGet (bindChildNode s ch par).list q).isSome ∧ q ≠ name := by
      intro q hq
      rw [hstep_has]
      exact hpl q (List.mem_cons_of_mem _ hq)
    have hstep_chp : (mapGet (bindChildNode s ch par).list ch).isSome := by
      rw [hstep_has]
      exact hchp
    obtain ⟨c1, c2, c3, c4, c5, c6, c7, c8⟩ := ih (bindChildNode s ch par) hstep_root
      hstep_inv hstep_chp hstep_pl hstep_inc hstep_co hstep_A hstep_B
    refine ⟨c1, c2, ?_, c4, c5, c6, c7, ?_⟩
    · intro k
      rw [c3 k, hstep_has]
    · intro a b he
      rcases c8 a b he with he2 | ⟨hmem, hbc⟩ | hroot2
      · rcases bind_edgeC_sub s ch par hinv' a b he2 with he3 | ⟨hap, hbc2⟩ | ⟨har, hbc2⟩
        · exact Or.inl he3
        · exact Or.inr (Or.inl ⟨by rw [hap]; exact List.mem_cons_self par t, hbc2⟩)
        · exact Or.inr (Or.inr (har.trans hsr))
      · exact Or.inr (Or.inl ⟨List.mem_cons_of_mem _ hmem, hbc⟩)
      · exact Or.inr (Or.inr hroot2)

/-- One unbind step of removeNode's children fold: the processed child's
parent reference to the removed node is cleared, everything else is kept. -/
theorem remC_step_u (root0 name ch : String) (t : List String) (hnr : name ≠ root0)
    (s : GraphState) (hsr : s.rootName = root0)
    (hinv : InvOn root0 s.list (fun _ => False))
    (hnp : (mapGet s.list name).isSome) (hchp : (mapGet s.list ch).isSome)
    (hchname : ch ≠ name) (hchroot : ch ≠ root0)
    (hinc : IncUpTo s (fun _ _ => False)) (hco : CoIncUpTo s (fun _ _ => False))
    (hA : ∀ q, EdgeP s q name → q = root0)
    (hB : ∀ b, EdgeP s name b → b ∈ ch :: t) :
    InvOn root0 (unbindChildNode s ch name).list (fun _ => False) ∧
    (unbindChildNode s ch name).rootName = root0 ∧
    (∀ k, (mapGet (unbindChildNode s ch name).list k).isSome = (mapGet s.list k).isSome) ∧
    IncUpTo (unbindChildNode s ch name) (fun _ _ => False) ∧
    CoIncUpTo (unbindChildNode s ch name) (fun _ _ => False) ∧
    (∀ q, EdgeP (unbindChildNode s ch name) q name → q = root0) ∧
    (∀ b, EdgeP (unbindChildNode s ch name) name b → b ∈ t) ∧
    (∀ a b, EdgeC (unbindChildNode s ch name) a b → EdgeC s a b ∨ a = root0) := by
  have hinv' : InvOn s.rootName s.list (fun _ => False) := by rw [hsr]; exact hinv
  refine ⟨?_, ?_, fun k => unbind_has s ch name k,
    unbind_inc s ch name _ hinv' hinc, unbind_coinc s ch name _ hinv' hco, ?_, ?_, ?_⟩
  · have h2 := unbind_presP s ch name (fun _ => False) hinv' (by rw [hsr]; exact hchroot)
      (fun _ k hk => hk.elim)
    rwa [hsr] at h2
  · rw [unbindChildNode_rootName, hsr]
  · intro q hq
    rcases unbind_edgeP_sub s ch name hinv' q name hq with hP | ⟨-, hnc⟩
    · exact hA q hP
    · exact absurd hnc.symm hchname
  · intro b hb
    by_cases hbch : b = ch
    · exfalso
      rw [hbch] at hb
      rcases unbind_edgeP_self_sub s ch name hinv' hnp hchp name hb with ⟨-, hne⟩ | hqr
      · exact hne rfl
      · exact hnr (hqr.trans hsr)
    · rcases unbind_edgeP_sub s ch name hinv' name b hb with hP | ⟨-, hbc⟩
      · rcases List.mem_cons.mp (hB b hP) with heq | ht2
        · exact absurd heq hbch
        · exact ht2
      · exact absurd hbc hbch
  · intro a b he
    rcases unbind_edgeC_sub s ch name hinv' a b he with he3 | ⟨har, -⟩
    · exact Or.inl he3
    · exact Or.inr (har.trans hsr)

/-- The children fold of removeNode: each recorded child is unbound from the
removed node (and, outside update mode, relinked under the removed node's
former parents), leaving no references to the removed node except a possible
root binding. -/
theorem remC_fold (root0 name : String) (hnr : name ≠ root0) (psnap : List String)
    (isUpdate : Bool) :
    ∀ (l : List String) (s : GraphState),
      s.rootName = root0 →
      InvOn root0 s.list (fun _ => False) →
      (mapGet s.list name).isSome →
      (∀ p ∈ psnap, (mapGet s.list p).isSome ∧ p ≠ name) →
      (∀ c2 ∈ l, (mapGet s.list c2).isSome ∧ c2 ≠ name ∧ c2 ≠ root0) →
      IncUpTo s (fun _ _ => False) →
      CoIncUpTo s (fun _ _ => False) →
      (∀ q, EdgeP s q name → q = root0) →
      (∀ b, EdgeP s name b → b ∈ l) →
      InvOn root0 (l.foldl (fun s2 ch => if isUpdate then unbindChildNode s2 ch name else psnap.foldl (fun s3 par => bindChildNode s3 ch par) (unbindChildNode s2 ch name)) s).list (fun _ => False) ∧
      (l.foldl (fun s2 ch => if isUpdate then unbindChildNode s2 ch name else psnap.foldl (fun s3 par => bindChildNode s3 ch par) (unbindChildNode s2 ch name)) s).rootName = root0 ∧
      (∀ k, (mapGet (l.foldl (fun s2 ch => if isUpdate then unbindChildNode s2 ch name else psnap.foldl (fun s3 par => bindChildNode s3 ch par) (unbindChildNode s2 ch name)) s).list k).isSome = (mapGet s.list k).isSome) ∧
      IncUpTo (l.foldl (fun s2 ch => if isUpdate then unbindChildNode s2 ch name else psnap.foldl (fun s3 par => bindChildNode s3 ch par) (unbindChildNode s2 ch name)) s) (fun _ _ => False) ∧
      CoIncUpTo (l.foldl (fun s2 ch => if isUpdate then unbindChildNode s2 ch name else psnap.foldl (fun s3 par => bindChildNode s3 ch par) (unbindChildNode s2 ch name)) s) (fun _ _ => False) ∧
      (∀ q, EdgeP (l.foldl (fun s2 ch => if isUpdate then unbindChildNode s2 ch name else psnap.foldl (fun s3 par => bindChildNode s3 ch par) (unbindChildNode s2 ch name)) s) q name → q = root0) ∧
      (∀ b, ¬ EdgeP (l.foldl (fun s2 ch => if isUpdate then unbindChildNode s2 ch name else psnap.foldl (fun s3 par => bindChildNode s3 ch par) (unbindChildNode s2 ch name)) s) name b) ∧
      (∀ a b, EdgeC (l.foldl (fun s2 ch => if isUpdate then unbindChildNode s2 ch name else psnap.foldl (fun s3 par => bindChildNode s3 ch par) (unbindChildNode s2 ch name)) s) a b →
        EdgeC s a b ∨ (isUpdate = false ∧ a ∈ psnap ∧ b ∈ l) ∨ a = root0) := by
  cases isUpdate with
  | true =>
    intro l
    induction l with
    | nil =>
      intro s hsr hinv hnp hpl hcl hinc hco hA hB
      exact ⟨hinv, hsr, fun k => rfl, hinc, hco, hA,
        fun b hb => absurd (hB b hb) (List.not_mem_nil b), fun a b he => Or.inl he⟩
    | cons ch t ih =>
      intro s hsr hinv hnp hpl hcl hinc hco hA hB
      rw [List.foldl_cons]
      have hchp : (mapGet s.list ch).isSome := (hcl ch (List.mem_cons_self _ _)).1
      have hchname : ch ≠ name := (hcl ch (List.mem_cons_self _ _)).2.1
      have hchroot : ch ≠ root0 := (hcl ch (List.mem_cons_self _ _)).2.2
      obtain ⟨u1, u2, u3, u4, u5, u6, u7, u8⟩ := remC_step_u root0 name ch t hnr s hsr
        hinv hnp hchp hchname hchroot hinc hco hA hB
      have hstep_pl : ∀ p ∈ psnap, (mapGet (unbindChildNode s ch name).list p).isSome
          ∧ p ≠ name := by
        intro p hp
        rw [u3]
        exact hpl p hp
      have hstep_cl : ∀ c2 ∈ t, (mapGet (unbindChildNode s ch name).list c2).isSome
          ∧ c2 ≠ name ∧ c2 ≠ root0 := by
        intro c2 hc2
        rw [u3]
        exact hcl c2 (List.mem_cons_of_mem _ hc2)
      have hstep_np : (mapGet (unbindChildNode s ch name).list name).isSome := by
        rw [u3]
        exact hnp
      obtain ⟨c1, c2, c3, c4, c5, c6, c7, c8⟩ := ih (unbindChildNode s ch name) u2
        u1 hstep_np hstep_pl hstep_cl u4 u5 u6 u7
      refine ⟨c1, c2, ?_, c4, c5, c6, c7, ?_⟩
      · intro k
        exact (c3 k).trans (u3 k)
      · intro a b he
        rcases c8 a b he with he2 | ⟨hfu, -, -⟩ | hroot2
        · rcases u8 a b he2 with he3 | hroot3
          · exact Or.inl he3
          · exact Or.inr (Or.inr hroot3)
        · cases hfu
        · exact Or.inr (Or.inr hroot2)
  | false =>
    intro l
    induction l with
    | nil =>
      intro s hsr hinv hnp hpl hcl hinc hco hA hB
      exact ⟨hinv, hsr, fun k => rfl, hinc, hco, hA,
        fun b hb => absurd (hB b hb) (List.not_mem_nil b), fun a b he => Or.inl he⟩
    | cons ch t ih =>
      intro s hsr hinv hnp hpl hcl hinc hco hA hB
      rw [List.foldl_cons]
      have hchp : (mapGet s.list ch).isSome := (hcl ch (List.mem_cons_self _ _)).1
      have hchname : ch ≠ name := (hcl ch (List.mem_cons_self _ _)).2.1
      have hchroot : ch ≠ root0 := (hcl ch (List.mem_cons_self _ _)).2.2
      obtain ⟨u1, u2, u3, u4, u5, u6, u7, u8⟩ := remC_step_u root0 name ch t hnr s hsr
        hinv hnp hchp hchname hchroot hinc hco hA hB
      obtain ⟨r1, r2, r3, r4, r5, r6, r7, r8⟩ := relinkB_fold root0 name ch hnr
        hchroot hchname (fun b => b ∈ t) psnap (unbindChildNode s ch name) u2 u1
        (by rw [u3]; exact hchp)
        (fun p hp => ⟨by rw [u3]; exact (hpl p hp).1, (hpl p hp).2⟩)
        u4 u5 u6 u7
      have hstep_pl : ∀ p ∈ psnap,
          (mapGet (psnap.foldl (fun s3 par => bindChildNode s3 ch par) (unbindChildNode s ch name)).list p).isSome
          ∧ p ≠ name := by
        intro p hp
        rw [r3, u3]
        exact hpl p hp
      have hstep_cl : ∀ c2 ∈ t,
          (mapGet (psnap.foldl (fun s3 par => bindChildNode s3 ch par) (unbindChildNode s ch name)).list c2).isSome
          ∧ c2 ≠ name ∧ c2 ≠ root0 := by
        intro c2 hc2
        rw [r3, u3]
        exact hcl c2 (List.mem_cons_of_mem _ hc2)
      have hstep_np :
          (mapGet (psnap.foldl (fun s3 par => bindChildNode s3 ch par) (unbindChildNode s ch name)).list name).isSome := by
        rw [r3, u3]
        exact hnp
      obtain ⟨c1, c2, c3, c4, c5, c6, c7, c8⟩ := ih
        (psnap.foldl (fun s3 par => bindChildNode s3 ch par) (unbindChildNode s ch name))
        r2 r1 hstep_np hstep_pl hstep_cl r4 r5 r6 r7
      refine ⟨c1, c2, ?_, c4, c5, c6, c7, ?_⟩
      · intro k
        exact (c3 k).trans ((r3 k).trans (u3 k))
      · intro a b he
        rcases c8 a b he with he2 | ⟨-, hmem, hbm⟩ | hroot2
        · rcases r8 a b he2 with he3 | ⟨hmem, hbc⟩ | hroot3
          · rcases u8 a b he3 with he4 | hroot4
            · exact Or.inl he4
            · exact Or.inr (Or.inr hroot4)
          · exact Or.inr (Or.inl ⟨rfl, hmem, by rw [hbc]; exact List.mem_cons_self ch t⟩)
          · exact Or.inr (Or.inr hroot3)
        · exact Or.inr (Or.inl ⟨rfl, hmem, List.mem_cons_of_mem _ hbm⟩)
        · exact Or.inr (Or.inr hroot2)

/-- Deleting the removed node's own binding after both folds: all remaining
references to it come from the root's child list (the possibly re-added root
binding), everything else keeps the invariants. -/
theorem removeNode_del_facts (root0 name : String) (hnr : name ≠ root0)
    (s2 : GraphState)
    (hinv : InvOn root0 s2.list (fun _ => False))
    (hinc : IncUpTo s2 (fun _ _ => False))
    (hco : CoIncUpTo s2 (fun _ _ => False))
    (hA : ∀ q, EdgeP s2 q name → q = root0)
    (hB : ∀ b, ¬ EdgeP s2 name b) :
    InvOn root0 (mapDelete s2.list name) (fun _ => False) ∧
    IncUpTo { s2 with list := mapDelete s2.list name } (fun _ _ => False) ∧
    CoIncUpTo { s2 with list := mapDelete s2.list name } (fun a b => a = root0 ∧ b = name) ∧
    (∀ a b, EdgeC { s2 with list := mapDelete s2.list name } a b → EdgeC s2 a b) := by
  have hg3 : ∀ k, k ≠ name → mapGet (mapDelete s2.list name) k = mapGet s2.list k :=
    fun k hk => mapGet_mapDelete_ne s2.list name k hk
  have hg3name : mapGet (mapDelete s2.list name) name = none :=
    mapGet_mapDelete_self s2.list name hinv.1
  refine ⟨invOn_delete_false root0 s2.list name hinv (fun hq => hnr hq.symm), ?_, ?_, ?_⟩
  · intro a b hedge
    obtain ⟨eb, heb, hm⟩ := hedge
    have hbnn : b ≠ name := by
      intro hq
      rw [hq, hg3name] at heb
      cases heb
    rw [hg3 b hbnn] at heb
    have hP2 : EdgeP s2 a b := ⟨eb, heb, hm⟩
    have hC2 : EdgeC s2 a b := by
      rcases hinc a b hP2 with h2 | h2
      · exact h2
      · cases h2
    have hann : a ≠ name := fun hq => hB b (show EdgeP s2 name b from hq ▸ hP2)
    obtain ⟨ea, hea, hm2⟩ := hC2
    exact Or.inl ⟨ea, by rw [hg3 a hann]; exact hea, hm2⟩
  · intro a b hedge
    obtain ⟨ea, hea, hm⟩ := hedge
    have hann : a ≠ name := by
      intro hq
      rw [hq, hg3name] at hea
      cases hea
    rw [hg3 a hann] at hea
    have hC2 : EdgeC s2 a b := ⟨ea, hea, hm⟩
    have hP2 : EdgeP s2 a b := by
      rcases hco a b hC2 with h2 | h2
      · exact h2
      · cases h2
    by_cases hbn : b = name
    · exact Or.inr ⟨hA a (show EdgeP s2 a name from hbn ▸ hP2), hbn⟩
    · obtain ⟨eb, heb, hm2⟩ := hP2
      exact Or.inl ⟨eb, by rw [hg3 b hbn]; exact heb, hm2⟩
  · intro a b hedge
    obtain ⟨ea, hea, hm⟩ := hedge
    have hann : a ≠ name := by
      intro hq
      rw [hq, hg3name] at hea
      cases hea
    rw [hg3 a hann] at hea
    exact ⟨ea, hea, hm⟩

/-- The final cleanup step of removeNode: removing the deleted node from the
root's child list restores the exact correspondence of the two edge records. -/
theorem removeNode_cleanup_facts (root0 name : String) (hnr : name ≠ root0)
    (s2 : GraphState) (rootNode : entryNode) (cs4 : List String)
    (hinv : InvOn root0 s2.list (fun _ => False))
    (hinc : IncUpTo s2 (fun _ _ => False))
    (hco : CoIncUpTo s2 (fun _ _ => False))
    (hA : ∀ q, EdgeP s2 q name → q = root0)
    (hB : ∀ b, ¬ EdgeP s2 name b)
    (hre : mapGet (mapDelete s2.list name) root0 = some rootNode)
    (hrc : rootNode.children = some cs4) :
    InvOn root0 (mapSet (mapDelete s2.list name) root0 { rootNode with children := some (jsSetDelete cs4 name) }) (fun _ => False) ∧
    IncUpTo { s2 with list := mapSet (mapDelete s2.list name) root0 { rootNode with children := some (jsSetDelete cs4 name) } } (fun _ _ => False) ∧
    CoIncUpTo { s2 with list := mapSet (mapDelete s2.list name) root0 { rootNode with children := some (jsSetDelete cs4 name) } } (fun _ _ => False) ∧
    (∀ a b, EdgeC { s2 with list := mapSet (mapDelete s2.list name) root0 { rootNode with children := some (jsSetDelete cs4 name) } } a b → EdgeC s2 a b) := by
  obtain ⟨hinv3, hinc3, hco3, hchar3⟩ :=
    removeNode_del_facts root0 name hnr s2 hinv hinc hco hA hB
  have hg3name : mapGet (mapDelete s2.list name) name = none :=
    mapGet_mapDelete_self s2.list name hinv.1
  obtain ⟨r3, hr3, hr3p⟩ := hinv3.2.1
  have hrn : rootNode = r3 := by
    rw [hre] at hr3
    exact Option.some.inj hr3
  have hrp3 : rootNode.parents = none := by rw [hrn]; exact hr3p
  obtain ⟨rn1, rn2, rn3, -⟩ := hinv3.2.2 root0 rootNode hre
  have hg4 : ∀ k, mapGet (mapSet (mapDelete s2.list name) root0 { rootNode with children := some (jsSetDelete cs4 name) }) k = if root0 = k then some { rootNode with children := some (jsSetDelete cs4 name) } else mapGet (mapDelete s2.list name) k :=
    fun k => mapGet_mapSet _ _ _ _
  refine ⟨?_, ?_, ?_, ?_⟩
  · refine invOn_set root0 (mapDelete s2.list name) (fun _ => False) (fun _ => False)
      root0 _ hinv3 (fun _ => hrp3) ?_ ?_ ?_ (fun hcon => absurd rfl hcon) (fun k hk _ => hk)
    · simp [hrp3]
    · rw [hrc] at rn2
      simpa using jsSetDelete_nodup cs4 name (by simpa using rn2)
    · rw [hrc] at rn3
      simp only [Option.getD_some, mem_jsSetDelete]
      rintro ⟨hcon, -⟩
      exact rn3 (by simpa using hcon)
  · intro a b hedge
    obtain ⟨eb, heb, hm⟩ := hedge
    rw [hg4 b] at heb
    by_cases hbr : root0 = b
    · exfalso
      rw [if_pos hbr] at heb
      cases Option.some.inj heb
      have hm2 : a ∈ rootNode.parents.getD [] := hm
      rw [hrp3] at hm2
      simp at hm2
    · rw [if_neg hbr] at heb
      have hP3 : EdgeP { s2 with list := mapDelete s2.list name } a b := ⟨eb, heb, hm⟩
      have hC3 : EdgeC { s2 with list := mapDelete s2.list name } a b := by
        rcases hinc3 a b hP3 with h2 | h2
        · exact h2
        · cases h2
      obtain ⟨ea, hea, hm2⟩ := hC3
      have hbnn : b ≠ name := by
        intro hq
        rw [hq, hg3name] at heb
        cases heb
      by_cases har : root0 = a
      · have hea2 : mapGet (mapDelete s2.list name) root0 = some ea := by
          rw [har]
          exact hea
        rw [hre] at hea2
        have heq : ea = rootNode := (Option.some.inj hea2).symm
        rw [heq] at hm2
        have hm3 : b ∈ cs4 := by
          rw [hrc] at hm2
          simpa using hm2
        refine Or.inl ⟨{ rootNode with children := some (jsSetDelete cs4 name) },
          by rw [hg4 a, if_pos har], ?_⟩
        exact (mem_jsSetDelete _ _ _).mpr ⟨hm3, hbnn⟩
      · exact Or.inl ⟨ea, by rw [hg4 a, if_neg har]; exact hea, hm2⟩
  · intro a b hedge
    obtain ⟨ea, hea, hm⟩ := hedge
    rw [hg4 a] at hea
    by_cases har : root0 = a
    · rw [if_pos har] at hea
      cases Option.some.inj hea
      have hm2 : b ∈ jsSetDelete cs4 name := hm
      rw [mem_jsSetDelete] at hm2
      have hC3 : EdgeC { s2 with list := mapDelete s2.list name } a b := by
        refine ⟨rootNode, ?_, ?_⟩
        · rw [← har]
          exact hre
        · rw [hrc]
          exact hm2.1
      rcases hco3 a b hC3 with hP3 | ⟨-, hbn⟩
      · obtain ⟨eb, heb, hm3⟩ := hP3
        by_cases hbr : root0 = b
        · exfalso
          have heb2 : mapGet (mapDelete s2.list name) root0 = some eb := by
            rw [hbr]
            exact heb
          rw [hre] at heb2
          have heq : eb = rootNode := (Option.some.inj heb2).symm
          rw [heq, hrp3] at hm3
          simp at hm3
        · exact Or.inl ⟨eb, by rw [hg4 b, if_neg hbr]; exact heb, hm3⟩
      · exact absurd hbn hm2.2
    · rw [if_neg har] at hea
      have hC3 : EdgeC { s2 with list := mapDelete s2.list name } a b := ⟨ea, hea, hm⟩
      rcases hco3 a b hC3 with hP3 | ⟨har2, -⟩
      · obtain ⟨eb, heb, hm3⟩ := hP3
        by_cases hbr : root0 = b
        · exfalso
          have heb2 : mapGet (mapDelete s2.list name) root0 = some eb := by
            rw [hbr]
            exact heb
          rw [hre] at heb2
          have heq : eb = rootNode := (Option.some.inj heb2).symm
          rw [heq, hrp3] at hm3
          simp at hm3
        · exact Or.inl ⟨eb, by rw [hg4 b, if_neg hbr]; exact heb, hm3⟩
      · exact absurd har2.symm har
  · intro a b hedge
    obtain ⟨ea, hea, hm⟩ := hedge
    rw [hg4 a] at hea
    by_cases har : root0 = a
    · rw [if_pos har] at hea
      cases Option.some.inj hea
      have hm2 : b ∈ jsSetDelete cs4 name := hm
      rw [mem_jsSetDelete] at hm2
      refine hchar3 a b ⟨rootNode, ?_, ?_⟩
      · rw [← har]
        exact hre
      · rw [hrc]
        exact hm2.1
    · rw [if_neg har] at hea
      exact hchar3 a b ⟨ea, hea, hm⟩

/-- The delete-and-cleanup tail of removeNode, packaged: given the state after
both folds (no references into or out of the removed node except a root
binding), the resulting state is well-formed and its edges embed in `rel`. -/
theorem removeNode_postkey (root0 name : String) (hnr : name ≠ root0)
    (rel : String → String → Prop) (s2 : GraphState)
    (hsr : s2.rootName = root0)
    (hinv : InvOn root0 s2.list (fun _ => False))
    (hinc : IncUpTo s2 (fun _ _ => False)) (hco : CoIncUpTo s2 (fun _ _ => False))
    (hA : ∀ q, EdgeP s2 q name → q = root0) (hB : ∀ b, ¬ EdgeP s2 name b)
    (hrootpres : (mapGet s2.list root0).isSome)
    (hrel : ∀ a b, EdgeC s2 a b → Relation.TransGen rel a b ∨ a = root0)
    (hrelacyc : ∀ x, ¬ Relation.TransGen rel x x) :
    GraphWF (match mapGet (mapDelete s2.list name) root0 with
      | some rootNode => (match rootNode.children with
        | some cs4 => { s2 with list := mapSet (mapDelete s2.list name) root0 { rootNode with children := some (jsSetDelete cs4 name) } }
        | none => { s2 with list := mapDelete s2.list name })
      | none => { s2 with list := mapDelete s2.list name }) ∧
    (∀ a b, EdgeC (match mapGet (mapDelete s2.list name) root0 with
      | some rootNode => (match rootNode.children with
        | some cs4 => { s2 with list := mapSet (mapDelete s2.list name) root0 { rootNode with children := some (jsSetDelete cs4 name) } }
        | none => { s2 with list := mapDelete s2.list name })
      | none => { s2 with list := mapDelete s2.list name }) a b →
      Relation.TransGen rel a b ∨ a = root0) := by
  obtain ⟨hinv3, hinc3, hco3, hchar3⟩ :=
    removeNode_del_facts root0 name hnr s2 hinv hinc hco hA hB
  cases hre : mapGet (mapDelete s2.list name) root0 with
  | none =>
    exfalso
    rw [mapGet_mapDelete_ne s2.list name root0 (fun hq => hnr hq.symm)] at hre
    rw [hre] at hrootpres
    simp at hrootpres
  | some rootNode =>
    simp only
    cases hrc : rootNode.children with
    | none =>
      simp only
      have hco3' : CoIncUpTo { s2 with list := mapDelete s2.list name } (fun _ _ => False) := by
        intro a b he
        rcases hco3 a b he with h2 | ⟨har, hbn⟩
        · exact Or.inl h2
        · exfalso
          obtain ⟨ea, hea, hm⟩ := he
          have hea2 : mapGet (mapDelete s2.list name) root0 = some ea := by
            rw [← har]
            exact hea
          rw [hre] at hea2
          have heq : ea = rootNode := (Option.some.inj hea2).symm
          rw [heq, hrc] at hm
          simp at hm
      refine ⟨⟨?_, hinc3, hco3', ?_⟩, ?_⟩
      · show InvOn s2.rootName (mapDelete s2.list name) (fun _ => False)
        rw [hsr]
        exact hinv3
      · exact acyclic_sim_root rel _ root0
          (fun a b he => hrel a b (hchar3 a b he))
          (invW_no_edge_to_root root0 _ hinv3) hrelacyc
      · exact fun a b he => hrel a b (hchar3 a b he)
    | some cs4 =>
      simp only
      obtain ⟨w1, w2, w3, w4⟩ := removeNode_cleanup_facts root0 name hnr s2 rootNode cs4
        hinv hinc hco hA hB hre hrc
      refine ⟨⟨?_, w2, w3, ?_⟩, ?_⟩
      · show InvOn s2.rootName (mapSet (mapDelete s2.list name) root0 { rootNode with children := some (jsSetDelete cs4 name) }) (fun _ => False)
        rw [hsr]
        exact w1
      · exact acyclic_sim_root rel _ root0
          (fun a b he => hrel a b (w4 a b he))
          (invW_no_edge_to_root root0 _ w1) hrelacyc
      · exact fun a b he => hrel a b (w4 a b he)

/-- removeNode preserves the well-formedness bundle, and every edge of the
result is simulated by a path of the original graph (the relink edges become
two-step paths through the removed node) or leaves the root. -/
theorem removeNode_WF (st : GraphState) (name : String) (isUpdate : Bool)
    (hwf : GraphWF st) :
    GraphWF (removeNode st name isUpdate).2 ∧
    (∀ a b, EdgeC (removeNode st name isUpdate).2 a b →
      Relation.TransGen (EdgeC st) a b ∨ a = st.rootName) := by
  obtain ⟨hinv, hinc, hco, hacyc⟩ := hwf
  have hr0 : (mapGet st.list st.rootName).isSome := invW_root_isSome _ _ hinv
  unfold removeNode
  split
  · exact ⟨⟨hinv, hinc, hco, hacyc⟩, fun a b he => Or.inl (Relation.TransGen.single he)⟩
  case _ hroot =>
    split
    · exact ⟨⟨hinv, hinc, hco, hacyc⟩, fun a b he => Or.inl (Relation.TransGen.single he)⟩
    case _ hhas =>
      split
      · exact ⟨⟨hinv, hinc, hco, hacyc⟩, fun a b he => Or.inl (Relation.TransGen.single he)⟩
      case _ node hnode =>
        simp only
        have hname : name ≠ st.rootName := hroot
        have hnpres : (mapGet st.list name).isSome := by rw [hnode]; rfl
        have hpmem : ∀ p ∈ node.parents.getD [], EdgeP st p name :=
          fun p hp => ⟨node, hnode, hp⟩
        have hcmemE : ∀ c2 ∈ node.children.getD [], EdgeC st name c2 :=
          fun c2 hc => ⟨node, hnode, hc⟩
        have hpC : ∀ p ∈ node.parents.getD [], EdgeC st p name := by
          intro p hp
          rcases hinc p name (hpmem p hp) with h2 | h2
          · exact h2
          · cases h2
        have hpfacts : ∀ p ∈ node.parents.getD [], (mapGet st.list p).isSome ∧ p ≠ name := by
          intro p hp
          obtain ⟨ep, hep, -⟩ := hpC p hp
          refine ⟨by rw [hep]; rfl, ?_⟩
          intro hq
          exact hacyc name
            (Relation.TransGen.single (show EdgeC st name name from hq ▸ hpC p hp))
        have hcP : ∀ c2 ∈ node.children.getD [], EdgeP st name c2 := by
          intro c2 hc
          rcases hco name c2 (hcmemE c2 hc) with h2 | h2
          · exact h2
          · cases h2
        have hcfacts : ∀ c2 ∈ node.children.getD [],
            (mapGet st.list c2).isSome ∧ c2 ≠ name ∧ c2 ≠ st.rootName := by
          intro c2 hc
          obtain ⟨eb, heb, -⟩ := hcP c2 hc
          refine ⟨by rw [heb]; rfl, ?_,
            invW_no_edge_to_root st.rootName st hinv name c2 (hcmemE c2 hc)⟩
          intro hq
          exact hacyc name
            (Relation.TransGen.single (show EdgeC st name name from hq ▸ hcmemE c2 hc))
        have hA0 : ∀ q, EdgeP st q name → q ∈ node.parents.getD [] ∨ q = st.rootName := by
          intro q hq
          obtain ⟨eb, heb, hm⟩ := hq
          rw [hnode] at heb
          cases Option.some.inj heb
          exact Or.inl hm
        have hB0 : ∀ b, EdgeP st name b → b ∈ node.children.getD [] := by
          intro b hb
          have hCb : EdgeC st name b := by
            rcases hinc name b hb with h2 | h2
            · exact h2
            · cases h2
          obtain ⟨ea, hea, hm⟩ := hCb
          rw [hnode] at hea
          cases Option.some.inj hea
          exact hm
        obtain ⟨a1, a2, a3, a4, a5, a6, a7, a8⟩ := remP_fold st.rootName name hname
          (fun b => b ∈ node.children.getD []) (node.parents.getD []) st rfl hinv hnpres
          (fun p hp => (hpfacts p hp).1) hinc hco hA0 hB0
        obtain ⟨b1, b2, b3, b4, b5, b6, b7, b8⟩ := remC_fold st.rootName name hname
          (node.parents.getD []) isUpdate (node.children.getD []) _ a2 a1
          (by rw [a3]; exact hnpres)
          (fun p hp => ⟨by rw [a3]; exact (hpfacts p hp).1, (hpfacts p hp).2⟩)
          (fun c2 hc => ⟨by rw [a3]; exact (hcfacts c2 hc).1, (hcfacts c2 hc).2.1,
            (hcfacts c2 hc).2.2⟩)
          a4 a5 a6 a7
        have hkey := removeNode_postkey st.rootName name hname (EdgeC st) _ b2 b1 b4 b5 b6 b7
          (by rw [b3, a3]; exact hr0)
          (by
            intro a b he
            rcases b8 a b he with h3 | ⟨-, hap, hbc⟩ | hroot2
            · rcases a8 a b h3 with h4 | hroot3
              · exact Or.inl (Relation.TransGen.single h4)
              · exact Or.inr hroot3
            · exact Or.inl (Relation.TransGen.head (hpC a hap)
                (Relation.TransGen.single (hcmemE b hbc)))
            · exact Or.inr hroot2)
          hacyc
        rw [if_pos (show mapHas st.list st.rootName = true from hr0)]
        exact hkey

theorem foldl_has {β : Type} (f : GraphState → β → GraphState)
    (hf : ∀ s b k, (mapGet (f s b).list k).isSome = (mapGet s.list k).isSome) :
    ∀ (l : List β) (s : GraphState) (k : String),
      (mapGet (l.foldl f s).list k).isSome = (mapGet s.list k).isSome := by
  intro l
  induction l with
  | nil => intro s k; rfl
  | cons b t ih =>
    intro s k
    rw [List.foldl_cons, ih, hf]

/-- removeNode keeps every other node's presence unchanged. -/
theorem removeNode_has (st : GraphState) (name : String) (isUpdate : Bool) :
    ∀ k, k ≠ name →
      (mapGet (removeNode st name isUpdate).2.list k).isSome = (mapGet st.list k).isSome := by
  unfold removeNode
  split
  · intro k _; rfl
  case _ hroot =>
    split
    · intro k _; rfl
    case _ hhas =>
      split
      · intro k _; rfl
      case _ node hnode =>
        simp only
        have hf1 : ∀ k2, (mapGet ((node.parents.getD []).foldl (fun s parent => unbindChildNode s name parent) st).list k2).isSome = (mapGet st.list k2).isSome :=
          fun k2 => foldl_has _ (fun s b k3 => unbind_has s name b k3) _ st k2
        have hstep : ∀ (s : GraphState) (b : String) (k3 : String),
            (mapGet (if isUpdate then unbindChildNode s b name else (node.parents.getD []).foldl (fun s2 parent => bindChildNode s2 b parent) (unbindChildNode s b name)).list k3).isSome = (mapGet s.list k3).isSome := by
          intro s b k3
          by_cases hiu : isUpdate = true
          · rw [if_pos hiu]
            exact unbind_has s b name k3
          · rw [if_neg hiu]
            exact (foldl_has _ (fun s2 p k4 => bind_has s2 b p k4) _ _ k3).trans
              (unbind_has s b name k3)
        have hf2 : ∀ k2, (mapGet ((node.children.getD []).foldl (fun s child => if isUpdate then unbindChildNode s child name else (node.parents.getD []).foldl (fun s2 parent => bindChildNode s2 child parent) (unbindChildNode s child name)) ((node.parents.getD []).foldl (fun s parent => unbindChildNode s name parent) st)).list k2).isSome = (mapGet st.list k2).isSome :=
          fun k2 => (foldl_has _ hstep _ _ k2).trans (hf1 k2)
        intro k hk
        split
        case isTrue hre0 =>
          cases hre : mapGet (mapDelete ((node.children.getD []).foldl (fun s child => if isUpdate then unbindChildNode s child name else (node.parents.getD []).foldl (fun s2 parent => bindChildNode s2 child parent) (unbindChildNode s child name)) ((node.parents.getD []).foldl (fun s parent => unbindChildNode s name parent) st)).list name) st.rootName with
          | none =>
            simp only
            rw [mapGet_mapDelete_ne _ _ _ hk]
            exact hf2 k
          | some rootNode =>
            simp only
            cases hrc : rootNode.children with
            | none =>
              simp only
              rw [mapGet_mapDelete_ne _ _ _ hk]
              exact hf2 k
            | some cs4 =>
              simp only
              rw [mapGet_mapSet]
              by_cases hkr : st.rootName = k
              · rw [if_pos hkr]
                have h5 : (mapGet st.list k).isSome = true := by
                  rw [← hf2 k, ← mapGet_mapDelete_ne _ name k hk, ← hkr, hre]
                  rfl
                rw [h5]
                rfl
              · rw [if_neg hkr, mapGet_mapDelete_ne _ _ _ hk]
                exact hf2 k
        case isFalse hre0 =>
          rw [mapGet_mapDelete_ne _ _ _ hk]
          exact hf2 k

/-- addNode with validation enabled preserves the well-formedness bundle
unconditionally: either validation throws (leaving the state unchanged) or
its guarantees feed the mutation phase. -/
theorem addNode_WF_valid (st : GraphState) (name : String) (duration : Int)
    (parents children : Option (List String)) (color : Nat) (start : Option Int)
    (hwf : GraphWF st) :
    GraphWF (addNode st name duration parents children color start true).2 := by
  refine addNode_WF st name duration parents children color start true hwf ?_
  intro hnone
  rw [if_pos rfl] at hnone
  obtain ⟨h1, h2, h3, -⟩ := runCommonValidation_none st name duration parents children hnone
  refine ⟨?_, ?_, ?_⟩
  · intro ps hps p hp
    exact ⟨(h1 ps hps p hp).1, (h1 ps hps p hp).2⟩
  · intro cs hcs c2 hc2
    exact ⟨(h2 cs hcs c2 hc2).1, (h2 cs hcs c2 hc2).2.1, (h2 cs hcs c2 hc2).2.2⟩
  · intro ps cs hps hcs c2 hc2 p hp
    rw [hps, hcs] at h3
    exact findLoop_false_nopath st ps cs h3 c2 hc2 p hp

/-- updateNode preserves the well-formedness bundle: it validates against the
old graph, removes the node in update mode (whose edges embed in old paths),
and re-adds it with the validated arguments. -/
theorem updateNode_WF (st : GraphState) (name : String) (newNameArg : Option String)
    (durationArg : Option Int) (parentsArg childrenArg : Option (Option (List String)))
    (colorArg : Option Nat) (startArg : Option (Option Int)) (hwf : GraphWF st) :
    GraphWF (updateNode st name newNameArg durationArg parentsArg childrenArg
      colorArg startArg).2 := by
  unfold updateNode
  simp only
  split
  · exact hwf
  split
  · exact hwf
  case _ hdup2 =>
    split
    · exact hwf
    split
    · exact hwf
    case _ hval =>
      cases hrem : removeNode st name true with
      | mk f st1 =>
        cases f with
        | some e =>
          simp only
          have hri := (removeNode_WF st name true hwf).1
          rw [hrem] at hri
          exact hri
        | none =>
          simp only
          have hrw := removeNode_WF st name true hwf
          rw [hrem] at hrw
          obtain ⟨hwf1, hchar1⟩ := hrw
          have hst1r : st1.rootName = st.rootName := by
            have hrr := removeNode_rootName st name true
            rw [hrem] at hrr
            exact hrr
          have hhas1 : ∀ k, k ≠ name →
              (mapGet st1.list k).isSome = (mapGet st.list k).isSome := by
            intro k hk
            have hh := removeNode_has st name true k hk
            rw [hrem] at hh
            exact hh
          obtain ⟨hv1, hv2, hv3, -, -, -⟩ :=
            runCommonValidation_none st name _ _ _ hval
          have hnewname : ∀ x, mapHas st.list x = true → x ≠ name →
              newNameArg.getD name ≠ x := by
            intro x hx hxn hq
            exact hdup2 ⟨by rw [hq]; exact hx, by rw [hq]; exact hxn⟩
          refine addNode_WF st1 _ _ _ _ _ _ false hwf1 ?_
          intro _
          refine ⟨?_, ?_, ?_⟩
          · intro ps hps p hp
            split at hps
            · cases hps
            · have h6 := hv1 ps hps p hp
              have hpn : p ≠ name := fun hq => h6.2 hq.symm
              refine ⟨?_, hnewname p h6.1 hpn⟩
              rw [hhas1 p hpn]
              exact h6.1
          · intro cs hcs c2 hc2
            split at hcs
            · cases hcs
            · have h6 := hv2 cs hcs c2 hc2
              have hc2name : c2 ≠ name := fun hq => h6.2.1 hq.symm
              refine ⟨?_, hnewname c2 h6.1 hc2name, ?_⟩
              · rw [hhas1 c2 hc2name]
                exact h6.1
              · rw [hst1r]
                exact h6.2.2
          · intro ps cs hps hcs c2 hc2 p hp
            split at hps
            · cases hps
            split at hcs
            · cases hcs
            rw [hps, hcs] at hv3
            have hnopath := findLoop_false_nopath st ps cs hv3 c2 hc2 p hp
            have h6 := hv2 cs hcs c2 hc2
            intro hpath
            rcases Relation.reflTransGen_iff_eq_or_transGen.mp hpath with heq | htg
            · exact hnopath (by rw [heq])
            · have hi : InvOn st1.rootName st1.list (fun _ => False) := hwf1.1
              rw [hst1r] at hi
              have hnoin1 : ∀ a b, EdgeC st1 a b → b ≠ st.rootName :=
                invW_no_edge_to_root st.rootName st1 hi
              have htg2 := transGen_avoid (EdgeC st) (EdgeC st1) st.rootName hchar1
                hnoin1 c2 p htg h6.2.2
              exact hnopath htg2.to_reflTransGen

/-- The freshly constructed graph holds exactly the root entry. -/
theorem mkGraph_state (rootName : String) (startDate : Int) (h : rootName ≠ "") :
    (mkGraph rootName startDate).2 =
      { list := [(rootName, { name := rootName, duration := 0, parents := none, children := none, color := 1, start := none })], defaultColor := 1, startDate := startDate, rootName := rootName } := by
  unfold mkGraph addNode
  have hval : runCommonValidation
      { list := [], defaultColor := 1, startDate := startDate, rootName := rootName }
      rootName 0 none none = none := by
    unfold runCommonValidation
    rw [if_neg (string_length_ne_zero rootName h)]
    rw [if_neg (fun hc => hc.2 rfl)]
    rw [if_neg (by decide : ¬ (0 : Int) < 0)]
    rfl
  rw [if_neg (by decide : ¬ (MAX_NODES ≤ ([] : List (String × entryNode)).length))]
  rw [if_neg (by simp [mapHas, mapGet] : ¬ (mapHas ([] : List (String × entryNode)) rootName = true))]
  rw [if_pos (rfl : (true : Bool) = true), hval]
  simp only
  rw [if_neg (fun hc => hc.2 rfl : ¬ (True ∧ rootName ≠ rootName))]
  simp only
  rfl

/-- The freshly constructed graph is well-formed: one entry, no edges. -/
theorem mkGraph_WF (rootName : String) (startDate : Int) (h : rootName ≠ "") :
    GraphWF (mkGraph rootName startDate).2 := by
  have hst := mkGraph_state rootName startDate h
  have hnoC : ∀ a b, ¬ EdgeC (mkGraph rootName startDate).2 a b := by
    intro a b hedge
    obtain ⟨ea, hea, hm⟩ := hedge
    rw [hst] at hea
    simp only [mapGet] at hea
    split at hea
    · cases Option.some.inj hea
      simp at hm
    · cases hea
  have hnoP : ∀ a b, ¬ EdgeP (mkGraph rootName startDate).2 a b := by
    intro a b hedge
    obtain ⟨eb, heb, hm⟩ := hedge
    rw [hst] at heb
    simp only [mapGet] at heb
    split at heb
    · cases Option.some.inj heb
      simp at hm
    · cases heb
  refine ⟨invOn_mono _ _ _ _ (mkGraph_inv rootName startDate h) (fun k hk => trivial),
    ?_, ?_, ?_⟩
  · exact fun a b hP => absurd hP (hnoP a b)
  · exact fun a b hC => absurd hC (hnoC a b)
  · intro a h2
    obtain ⟨w, -, hw⟩ := Relation.TransGen.tail'_iff.mp h2
    exact hnoC w a hw

/-- C2: for every graph state reachable from a freshly constructed graph via
any sequence of addNode, updateNode and removeNode calls, the directed graph
formed by the combined parent/child edge records contains no directed cycle
(any operation that would close a cycle is rejected with GraphLoop before
mutating). -/
theorem claim_C2 (rootName : String) (startDate : Int) (st : GraphState)
    (h : Reachable rootName startDate st) :
    ∀ a, ¬ Relation.TransGen (fun u v => EdgeC st u v ∨ EdgeP st u v) a a := by
  have hwf : GraphWF st := by
    induction h with
    | init hne => exact mkGraph_WF rootName startDate hne
    | @add st2 hprev name duration parents children color start ih =>
      exact addNode_WF_valid st2 name duration parents children color start ih
    | @update st2 hprev name newNameArg durationArg parentsArg childrenArg colorArg startArg ih =>
      exact updateNode_WF st2 name newNameArg durationArg parentsArg childrenArg
        colorArg startArg ih
    | @remove st2 hprev name isUpdate ih =>
      exact (removeNode_WF st2 name isUpdate ih).1
  obtain ⟨hinv, hinc, hco, hacyc⟩ := hwf
  intro a h2
  refine hacyc a (Relation.TransGen.mono ?_ h2)
  intro u v huv
  rcases huv with huv | huv
  · exact huv
  · rcases hinc u v huv with h3 | h3
    · exact h3
    · cases h3

/-- Witness: the acyclicity theorem applied to the concrete two-node graph
obtained by adding one task to a fresh graph. -/
theorem claim_C2_witness :
    ¬ Relation.TransGen
      (fun u v => EdgeC (addNode (mkGraph "R" 0).2 "A" 1 none none 1 none true).2 u v
        ∨ EdgeP (addNode (mkGraph "R" 0).2 "A" 1 none none 1 none true).2 u v) "A" "A" :=
  claim_C2 "R" 0 _ (Reachable.add (Reachable.init (by decide)) "A" 1 none none 1 none) "A"

end GanttSpec
